import Mathlib

/-!
Lock-free stack and queue: a verification development.

Shallow embedding of

* `Phase 4/12-lockfree-stack.cpp`   (`LockFreeStack`, hazard pointers, retire list),
* `Phase 4/13-lockfree-queue.cpp`   (`MichaelScottQueue`),
* `Phase 3/19-lock-free-queue.cpp`  (`LockFreeQueue`),
* `Phase 4/11-aba-problem-detailed.cpp` (`HazardPointer`, `HazardPointerStack`),
* `Phase 4/8-cache-oblivious-algorithms.cpp` (`matrix_mult_naive`, `matrix_mult_blocked`).

Conventions of the embedding.

* A pointer is `Option Nat`: `none` is `nullptr`, `some a` is the address `a`.
* The free store is a finite table of cells (`Mem`).  A cell is `some x` while an
  object lives at that address and `none` otherwise.  `new` asks an `Allocator`
  for an address that is not live (any policy: fresh addresses or reuse of freed
  ones), `delete` empties the cell.
* Dereferencing a pointer that is null or not live, deleting a pointer that is
  not live and indexing an array out of bounds are undefined behaviour; a model
  function returns `none` there.  A loop carries a fuel counter and returns
  `none` when it is exhausted.
* `compare_exchange_weak` may fail although the compared values are equal.  Every
  operation takes a list of booleans, one per CAS attempt in program order,
  saying whether that attempt fails spuriously (`true`); when the list is
  exhausted no further attempt fails spuriously.
* Execution is sequential: between two steps of an operation no other thread
  changes the shared state.  The exceptions are the definitions whose name ends
  in `_interleaved`: they take what the other threads do at a preemption point
  as a parameter.
* Arithmetic on matrix entries of type `int` wraps around (`wrap32`); arithmetic
  on loop counters of type `int` is undefined when it overflows.
-/

set_option maxRecDepth 10000

namespace LockFree

/-! ## Memory -/

/-- A pointer: `none` is the null pointer. -/
abbrev Ptr := Option Nat

/-- The free store: cell `a` is `some x` exactly while an object `x` lives at address `a`. -/
abbrev Mem (α : Type) := List (Option α)

/-- Content of address `a`, `none` when nothing lives there. -/
def Mem.read {α : Type} (m : Mem α) (a : Nat) : Option α :=
  (m.get? a).join

/-- Store `x` at address `a` (the table grows when `a` lies beyond its end). -/
def Mem.write {α : Type} (m : Mem α) (a : Nat) (x : α) : Mem α :=
  if a < m.length then m.set a (some x)
  else m ++ List.replicate (a - m.length) none ++ [some x]

/-- Empty the cell at address `a`. -/
def Mem.free {α : Type} (m : Mem α) (a : Nat) : Mem α :=
  m.set a none

/-- Dereference a pointer: undefined (`none`) for null and for a dead address. -/
def Mem.deref {α : Type} (m : Mem α) (p : Ptr) : Option α :=
  match p with
  | none => none
  | some a => m.read a

/-- The statement `delete p`: a no-op for null, undefined for a dead address. -/
def Mem.delete {α : Type} (m : Mem α) (p : Ptr) : Option (Mem α) :=
  match p with
  | none => some m
  | some a =>
    match m.read a with
    | none => none
    | some _ => some (m.free a)

/-- An allocation policy: `pick m` is the address the next `new` returns; it is never live. -/
structure Allocator (α : Type) where
  pick : Mem α → Nat
  fresh : ∀ m : Mem α, m.read (pick m) = none

/-- Next spurious-failure flag of a schedule; an exhausted schedule yields `false`. -/
def flag (o : List Bool) : Bool := o.headD false

/-- `compare_exchange_weak` on a location holding `cur`: returns the success flag, the new content
of the location and the new content of `expected`. -/
def cas_weak {α : Type} [DecidableEq α] (spurious : Bool) (cur expected desired : α) :
    Bool × α × α :=
  if cur = expected ∧ spurious = false then (true, desired, expected)
  else (false, cur, cur)

/-- The `struct Node` that each of the classes declares: a payload and a `next` pointer. -/
structure Node (T : Type) where
  data : T
  next : Ptr
  deriving DecidableEq

/-- Outcome of one iteration of a retry loop: go round again with new loop variables, or return. -/
inductive Iter (σ ρ : Type) where
  | again (s : σ)
  | ret (r : ρ)

/-- Conversion of an integer to a 32-bit `int` (two's complement wrap-around). -/
def wrap32 (x : Int) : Int := (x + 2 ^ 31) % 2 ^ 32 - 2 ^ 31

/-! ## `LockFreeStack` (Phase 4/12-lockfree-stack.cpp) -/

namespace LockFreeStack

/-- The constant `MAX_THREADS`. -/
def MAX_THREADS : Nat := 128

/-- The constant `MAX_HAZARDS` (per thread). -/
def MAX_HAZARDS : Nat := 2

/-- Everything a `LockFreeStack<T>` operation can read or write: the members of the object, the
static counter `next_thread_id`, the `thread_local` variable `thread_id` of every thread (threads
are named by natural numbers) and the free store holding the nodes. -/
structure State (T : Type) where
  head : Ptr
  hazards : Nat → Ptr
  retired_list : List Ptr
  retired_count : Int
  next_thread_id : Int
  thread_id : Nat → Int
  heap : Mem (Node T)

/-- The constructor: `head(nullptr)`, every hazard slot null, nothing retired.  The static and
thread-local variables and the free store are those of the surrounding program. -/
def new {T : Type} (heap : Mem (Node T)) (next_thread_id : Int) (thread_id : Nat → Int) :
    State T :=
  { head := none, hazards := fun _ => none, retired_list := [], retired_count := 0,
    next_thread_id := next_thread_id, thread_id := thread_id, heap := heap }

/-- `get_thread_id()` called by thread `me`: the returned id and the state afterwards. -/
def get_thread_id {T : Type} (me : Nat) (st : State T) : Int × State T :=
  if st.thread_id me = -1 then
    (st.next_thread_id,
      { st with thread_id := Function.update st.thread_id me st.next_thread_id,
                next_thread_id := st.next_thread_id + 1 })
  else (st.thread_id me, st)

/-- Index `tid * MAX_HAZARDS + index` into `hazards.pointers`, `none` when it is outside the
array of `MAX_THREADS * MAX_HAZARDS` entries. -/
def slot (tid index : Int) : Option Nat :=
  let i := tid * (MAX_HAZARDS : Int) + index
  if 0 ≤ i ∧ i < ((MAX_THREADS * MAX_HAZARDS : Nat) : Int) then some i.toNat else none

/-- `set_hazard_pointer(index, ptr)` called by thread `me`. -/
def set_hazard_pointer {T : Type} (me : Nat) (index : Int) (ptr : Ptr) (st : State T) :
    Option (State T) :=
  let r := get_thread_id me st
  match slot r.1 index with
  | none => none
  | some i => some { r.2 with hazards := Function.update r.2.hazards i ptr }

/-- `clear_hazard_pointer(index)` called by thread `me`. -/
def clear_hazard_pointer {T : Type} (me : Nat) (index : Int) (st : State T) :
    Option (State T) :=
  let r := get_thread_id me st
  match slot r.1 index with
  | none => none
  | some i => some { r.2 with hazards := Function.update r.2.hazards i none }

/-- `is_hazardous(ptr)`: some entry of `hazards.pointers` equals `ptr`. -/
def is_hazardous {T : Type} (st : State T) (ptr : Ptr) : Bool :=
  (List.range (MAX_THREADS * MAX_HAZARDS)).any (fun i => decide (st.hazards i = ptr))

/-- The `for` loop of `scan_and_reclaim` over the remaining retired nodes, with the free store and
`still_retired` as accumulators. -/
def scan_loop {T : Type} (st : State T) :
    List Ptr → Mem (Node T) → List Ptr → Option (Mem (Node T) × List Ptr)
  | [], heap, still_retired => some (heap, still_retired)
  | node :: rest, heap, still_retired =>
    if is_hazardous st node = false then
      match heap.delete node with
      | none => none
      | some heap1 => scan_loop st rest heap1 still_retired
    else scan_loop st rest heap (still_retired ++ [node])

/-- `scan_and_reclaim()`. -/
def scan_and_reclaim {T : Type} (st : State T) : Option (State T) :=
  match scan_loop st st.retired_list st.heap [] with
  | none => none
  | some r =>
    some { st with heap := r.1, retired_list := r.2, retired_count := wrap32 (r.2.length : Int) }

/-- `retire_node(node)`. -/
def retire_node {T : Type} (node : Ptr) (st : State T) : Option (State T) :=
  let st1 := { st with retired_list := st.retired_list ++ [node],
                       retired_count := wrap32 (st.retired_count + 1) }
  if st1.retired_count > ((MAX_THREADS * 2 : Nat) : Int) then scan_and_reclaim st1
  else some st1

/-- The `do ... while` loop of `push`; `new_node` is the address of the node being pushed. -/
def push_loop {T : Type} (new_node : Nat) :
    Nat → List Bool → Ptr → State T → Option (State T)
  | 0, _, _, _ => none
  | fuel + 1, o, old_head, st =>
    match st.heap.read new_node with
    | none => none
    | some n =>
      let st1 := { st with heap := st.heap.write new_node { n with next := old_head } }
      let c := cas_weak (flag o) st1.head old_head (some new_node)
      if c.1 = true then some { st1 with head := c.2.1 }
      else push_loop new_node fuel o.tail c.2.2 { st1 with head := c.2.1 }

/-- `push(value)`. -/
def push {T : Type} (A : Allocator (Node T)) (o : List Bool) (fuel : Nat) (value : T)
    (st : State T) : Option (State T) :=
  let new_node := A.pick st.heap
  let st1 := { st with heap := st.heap.write new_node { data := value, next := none } }
  let old_head := st1.head
  push_loop new_node fuel o old_head st1

/-- One iteration of the `while (true)` loop of `pop`, entered with the local `old_head`, the
caller's `result` and the schedule `o`.  Returns the state, the rest of the schedule, and either
the new `old_head` (the loop goes round again) or the content of `result` and the return value. -/
def pop_body {T : Type} (me : Nat) (o : List Bool) (old_head : Ptr) (result : T)
    (st : State T) : Option (State T × List Bool × Iter Ptr (T × Bool)) :=
  match set_hazard_pointer me 0 old_head st with
  | none => none
  | some st1 =>
    let check := st1.head
    if old_head ≠ check then some (st1, o, Iter.again check)
    else if old_head = none then
      match clear_hazard_pointer me 0 st1 with
      | none => none
      | some st2 => some (st2, o, Iter.ret (result, false))
    else
      match st1.heap.deref old_head with
      | none => none
      | some n =>
        let next := n.next
        let c := cas_weak (flag o) st1.head old_head next
        let st2 := { st1 with head := c.2.1 }
        if c.1 = true then
          match st2.heap.deref old_head with
          | none => none
          | some n2 =>
            match clear_hazard_pointer me 0 st2 with
            | none => none
            | some st3 =>
              match retire_node old_head st3 with
              | none => none
              | some st4 => some (st4, o.tail, Iter.ret (n2.data, true))
        else some (st2, o.tail, Iter.again c.2.2)

/-- The `while (true)` loop of `pop`. -/
def pop_loop {T : Type} (me : Nat) :
    Nat → List Bool → Ptr → T → State T → Option (State T × T × Bool)
  | 0, _, _, _, _ => none
  | fuel + 1, o, old_head, result, st =>
    match pop_body me o old_head result st with
    | none => none
    | some (st1, o1, Iter.again old_head1) => pop_loop me fuel o1 old_head1 result st1
    | some (st1, _, Iter.ret r) => some (st1, r.1, r.2)

/-- `pop(result)` called by thread `me`: the state afterwards, the content of `result` afterwards
and the returned flag. -/
def pop {T : Type} (me : Nat) (o : List Bool) (fuel : Nat) (result : T) (st : State T) :
    Option (State T × T × Bool) :=
  pop_loop me fuel o st.head result st

/-- `empty()`. -/
def empty {T : Type} (st : State T) : Bool :=
  decide (st.head = none)

/-- `retired_nodes_count()` (the `int` counter converted to `size_t`). -/
def retired_nodes_count {T : Type} (st : State T) : Nat :=
  (st.retired_count % 2 ^ 64).toNat

end LockFreeStack

/-! ## `HazardPointer` and `HazardPointerStack` (Phase 4/11-aba-problem-detailed.cpp) -/

namespace HazardPointer

/-- The constant `MAX_THREADS` of class `HazardPointer`. -/
def MAX_THREADS : Nat := 128

/-- `is_hazardous(ptr)` on the array `hazard_ptrs`. -/
def is_hazardous (hazard_ptrs : Nat → Ptr) (ptr : Ptr) : Bool :=
  (List.range MAX_THREADS).any (fun i => decide (hazard_ptrs i = ptr))

end HazardPointer

namespace HazardPointerStack

/-- Members of a `HazardPointerStack` (`hp` is the array inside its `HazardPointer`) and the free
store holding its nodes, whose payload is an `int`. -/
structure State where
  head : Ptr
  hp : Nat → Ptr
  retired_nodes : List Ptr
  heap : Mem (Node Int)

/-- The `for` loop of `scan_and_delete`. -/
def scan_loop (st : State) :
    List Ptr → Mem (Node Int) → List Ptr → Option (Mem (Node Int) × List Ptr)
  | [], heap, still_retired => some (heap, still_retired)
  | node :: rest, heap, still_retired =>
    if HazardPointer.is_hazardous st.hp node = false then
      match heap.delete node with
      | none => none
      | some heap1 => scan_loop st rest heap1 still_retired
    else scan_loop st rest heap (still_retired ++ [node])

/-- `scan_and_delete()`. -/
def scan_and_delete (st : State) : Option State :=
  match scan_loop st st.retired_nodes st.heap [] with
  | none => none
  | some r => some { st with heap := r.1, retired_nodes := r.2 }

end HazardPointerStack

/-! ## `MichaelScottQueue` (Phase 4/13-lockfree-queue.cpp) and `LockFreeQueue`
(Phase 3/19-lock-free-queue.cpp) -/

/-- Members `head` and `tail` of a queue object (both classes have exactly these) and the free
store holding its nodes. -/
structure QueueState (T : Type) where
  head : Ptr
  tail : Ptr
  heap : Mem (Node T)

namespace MichaelScottQueue

/-- The constructor.  `Node()` leaves `data` of the dummy node without a specified value; `junk`
is whatever it happens to hold. -/
def new {T : Type} (A : Allocator (Node T)) (junk : T) (heap : Mem (Node T)) : QueueState T :=
  let dummy := A.pick heap
  { head := some dummy, tail := some dummy,
    heap := heap.write dummy { data := junk, next := none } }

/-- One iteration of the `while (true)` loop of `enqueue`; `new_node` is the address of the node
being appended. -/
def enqueue_body {T : Type} (new_node : Nat) (o : List Bool) (st : QueueState T) :
    Option (QueueState T × List Bool × Iter Unit Unit) :=
  let last := st.tail
  match last with
  | none => none
  | some l =>
    match st.heap.read l with
    | none => none
    | some ln =>
      let next := ln.next
      if last = st.tail then
        if next = none then
          let c := cas_weak (flag o) ln.next none (some new_node)
          if c.1 = true then
            let st1 := { st with heap := st.heap.write l { ln with next := c.2.1 } }
            let c2 := cas_weak (flag o.tail) st1.tail last (some new_node)
            some ({ st1 with tail := c2.2.1 }, o.tail.tail, Iter.ret ())
          else some (st, o.tail, Iter.again ())
        else
          let c := cas_weak (flag o) st.tail last next
          some ({ st with tail := c.2.1 }, o.tail, Iter.again ())
      else some (st, o, Iter.again ())

/-- The `while (true)` loop of `enqueue`. -/
def enqueue_loop {T : Type} (new_node : Nat) :
    Nat → List Bool → QueueState T → Option (QueueState T)
  | 0, _, _ => none
  | fuel + 1, o, st =>
    match enqueue_body new_node o st with
    | none => none
    | some (st1, o1, Iter.again _) => enqueue_loop new_node fuel o1 st1
    | some (st1, _, Iter.ret _) => some st1

/-- `enqueue(value)`. -/
def enqueue {T : Type} (A : Allocator (Node T)) (o : List Bool) (fuel : Nat) (value : T)
    (st : QueueState T) : Option (QueueState T) :=
  let new_node := A.pick st.heap
  enqueue_loop new_node fuel o
    { st with heap := st.heap.write new_node { data := value, next := none } }

/-- One iteration of the `while (true)` loop of `dequeue`, entered with the current content of the
caller's `result`. -/
def dequeue_body {T : Type} (o : List Bool) (result : T) (st : QueueState T) :
    Option (QueueState T × List Bool × Iter T (T × Bool)) :=
  let first := st.head
  let last := st.tail
  match first with
  | none => none
  | some f =>
    match st.heap.read f with
    | none => none
    | some fn =>
      let next := fn.next
      if first = st.head then
        if first = last then
          if next = none then some (st, o, Iter.ret (result, false))
          else
            let c := cas_weak (flag o) st.tail last next
            some ({ st with tail := c.2.1 }, o.tail, Iter.again result)
        else
          match st.heap.deref next with
          | none => none
          | some nn =>
            let result1 := nn.data
            let c := cas_weak (flag o) st.head first next
            if c.1 = true then
              match st.heap.delete first with
              | none => none
              | some heap1 =>
                some ({ st with head := c.2.1, heap := heap1 }, o.tail, Iter.ret (result1, true))
            else some (st, o.tail, Iter.again result1)
      else some (st, o, Iter.again result)

/-- The `while (true)` loop of `dequeue`. -/
def dequeue_loop {T : Type} :
    Nat → List Bool → T → QueueState T → Option (QueueState T × T × Bool)
  | 0, _, _, _ => none
  | fuel + 1, o, result, st =>
    match dequeue_body o result st with
    | none => none
    | some (st1, o1, Iter.again result1) => dequeue_loop fuel o1 result1 st1
    | some (st1, _, Iter.ret r) => some (st1, r.1, r.2)

/-- `dequeue(result)`: the state afterwards, the content of `result` afterwards and the returned
flag. -/
def dequeue {T : Type} (o : List Bool) (fuel : Nat) (result : T) (st : QueueState T) :
    Option (QueueState T × T × Bool) :=
  dequeue_loop fuel o result st

/-- `empty()`. -/
def empty {T : Type} (st : QueueState T) : Option Bool :=
  match st.heap.deref st.head with
  | none => none
  | some first => some (decide (first.next = none))

end MichaelScottQueue

namespace LockFreeQueue

/-- The constructor: the dummy node is `new Node(T())`; `zero` is the value `T()`. -/
def new {T : Type} (A : Allocator (Node T)) (zero : T) (heap : Mem (Node T)) : QueueState T :=
  let dummy := A.pick heap
  { head := some dummy, tail := some dummy,
    heap := heap.write dummy { data := zero, next := none } }

/-- One iteration of the `while (true)` loop of `enqueue`; `new_node` is the address of the node
being appended. -/
def enqueue_body {T : Type} (new_node : Nat) (o : List Bool) (st : QueueState T) :
    Option (QueueState T × List Bool × Iter Unit Unit) :=
  let last := st.tail
  match last with
  | none => none
  | some l =>
    match st.heap.read l with
    | none => none
    | some ln =>
      let next := ln.next
      if last = st.tail then
        if next = none then
          let c := cas_weak (flag o) ln.next none (some new_node)
          if c.1 = true then
            let st1 := { st with heap := st.heap.write l { ln with next := c.2.1 } }
            let c2 := cas_weak (flag o.tail) st1.tail last (some new_node)
            some ({ st1 with tail := c2.2.1 }, o.tail.tail, Iter.ret ())
          else some (st, o.tail, Iter.again ())
        else
          let c := cas_weak (flag o) st.tail last next
          some ({ st with tail := c.2.1 }, o.tail, Iter.again ())
      else some (st, o, Iter.again ())

/-- The `while (true)` loop of `enqueue`. -/
def enqueue_loop {T : Type} (new_node : Nat) :
    Nat → List Bool → QueueState T → Option (QueueState T)
  | 0, _, _ => none
  | fuel + 1, o, st =>
    match enqueue_body new_node o st with
    | none => none
    | some (st1, o1, Iter.again _) => enqueue_loop new_node fuel o1 st1
    | some (st1, _, Iter.ret _) => some st1

/-- `enqueue(value)`. -/
def enqueue {T : Type} (A : Allocator (Node T)) (o : List Bool) (fuel : Nat) (value : T)
    (st : QueueState T) : Option (QueueState T) :=
  let new_node := A.pick st.heap
  enqueue_loop new_node fuel o
    { st with heap := st.heap.write new_node { data := value, next := none } }

/-- One iteration of the `while (true)` loop of `dequeue`, entered with the current content of the
caller's `result`. -/
def dequeue_body {T : Type} (o : List Bool) (result : T) (st : QueueState T) :
    Option (QueueState T × List Bool × Iter T (T × Bool)) :=
  let first := st.head
  let last := st.tail
  match first with
  | none => none
  | some f =>
    match st.heap.read f with
    | none => none
    | some fn =>
      let next := fn.next
      if first = st.head then
        if first = last then
          if next = none then some (st, o, Iter.ret (result, false))
          else
            let c := cas_weak (flag o) st.tail last next
            some ({ st with tail := c.2.1 }, o.tail, Iter.again result)
        else
          match st.heap.deref next with
          | none => none
          | some nn =>
            let result1 := nn.data
            let c := cas_weak (flag o) st.head first next
            if c.1 = true then
              match st.heap.delete first with
              | none => none
              | some heap1 =>
                some ({ st with head := c.2.1, heap := heap1 }, o.tail, Iter.ret (result1, true))
            else some (st, o.tail, Iter.again result1)
      else some (st, o, Iter.again result)

/-- The `while (true)` loop of `dequeue`. -/
def dequeue_loop {T : Type} :
    Nat → List Bool → T → QueueState T → Option (QueueState T × T × Bool)
  | 0, _, _, _ => none
  | fuel + 1, o, result, st =>
    match dequeue_body o result st with
    | none => none
    | some (st1, o1, Iter.again result1) => dequeue_loop fuel o1 result1 st1
    | some (st1, _, Iter.ret r) => some (st1, r.1, r.2)

/-- `dequeue(result)`: the state afterwards, the content of `result` afterwards and the returned
flag. -/
def dequeue {T : Type} (o : List Bool) (fuel : Nat) (result : T) (st : QueueState T) :
    Option (QueueState T × T × Bool) :=
  dequeue_loop fuel o result st

end LockFreeQueue

/-! ## Sequences of calls and representation predicates -/

/-- `Chain heap p cells`: starting at `p` and following `next`, one visits exactly the live nodes
whose addresses and payloads are listed in `cells`, and then reaches the null pointer. -/
def Chain {T : Type} (heap : Mem (Node T)) : Ptr → List (Nat × T) → Prop
  | p, [] => p = none
  | p, c :: rest =>
    p = some c.1 ∧
      match heap.read c.1 with
      | none => False
      | some n => n.data = c.2 ∧ Chain heap n.next rest

/-- The payloads found by following `next` from `p`, for at most `fuel` nodes; `none` when the
walk meets a dead node or does not reach the null pointer within `fuel` nodes. -/
def payloads {T : Type} (heap : Mem (Node T)) : Nat → Ptr → Option (List T)
  | _, none => some []
  | 0, some _ => none
  | fuel + 1, some a =>
    match heap.read a with
    | none => none
    | some n =>
      match payloads heap fuel n.next with
      | none => none
      | some vs => some (n.data :: vs)

/-- The deletions `delete p` for the pointers of `ps`, in any order, are all defined on `heap`:
the non-null ones are live and pairwise different. -/
def Deletable {α : Type} (heap : Mem α) (ps : List Ptr) : Prop :=
  (∀ a, some a ∈ ps → heap.read a ≠ none) ∧ ps.reduceOption.Nodup

namespace LockFreeStack

/-- A call of a stack operation. -/
inductive Op (T : Type) where
  | push (v : T)
  | pop

/-- Thread `me` runs the calls one after the other; each call comes with its schedule of spurious
CAS failures and is given one loop iteration more than the schedule is long.  `result` is the
caller's variable passed to every `pop`.  Returns the final state, the final content of `result`,
and for every `pop`, in order, its return value and the content of `result` after it. -/
def run {T : Type} (A : Allocator (Node T)) (me : Nat) :
    List (Op T × List Bool) → T → State T → Option (State T × T × List (Bool × T))
  | [], result, st => some (st, result, [])
  | (Op.push v, o) :: cs, result, st =>
    match push A o (o.length + 1) v st with
    | none => none
    | some st1 => run A me cs result st1
  | (Op.pop, o) :: cs, result, st =>
    match pop me o (o.length + 1) result st with
    | none => none
    | some (st1, result1, b) =>
      match run A me cs result1 st1 with
      | none => none
      | some (st2, result2, outs) => some (st2, result2, (b, result1) :: outs)

/-- The stack as a list, most recently pushed first: content and `result` after the calls, and
the outcome of every `pop`. -/
def model {T : Type} : List (Op T) → List T → T → List T × T × List (Bool × T)
  | [], l, result => (l, result, [])
  | Op.push v :: cs, l, result => model cs (v :: l) result
  | Op.pop :: cs, [], result =>
    let r := model cs [] result
    (r.1, r.2.1, (false, result) :: r.2.2)
  | Op.pop :: cs, v :: l, _ =>
    let r := model cs l v
    (r.1, r.2.1, (true, v) :: r.2.2)

/-- The calling thread can be given a hazard slot: it has an id below `MAX_THREADS` already, or
it has none yet and the next id to hand out is below `MAX_THREADS`. -/
def TidOK (me : Nat) (next_thread_id : Int) (thread_id : Nat → Int) : Prop :=
  (thread_id me = -1 ∧ 0 ≤ next_thread_id ∧ next_thread_id < (MAX_THREADS : Int)) ∨
  (0 ≤ thread_id me ∧ thread_id me < (MAX_THREADS : Int))

/-- The state once thread `me` has been given its thread id. -/
def registered {T : Type} (me : Nat) (st : State T) : State T :=
  (get_thread_id me st).2

/-- Index of hazard slot 0 of thread `me` in `hazards.pointers`. -/
def my_slot {T : Type} (me : Nat) (st : State T) : Nat :=
  ((get_thread_id me st).1 * (MAX_HAZARDS : Int) + 0).toNat

/-- Invariant of the stack between two calls of a single-threaded run by thread `me`; `cells` are
the addresses and payloads of the nodes of the chain. -/
structure Inv {T : Type} (me : Nat) (st : State T) (cells : List (Nat × T)) : Prop where
  chain : Chain st.heap st.head cells
  nodup : (cells.map Prod.fst).Nodup
  retired_live : ∀ p ∈ st.retired_list, ∃ a, p = some a ∧ st.heap.read a ≠ none
  retired_nodup : st.retired_list.Nodup
  retired_disj : ∀ a, some a ∈ st.retired_list → a ∉ cells.map Prod.fst
  count : st.retired_count = (st.retired_list.length : Int)
  count_le : st.retired_list.length ≤ MAX_THREADS * 2
  hazards : ∀ i, st.hazards i = none
  tid : TidOK me st.next_thread_id st.thread_id

end LockFreeStack

/-! ### Queues -/

/-- A call of a queue operation. -/
inductive QueueOp (T : Type) where
  | enqueue (v : T)
  | dequeue

/-- Whether a call is an `enqueue`. -/
def QueueOp.isEnqueue {T : Type} : QueueOp T → Bool
  | QueueOp.enqueue _ => true
  | QueueOp.dequeue => false

/-- The queue as a list, oldest element first: content and `result` after the calls, and the
outcome of every `dequeue`. -/
def queue_model {T : Type} : List (QueueOp T) → List T → T → List T × T × List (Bool × T)
  | [], l, result => (l, result, [])
  | QueueOp.enqueue v :: cs, l, result => queue_model cs (l ++ [v]) result
  | QueueOp.dequeue :: cs, [], result =>
    let r := queue_model cs [] result
    (r.1, r.2.1, (false, result) :: r.2.2)
  | QueueOp.dequeue :: cs, v :: l, _ =>
    let r := queue_model cs l v
    (r.1, r.2.1, (true, v) :: r.2.2)

/-- Invariant of a queue between two calls: the chain from `head` consists of the dummy node `d`
followed by the nodes `cells` of the elements, oldest first, all at different addresses, and
`tail` is the last node of the chain or the one before it. -/
structure QueueInv {T : Type} (st : QueueState T) (d : Nat × T) (cells : List (Nat × T)) :
    Prop where
  chain : Chain st.heap st.head (d :: cells)
  nodup : ((d :: cells).map Prod.fst).Nodup
  tail : (∃ front t, d :: cells = front ++ [t] ∧ st.tail = some t.1) ∨
    (∃ front t z, d :: cells = front ++ [t, z] ∧ st.tail = some t.1)

namespace MichaelScottQueue

/-- The calls are run one after the other; each call comes with its schedule of spurious CAS
failures and is given two loop iterations more than the schedule is long.  `result` is the
caller's variable passed to every `dequeue`.  Returns the final state, the final content of
`result`, and for every `dequeue`, in order, its return value and the content of `result` after
it. -/
def run {T : Type} (A : Allocator (Node T)) :
    List (QueueOp T × List Bool) → T → QueueState T →
      Option (QueueState T × T × List (Bool × T))
  | [], result, st => some (st, result, [])
  | (QueueOp.enqueue v, o) :: cs, result, st =>
    match enqueue A o (o.length + 2) v st with
    | none => none
    | some st1 => run A cs result st1
  | (QueueOp.dequeue, o) :: cs, result, st =>
    match dequeue o (o.length + 2) result st with
    | none => none
    | some (st1, result1, b) =>
      match run A cs result1 st1 with
      | none => none
      | some (st2, result2, outs) => some (st2, result2, (b, result1) :: outs)

end MichaelScottQueue

namespace LockFreeQueue

/-- The calls are run one after the other, as in `MichaelScottQueue.run`. -/
def run {T : Type} (A : Allocator (Node T)) :
    List (QueueOp T × List Bool) → T → QueueState T →
      Option (QueueState T × T × List (Bool × T))
  | [], result, st => some (st, result, [])
  | (QueueOp.enqueue v, o) :: cs, result, st =>
    match enqueue A o (o.length + 2) v st with
    | none => none
    | some st1 => run A cs result st1
  | (QueueOp.dequeue, o) :: cs, result, st =>
    match dequeue o (o.length + 2) result st with
    | none => none
    | some (st1, result1, b) =>
      match run A cs result1 st1 with
      | none => none
      | some (st2, result2, outs) => some (st2, result2, (b, result1) :: outs)

end LockFreeQueue

/-! ### A `dequeue` that is preempted -/

/-- One iteration of the `while (true)` loop of `MichaelScottQueue::dequeue` by a thread that is
preempted at two places.  Between its loads of `head` and `tail` into `first` and `last` and its
load of `first->next` the other threads change the queue by `env1`; between its assignment
`result = next->data` and its CAS on `head` they change it by `env2`.  An environment returns
`none` when the calls of the other threads are themselves undefined.  Everything the thread reads
or writes after a preemption is read from or written to the changed state; its locals `first`,
`last` and `next` keep the values loaded before. -/
def MichaelScottQueue.dequeue_body_interleaved {T : Type}
    (env1 env2 : QueueState T → Option (QueueState T)) (o : List Bool) (result : T)
    (st : QueueState T) : Option (QueueState T × List Bool × Iter T (T × Bool)) :=
  let first := st.head
  let last := st.tail
  match env1 st with
  | none => none
  | some st1 =>
    match first with
    | none => none
    | some f =>
      match st1.heap.read f with
      | none => none
      | some fn =>
        let next := fn.next
        if first = st1.head then
          if first = last then
            if next = none then some (st1, o, Iter.ret (result, false))
            else
              let c := cas_weak (flag o) st1.tail last next
              some ({ st1 with tail := c.2.1 }, o.tail, Iter.again result)
          else
            match st1.heap.deref next with
            | none => none
            | some nn =>
              let result1 := nn.data
              match env2 st1 with
              | none => none
              | some st2 =>
                let c := cas_weak (flag o) st2.head first next
                if c.1 = true then
                  match st2.heap.delete first with
                  | none => none
                  | some heap1 =>
                    some ({ st2 with head := c.2.1, heap := heap1 }, o.tail,
                      Iter.ret (result1, true))
                else some (st2, o.tail, Iter.again result1)
        else some (st1, o, Iter.again result)

/-- One iteration of the `while (true)` loop of `LockFreeQueue::dequeue` by a thread that is
preempted at two places.  Between its loads of `head` and `tail` into `first` and `last` and its
load of `first->next` the other threads change the queue by `env1`; between its assignment
`result = next->data` and its CAS on `head` they change it by `env2`.  An environment returns
`none` when the calls of the other threads are themselves undefined.  Everything the thread reads
or writes after a preemption is read from or written to the changed state; its locals `first`,
`last` and `next` keep the values loaded before. -/
def LockFreeQueue.dequeue_body_interleaved {T : Type}
    (env1 env2 : QueueState T → Option (QueueState T)) (o : List Bool) (result : T)
    (st : QueueState T) : Option (QueueState T × List Bool × Iter T (T × Bool)) :=
  let first := st.head
  let last := st.tail
  match env1 st with
  | none => none
  | some st1 =>
    match first with
    | none => none
    | some f =>
      match st1.heap.read f with
      | none => none
      | some fn =>
        let next := fn.next
        if first = st1.head then
          if first = last then
            if next = none then some (st1, o, Iter.ret (result, false))
            else
              let c := cas_weak (flag o) st1.tail last next
              some ({ st1 with tail := c.2.1 }, o.tail, Iter.again result)
          else
            match st1.heap.deref next with
            | none => none
            | some nn =>
              let result1 := nn.data
              match env2 st1 with
              | none => none
              | some st2 =>
                let c := cas_weak (flag o) st2.head first next
                if c.1 = true then
                  match st2.heap.delete first with
                  | none => none
                  | some heap1 =>
                    some ({ st2 with head := c.2.1, heap := heap1 }, o.tail,
                      Iter.ret (result1, true))
                else some (st2, o.tail, Iter.again result1)
        else some (st1, o, Iter.again result)

/-! ### Two allocation policies -/

/-- The allocator that never reuses an address: the next address is the size of the table. -/
def Allocator.bump (α : Type) : Allocator α where
  pick := fun m => m.length
  fresh := fun m => by
    unfold Mem.read
    simp

/-- The allocator that reuses the lowest dead address, and extends the table when none is dead. -/
def Allocator.reuse (α : Type) : Allocator α where
  pick := fun m => m.findIdx (fun c => c.isNone)
  fresh := fun m => by
    unfold Mem.read
    by_cases h : m.findIdx (fun c => c.isNone) < m.length
    · have h1 := List.findIdx_getElem (w := h)
      rw [List.get?_eq_getElem?, List.getElem?_eq_getElem h]
      cases hc : m[m.findIdx (fun c => c.isNone)] with
      | none => rfl
      | some x => simp [hc] at h1
    · rw [List.get?_eq_getElem?, List.getElem?_eq_none (Nat.le_of_not_lt h)]
      rfl

/-! ### Example states -/

/-- A stack state in which the nodes at addresses 0, 1 and 2 are retired and node 1 is published
in hazard slot 3. -/
def LockFreeStack.example_state : LockFreeStack.State Nat :=
  { head := none, hazards := fun j => if j = 3 then some 1 else none,
    retired_list := [some 0, some 1, some 2], retired_count := 3, next_thread_id := 2,
    thread_id := fun _ => -1,
    heap := [some { data := 10, next := none }, some { data := 11, next := none },
             some { data := 12, next := none }] }

/-- A stack holding the single element 10 in the node at address 0; no thread has an id yet. -/
def LockFreeStack.one_node_state : LockFreeStack.State Nat :=
  { head := some 0, hazards := fun _ => none, retired_list := [], retired_count := 0,
    next_thread_id := 0, thread_id := fun _ => -1,
    heap := [some { data := 10, next := none }] }

/-- The threads of the list call `pop(result)` one after the other, without spurious CAS failure;
each call is given one loop iteration. -/
def LockFreeStack.pop_each {T : Type} (result : T) :
    List Nat → LockFreeStack.State T → Option (LockFreeStack.State T)
  | [], st => some st
  | me :: rest, st =>
    match LockFreeStack.pop me [] 1 result st with
    | none => none
    | some r => LockFreeStack.pop_each result rest r.1

/-- The threads `0 .. k-1` have the ids `0 .. k-1`, no other thread has one, and the stack is
empty. -/
def LockFreeStack.Ids {T : Type} (k : Nat) (st : LockFreeStack.State T) : Prop :=
  st.head = none ∧ st.next_thread_id = (k : Int) ∧
  (∀ j, j < k → st.thread_id j = (j : Int)) ∧ (∀ j, k ≤ j → st.thread_id j = -1)

/-- The `while (current)` loop of the destructor `~LockFreeStack()`; `fuel` bounds the number of
iterations. -/
def LockFreeStack.destroy_chain {T : Type} :
    Nat → Ptr → Mem (Node T) → Option (Mem (Node T))
  | _, none, heap => some heap
  | 0, some _, _ => none
  | fuel + 1, some a, heap =>
    match heap.deref (some a) with
    | none => none
    | some n =>
      let next := n.next
      match heap.delete (some a) with
      | none => none
      | some heap1 => LockFreeStack.destroy_chain fuel next heap1

/-- The loop `for (Node* node : retired_list) delete node;` of the destructor. -/
def LockFreeStack.delete_all {T : Type} : List Ptr → Mem (Node T) → Option (Mem (Node T))
  | [], heap => some heap
  | node :: rest, heap =>
    match heap.delete node with
    | none => none
    | some heap1 => LockFreeStack.delete_all rest heap1

/-- The destructor `~LockFreeStack()`: the free store it leaves behind. -/
def LockFreeStack.destructor {T : Type} (fuel : Nat) (st : LockFreeStack.State T) :
    Option (Mem (Node T)) :=
  match LockFreeStack.destroy_chain fuel st.head st.heap with
  | none => none
  | some heap1 => LockFreeStack.delete_all st.retired_list heap1

/-- The nodes of the stack and the retired nodes are exactly what the stack has allocated and not
yet freed since it was constructed in the free store `heap0`: their addresses were not live in
`heap0`, and every other address holds what it held in `heap0`. -/
def LockFreeStack.Owned {T : Type} (heap0 : Mem (Node T)) (st : LockFreeStack.State T)
    (cells : List (Nat × T)) : Prop :=
  (∀ b, b ∈ cells.map Prod.fst → heap0.read b = none) ∧
  (∀ b, some b ∈ st.retired_list → heap0.read b = none) ∧
  (∀ b, b ∉ cells.map Prod.fst → some b ∉ st.retired_list → st.heap.read b = heap0.read b)

/-- A `HazardPointerStack` state in which the nodes at addresses 0, 1 and 2 are retired and node
1 is published in hazard slot 3. -/
def HazardPointerStack.example_state : HazardPointerStack.State :=
  { head := none, hp := fun j => if j = 3 then some 1 else none,
    retired_nodes := [some 0, some 1, some 2],
    heap := [some { data := 10, next := none }, some { data := 11, next := none },
             some { data := 12, next := none }] }

/-- The pointer reached from `p` by following `next` exactly `k` times; null when the walk meets
the null pointer or a dead node before that. -/
def nth_next {T : Type} (heap : Mem (Node T)) : Nat → Ptr → Ptr
  | 0, p => p
  | k + 1, p =>
    match heap.deref p with
    | none => none
    | some n => nth_next heap k n.next

/-! ## `HazardPointer` and `HazardPointerStack`: the operations
(Phase 4/11-aba-problem-detailed.cpp) -/

namespace HazardPointer

/-- `set_hazard(thread_id, ptr)`: undefined when `thread_id` is not an index of `hazard_ptrs`. -/
def set_hazard (hazard_ptrs : Nat → Ptr) (thread_id : Int) (ptr : Ptr) : Option (Nat → Ptr) :=
  if 0 ≤ thread_id ∧ thread_id < (MAX_THREADS : Int) then
    some (Function.update hazard_ptrs thread_id.toNat ptr)
  else none

/-- `clear_hazard(thread_id)`. -/
def clear_hazard (hazard_ptrs : Nat → Ptr) (thread_id : Int) : Option (Nat → Ptr) :=
  if 0 ≤ thread_id ∧ thread_id < (MAX_THREADS : Int) then
    some (Function.update hazard_ptrs thread_id.toNat none)
  else none

end HazardPointer

namespace HazardPointerStack

/-- The constructor: `head(nullptr)`, every hazard slot null, nothing retired. -/
def new (heap : Mem (Node Int)) : State :=
  { head := none, hp := fun _ => none, retired_nodes := [], heap := heap }

/-- The `do ... while` loop of `push`; `new_node` is the address of the node being pushed. -/
def push_loop (new_node : Nat) : Nat → List Bool → Ptr → State → Option State
  | 0, _, _, _ => none
  | fuel + 1, o, old_head, st =>
    match st.heap.read new_node with
    | none => none
    | some n =>
      let st1 := { st with heap := st.heap.write new_node { n with next := old_head } }
      let c := cas_weak (flag o) st1.head old_head (some new_node)
      if c.1 = true then some { st1 with head := c.2.1 }
      else push_loop new_node fuel o.tail c.2.2 { st1 with head := c.2.1 }

/-- `push(value)`. -/
def push (A : Allocator (Node Int)) (o : List Bool) (fuel : Nat) (value : Int) (st : State) :
    Option State :=
  let new_node := A.pick st.heap
  let st1 := { st with heap := st.heap.write new_node { data := value, next := none } }
  let old_head := st1.head
  push_loop new_node fuel o old_head st1

/-- One iteration of the `while (true)` loop of `pop(result, thread_id)`. -/
def pop_body (thread_id : Int) (o : List Bool) (result : Int) (st : State) :
    Option (State × List Bool × Iter Unit (Int × Bool)) :=
  let old_head := st.head
  if old_head = none then some (st, o, Iter.ret (result, false))
  else
    match HazardPointer.set_hazard st.hp thread_id old_head with
    | none => none
    | some hp1 =>
      let st1 := { st with hp := hp1 }
      if old_head ≠ st1.head then some (st1, o, Iter.again ())
      else
        match st1.heap.deref old_head with
        | none => none
        | some n =>
          let next := n.next
          let c := cas_weak (flag o) st1.head old_head next
          let st2 := { st1 with head := c.2.1 }
          if c.1 = true then
            match st2.heap.deref old_head with
            | none => none
            | some n2 =>
              match HazardPointer.clear_hazard st2.hp thread_id with
              | none => none
              | some hp3 =>
                let st3 := { st2 with hp := hp3,
                                      retired_nodes := st2.retired_nodes ++ [old_head] }
                match scan_and_delete st3 with
                | none => none
                | some st4 => some (st4, o.tail, Iter.ret (n2.data, true))
          else some (st2, o.tail, Iter.again ())

/-- The `while (true)` loop of `pop`. -/
def pop_loop (thread_id : Int) :
    Nat → List Bool → Int → State → Option (State × Int × Bool)
  | 0, _, _, _ => none
  | fuel + 1, o, result, st =>
    match pop_body thread_id o result st with
    | none => none
    | some (st1, o1, Iter.again _) => pop_loop thread_id fuel o1 result st1
    | some (st1, _, Iter.ret r) => some (st1, r.1, r.2)

/-- `pop(result, thread_id)`: the state afterwards, the content of `result` afterwards and the
returned flag. -/
def pop (thread_id : Int) (o : List Bool) (fuel : Nat) (result : Int) (st : State) :
    Option (State × Int × Bool) :=
  pop_loop thread_id fuel o result st

end HazardPointerStack

/-! ## `TaggedStack` (Phase 4/11-aba-problem-detailed.cpp) and `SafeStack`
(Phase 3/16-aba-problem.cpp) -/

/-- The `struct TaggedPointer`: a pointer and a version tag of type `uintptr_t`. -/
structure TaggedPointer where
  ptr : Ptr
  tag : Nat
  deriving DecidableEq

/-- Member `head` of a `TaggedStack` or `SafeStack` object and the free store holding its nodes,
whose payload is an `int`. -/
structure TaggedState where
  head : TaggedPointer
  heap : Mem (Node Int)

namespace TaggedStack

/-- The helper `compare_exchange(atomic_tp, expected, desired)` run without interference: a load,
a comparison of both fields, and a store.  Returns the returned flag, the new content of
`atomic_tp` and the new content of `expected`. -/
def compare_exchange (atomic_tp expected desired : TaggedPointer) :
    Bool × TaggedPointer × TaggedPointer :=
  let current := atomic_tp
  if current.ptr = expected.ptr ∧ current.tag = expected.tag then (true, desired, expected)
  else (false, atomic_tp, current)

/-- The helper `compare_exchange` when other threads act on `atomic_tp` between its
`atomic_tp.load()` and its `atomic_tp.store(desired)`: `env` maps the content that was loaded to
the content the other threads have left when the store (or the return) happens. -/
def compare_exchange_interleaved (env : TaggedPointer → TaggedPointer)
    (atomic_tp expected desired : TaggedPointer) : Bool × TaggedPointer × TaggedPointer :=
  let current := atomic_tp
  let atomic_tp1 := env atomic_tp
  if current.ptr = expected.ptr ∧ current.tag = expected.tag then (true, desired, expected)
  else (false, atomic_tp1, current)

/-- The constructor: `head.store(TaggedPointer(nullptr, 0))`. -/
def new (heap : Mem (Node Int)) : TaggedState :=
  { head := { ptr := none, tag := 0 }, heap := heap }

/-- The `do ... while` loop of `push`; `w` is the number of bits of `uintptr_t` and `new_node`
the address of the node being pushed. -/
def push_loop (w : Nat) (new_node : Nat) :
    Nat → TaggedPointer → TaggedState → Option TaggedState
  | 0, _, _ => none
  | fuel + 1, old_head, st =>
    match st.heap.read new_node with
    | none => none
    | some n =>
      let st1 := { st with heap := st.heap.write new_node { n with next := old_head.ptr } }
      let new_head : TaggedPointer :=
        { ptr := some new_node, tag := (old_head.tag + 1) % 2 ^ w }
      let c := compare_exchange st1.head old_head new_head
      if c.1 = true then some { st1 with head := c.2.1 }
      else push_loop w new_node fuel c.2.2 { st1 with head := c.2.1 }

/-- `push(value)`. -/
def push (A : Allocator (Node Int)) (w : Nat) (fuel : Nat) (value : Int) (st : TaggedState) :
    Option TaggedState :=
  let new_node := A.pick st.heap
  let st1 := { st with heap := st.heap.write new_node { data := value, next := none } }
  let old_head := st1.head
  push_loop w new_node fuel old_head st1

/-- The `while (old_head.ptr != nullptr)` loop of `pop` and the `return false` behind it. -/
def pop_loop (w : Nat) :
    Nat → TaggedPointer → Int → TaggedState → Option (TaggedState × Int × Bool)
  | 0, _, _, _ => none
  | fuel + 1, old_head, result, st =>
    if old_head.ptr = none then some (st, result, false)
    else
      match st.heap.deref old_head.ptr with
      | none => none
      | some n =>
        let new_head : TaggedPointer := { ptr := n.next, tag := (old_head.tag + 1) % 2 ^ w }
        let c := compare_exchange st.head old_head new_head
        let st1 := { st with head := c.2.1 }
        if c.1 = true then
          match st1.heap.deref old_head.ptr with
          | none => none
          | some n2 =>
            match st1.heap.delete old_head.ptr with
            | none => none
            | some heap1 => some ({ st1 with heap := heap1 }, n2.data, true)
        else pop_loop w fuel c.2.2 result st1

/-- `pop(result)`: the state afterwards, the content of `result` afterwards and the returned
flag. -/
def pop (w : Nat) (fuel : Nat) (result : Int) (st : TaggedState) :
    Option (TaggedState × Int × Bool) :=
  pop_loop w fuel st.head result st

end TaggedStack

namespace SafeStack

/-- The helper `compare_exchange`: `atomic_tp.compare_exchange_weak(expected, desired)`, which
compares pointer and tag together and may fail spuriously. -/
def compare_exchange (spurious : Bool) (atomic_tp expected desired : TaggedPointer) :
    Bool × TaggedPointer × TaggedPointer :=
  cas_weak spurious atomic_tp expected desired

/-- The constructor: `tp.ptr = nullptr; tp.tag = 0; head.store(tp)`. -/
def new (heap : Mem (Node Int)) : TaggedState :=
  { head := { ptr := none, tag := 0 }, heap := heap }

/-- The `do ... while` loop of `push`; `w` is the number of bits of `uintptr_t` and `new_node`
the address of the node being pushed. -/
def push_loop (w : Nat) (new_node : Nat) :
    Nat → List Bool → TaggedPointer → TaggedState → Option TaggedState
  | 0, _, _, _ => none
  | fuel + 1, o, old_head, st =>
    match st.heap.read new_node with
    | none => none
    | some n =>
      let st1 := { st with heap := st.heap.write new_node { n with next := old_head.ptr } }
      let new_head : TaggedPointer :=
        { ptr := some new_node, tag := (old_head.tag + 1) % 2 ^ w }
      let c := compare_exchange (flag o) st1.head old_head new_head
      if c.1 = true then some { st1 with head := c.2.1 }
      else push_loop w new_node fuel o.tail c.2.2 { st1 with head := c.2.1 }

/-- `push(value)`. -/
def push (A : Allocator (Node Int)) (w : Nat) (o : List Bool) (fuel : Nat) (value : Int)
    (st : TaggedState) : Option TaggedState :=
  let new_node := A.pick st.heap
  let st1 := { st with heap := st.heap.write new_node { data := value, next := none } }
  let old_head := st1.head
  push_loop w new_node fuel o old_head st1

/-- The `while (old_head.ptr != nullptr)` loop of `pop` and the `return false` behind it. -/
def pop_loop (w : Nat) :
    Nat → List Bool → TaggedPointer → Int → TaggedState → Option (TaggedState × Int × Bool)
  | 0, _, _, _, _ => none
  | fuel + 1, o, old_head, result, st =>
    if old_head.ptr = none then some (st, result, false)
    else
      match st.heap.deref old_head.ptr with
      | none => none
      | some n =>
        let new_head : TaggedPointer := { ptr := n.next, tag := (old_head.tag + 1) % 2 ^ w }
        let c := compare_exchange (flag o) st.head old_head new_head
        let st1 := { st with head := c.2.1 }
        if c.1 = true then
          match st1.heap.deref old_head.ptr with
          | none => none
          | some n2 =>
            match st1.heap.delete old_head.ptr with
            | none => none
            | some heap1 => some ({ st1 with heap := heap1 }, n2.data, true)
        else pop_loop w fuel o.tail c.2.2 result st1

/-- `pop(result)`: the state afterwards, the content of `result` afterwards and the returned
flag. -/
def pop (w : Nat) (o : List Bool) (fuel : Nat) (result : Int) (st : TaggedState) :
    Option (TaggedState × Int × Bool) :=
  pop_loop w fuel o st.head result st

end SafeStack

/-! ### Runs of the other stacks -/

namespace HazardPointerStack

/-- The calls are run one after the other by one thread, which passes `thread_id` to every
`pop`; schedules and fuel as in `LockFreeStack.run`. -/
def run (A : Allocator (Node Int)) (thread_id : Int) :
    List (LockFreeStack.Op Int × List Bool) → Int → State →
      Option (State × Int × List (Bool × Int))
  | [], result, st => some (st, result, [])
  | (LockFreeStack.Op.push v, o) :: cs, result, st =>
    match push A o (o.length + 1) v st with
    | none => none
    | some st1 => run A thread_id cs result st1
  | (LockFreeStack.Op.pop, o) :: cs, result, st =>
    match pop thread_id o (o.length + 1) result st with
    | none => none
    | some (st1, result1, b) =>
      match run A thread_id cs result1 st1 with
      | none => none
      | some (st2, result2, outs) => some (st2, result2, (b, result1) :: outs)

/-- Invariant of a `HazardPointerStack` between two calls of a single-threaded run. -/
structure Inv (st : State) (cells : List (Nat × Int)) : Prop where
  chain : Chain st.heap st.head cells
  nodup : (cells.map Prod.fst).Nodup
  retired : st.retired_nodes = []
  hazards : ∀ i, st.hp i = none

end HazardPointerStack

/-- Invariant of a `TaggedStack` or `SafeStack` between two calls of a single-threaded run. -/
structure TaggedInv (w : Nat) (st : TaggedState) (cells : List (Nat × Int)) : Prop where
  chain : Chain st.heap st.head.ptr cells
  nodup : (cells.map Prod.fst).Nodup
  tag : st.head.tag < 2 ^ w

namespace SafeStack

/-- The calls are run one after the other; every call is given one loop iteration more than its
schedule of spurious CAS failures is long, and `pop` one more for leaving its loop. -/
def run (A : Allocator (Node Int)) (w : Nat) :
    List (LockFreeStack.Op Int × List Bool) → Int → TaggedState →
      Option (TaggedState × Int × List (Bool × Int))
  | [], result, st => some (st, result, [])
  | (LockFreeStack.Op.push v, o) :: cs, result, st =>
    match push A w o (o.length + 1) v st with
    | none => none
    | some st1 => run A w cs result st1
  | (LockFreeStack.Op.pop, o) :: cs, result, st =>
    match pop w o (o.length + 1) result st with
    | none => none
    | some (st1, result1, b) =>
      match run A w cs result1 st1 with
      | none => none
      | some (st2, result2, outs) => some (st2, result2, (b, result1) :: outs)

end SafeStack

namespace TaggedStack

/-- The calls are run one after the other; no CAS of a `TaggedStack` fails in a run without
interference, so one loop iteration per call is enough. -/
def run (A : Allocator (Node Int)) (w : Nat) :
    List (LockFreeStack.Op Int) → Int → TaggedState →
      Option (TaggedState × Int × List (Bool × Int))
  | [], result, st => some (st, result, [])
  | LockFreeStack.Op.push v :: cs, result, st =>
    match push A w 1 v st with
    | none => none
    | some st1 => run A w cs result st1
  | LockFreeStack.Op.pop :: cs, result, st =>
    match pop w 1 result st with
    | none => none
    | some (st1, result1, b) =>
      match run A w cs result1 st1 with
      | none => none
      | some (st2, result2, outs) => some (st2, result2, (b, result1) :: outs)

end TaggedStack

/-- Whether a call is a `push`. -/
def LockFreeStack.Op.isPush {T : Type} : LockFreeStack.Op T → Bool
  | LockFreeStack.Op.push _ => true
  | LockFreeStack.Op.pop => false

/-- Number of mutations of a run: the calls of `push` and the calls of `pop` that returned
`true`. -/
def mutations {T : Type} (ops : List (LockFreeStack.Op T)) (outs : List (Bool × T)) : Nat :=
  (ops.filter LockFreeStack.Op.isPush).length + (outs.filter (fun x => x.1)).length

/-! ## Matrix multiplication (Phase 4/8-cache-oblivious-algorithms.cpp) -/

/-- A `std::vector<std::vector<int>>`: the entry in row `i` and column `j`. -/
abbrev IntMatrix := Nat → Nat → Int

/-- The assignment `C[i][j] = x`. -/
def set_entry (C : IntMatrix) (i j : Nat) (x : Int) : IntMatrix :=
  fun i1 j1 => if i1 = i ∧ j1 = j then x else C i1 j1

/-- The loop `for (int i = lo; i < hi; i++) body` for `lo` and `hi` not negative.  The counter
never exceeds `hi`, so `i++` does not overflow. -/
def for_range {σ : Type} (lo hi : Nat) (body : Nat → σ → σ) (s : σ) : σ :=
  (List.range' lo (hi - lo)).foldl (fun s i => body i s) s

/-- `matrix_mult_naive(A, B, C, n)` for `n` not negative: the content of `C` afterwards.  The
`int` product and the `int` sum wrap around. -/
def matrix_mult_naive (A B C : IntMatrix) (n : Nat) : IntMatrix :=
  for_range 0 n (fun i C =>
    for_range 0 n (fun j C =>
      for_range 0 n (fun k C =>
        set_entry C i j (wrap32 (C i j + wrap32 (A i k * B k j)))) (set_entry C i j 0)) C) C

/-- The sum `a + b` of two loop counters of type `int`, neither negative; it is undefined when it
overflows. -/
def int_add (a b : Nat) : Option Nat :=
  if a + b < 2 ^ 31 then some (a + b) else none

/-- The loop `for (int x = x0; x < n; x += block_size) body`, started with the counter at `x`;
`fuel` bounds the number of iterations. -/
def for_blocks {σ : Type} (n block_size : Nat) (body : Nat → σ → Option σ) :
    Nat → Nat → σ → Option σ
  | 0, x, s => if x < n then none else some s
  | fuel + 1, x, s =>
    if x < n then
      match body x s with
      | none => none
      | some s1 =>
        match int_add x block_size with
        | none => none
        | some x1 => for_blocks n block_size body fuel x1 s1
    else some s

/-- The three inner loops of `matrix_mult_blocked`, which work on the block with the corner
`(ii, jj, kk)`.  The bounds `ii + block_size`, `jj + block_size` and `kk + block_size` are
evaluated first: with `block_size >= 1` all three loops are entered, so all three sums are
computed. -/
def block_body (A B : IntMatrix) (n block_size ii jj kk : Nat) (C : IntMatrix) :
    Option IntMatrix :=
  match int_add ii block_size, int_add jj block_size, int_add kk block_size with
  | some ie, some je, some ke =>
    some (for_range ii (min ie n) (fun i C =>
      for_range jj (min je n) (fun j C =>
        let sum := for_range kk (min ke n)
          (fun k sum => wrap32 (sum + wrap32 (A i k * B k j))) 0
        set_entry C i j (wrap32 (C i j + sum))) C) C)
  | _, _, _ => none

/-- `matrix_mult_blocked(A, B, C, n, block_size)` for `n` and `block_size` not negative: the
content of `C` afterwards.  Each of the three block loops is given `fuel` iterations. -/
def matrix_mult_blocked (A B C : IntMatrix) (n block_size fuel : Nat) : Option IntMatrix :=
  for_blocks n block_size (fun ii C =>
    for_blocks n block_size (fun jj C =>
      for_blocks n block_size (fun kk C => block_body A B n block_size ii jj kk C)
        fuel 0 C) fuel 0 C) fuel 0 C

/-- The values the counter of `for (x = x0; x < n; x += block_size)` takes, started at `x`. -/
def starts (n block_size : Nat) : Nat → Nat → List Nat
  | 0, _ => []
  | fuel + 1, x => if x < n then x :: starts n block_size fuel (x + block_size) else []

/-- The sum of `A[i][k] * B[k][j]` over `lo <= k < hi`, in the integers. -/
def dot (A B : IntMatrix) (i j lo hi : Nat) : Int :=
  ((List.range' lo (hi - lo)).map (fun k => A i k * B k j)).sum

/-! ## Memory lemmas -/

theorem Mem.read_write_same {α : Type} (m : Mem α) (a : Nat) (x : α) :
    (m.write a x).read a = some x := by
  unfold Mem.write Mem.read
  split
  · simp [List.getElem?_set, *]
  · rename_i h
    have h1 : m.length ≤ a := Nat.le_of_not_lt h
    have : (m ++ List.replicate (a - m.length) none).length = a := by simp; omega
    rw [List.get?_eq_getElem?, List.getElem?_append_right (by omega)]
    simp [this]

theorem Mem.read_write_ne {α : Type} (m : Mem α) (a b : Nat) (x : α) (h : b ≠ a) :
    (m.write a x).read b = m.read b := by
  unfold Mem.write Mem.read
  split
  · simp [List.getElem?_set, Ne.symm h]
  · rename_i h0
    have h1 : m.length ≤ a := Nat.le_of_not_lt h0
    simp only [List.get?_eq_getElem?]
    by_cases hb : b < m.length
    · rw [List.append_assoc, List.getElem?_append_left hb]
    · have hb1 : m.length ≤ b := Nat.le_of_not_lt hb
      rw [List.getElem?_eq_none (l := m) hb1]
      rw [List.append_assoc, List.getElem?_append_right hb1]
      by_cases hb2 : b - m.length < a - m.length
      · rw [List.getElem?_append_left (by simpa using hb2)]
        simp [List.getElem?_replicate, hb2]
      · rw [List.getElem?_eq_none (by simp; omega)]

theorem Mem.read_free_same {α : Type} (m : Mem α) (a : Nat) :
    (m.free a).read a = none := by
  unfold Mem.free Mem.read
  by_cases h : a < m.length
  · simp [List.getElem?_set, h]
  · have h1 : (m.set a none)[a]? = none := by
      apply List.getElem?_eq_none
      simp; omega
    simp [h1]

theorem Mem.read_free_ne {α : Type} (m : Mem α) (a b : Nat) (h : b ≠ a) :
    (m.free a).read b = m.read b := by
  unfold Mem.free Mem.read
  simp [List.getElem?_set, Ne.symm h]

theorem Mem.write_write {α : Type} (m : Mem α) (a : Nat) (x y : α) :
    (m.write a x).write a y = m.write a y := by
  unfold Mem.write
  by_cases h : a < m.length
  · simp [h, List.set_set]
  · have h1 : m.length ≤ a := Nat.le_of_not_lt h
    have hl : (m ++ List.replicate (a - m.length) none).length = a := by simp; omega
    have h2 : a < (m ++ List.replicate (a - m.length) none ++ [some x]).length := by
      simp; omega
    rw [if_neg h, if_pos h2, List.set_append_right _ _ (by omega)]
    simp [hl, h]

theorem cas_weak_spurious {α : Type} [DecidableEq α] (cur expected desired : α) :
    cas_weak true cur expected desired = (false, cur, cur) := by
  simp [cas_weak]

theorem cas_weak_same {α : Type} [DecidableEq α] (cur desired : α) :
    cas_weak false cur cur desired = (true, desired, cur) := by
  simp [cas_weak]

theorem flag_cons (b : Bool) (o : List Bool) : flag (b :: o) = b := rfl

theorem flag_nil : flag [] = false := rfl

/-! ## Chains -/

theorem Chain.frame {T : Type} {heap heap1 : Mem (Node T)} :
    ∀ {cells : List (Nat × T)} {p : Ptr}, Chain heap p cells →
      (∀ a, a ∈ cells.map Prod.fst → heap1.read a = heap.read a) → Chain heap1 p cells
  | [], _, h, _ => h
  | c :: rest, p, h, hf => by
    obtain ⟨hp, hc⟩ := h
    refine ⟨hp, ?_⟩
    rw [hf c.1 (by simp)]
    cases hr : heap.read c.1 with
    | none => simp [hr] at hc
    | some n =>
      simp only [hr] at hc ⊢
      exact ⟨hc.1, Chain.frame hc.2 (fun a ha => hf a (by simp at ha ⊢; exact Or.inr ha))⟩

theorem Chain.live {T : Type} {heap : Mem (Node T)} :
    ∀ {cells : List (Nat × T)} {p : Ptr}, Chain heap p cells →
      ∀ a, a ∈ cells.map Prod.fst → heap.read a ≠ none
  | [], _, _, a, ha => by simp at ha
  | c :: rest, p, h, a, ha => by
    obtain ⟨_, hc⟩ := h
    cases hr : heap.read c.1 with
    | none => simp [hr] at hc
    | some n =>
      simp only [hr] at hc
      simp only [List.map_cons, List.mem_cons] at ha
      rcases ha with rfl | ha
      · simp [hr]
      · exact Chain.live hc.2 a ha

theorem Chain.payloads_eq {T : Type} {heap : Mem (Node T)} :
    ∀ {cells : List (Nat × T)} {p : Ptr}, Chain heap p cells →
      ∀ fuel, cells.length ≤ fuel → payloads heap fuel p = some (cells.map Prod.snd)
  | [], p, h, fuel, _ => by
    have hp : p = none := h
    subst hp
    cases fuel <;> rfl
  | c :: rest, p, h, fuel, hfuel => by
    obtain ⟨hp, hc⟩ := h
    subst hp
    cases fuel with
    | zero => simp at hfuel
    | succ fuel =>
      cases hr : heap.read c.1 with
      | none => simp [hr] at hc
      | some n =>
        simp only [hr] at hc
        have ih := Chain.payloads_eq hc.2 fuel (by simpa using hfuel)
        simp [payloads, hr, ih, hc.1]

/-! ## `LockFreeStack`: what each operation computes -/

namespace LockFreeStack

/-- The state after thread `me` has been given its id. -/
theorem get_thread_id_of_unset {T : Type} (me : Nat) (st : State T) (h : st.thread_id me = -1) :
    get_thread_id me st = (st.next_thread_id,
      { st with thread_id := Function.update st.thread_id me st.next_thread_id,
                next_thread_id := st.next_thread_id + 1 }) := by
  simp [get_thread_id, h]

theorem get_thread_id_of_set {T : Type} (me : Nat) (st : State T) (h : st.thread_id me ≠ -1) :
    get_thread_id me st = (st.thread_id me, st) := by
  simp [get_thread_id, h]

theorem get_thread_id_range {T : Type} (me : Nat) (st : State T)
    (h : TidOK me st.next_thread_id st.thread_id) :
    0 ≤ (get_thread_id me st).1 ∧ (get_thread_id me st).1 < (MAX_THREADS : Int) := by
  unfold get_thread_id
  rcases h with ⟨h1, h2, h3⟩ | ⟨h1, h2⟩
  · simp [h1, h2, h3]
  · have : st.thread_id me ≠ -1 := by omega
    simp [this, h1, h2]

theorem get_thread_id_again {T : Type} (me : Nat) (st : State T)
    (h : TidOK me st.next_thread_id st.thread_id) :
    get_thread_id me (get_thread_id me st).2 = ((get_thread_id me st).1, (get_thread_id me st).2) := by
  rcases h with ⟨h1, h2, h3⟩ | ⟨h1, h2⟩
  · rw [get_thread_id_of_unset me st h1]
    dsimp only
    rw [get_thread_id_of_set _ _ (by simp; omega)]
    simp
  · have : st.thread_id me ≠ -1 := by omega
    rw [get_thread_id_of_set me st this]
    exact get_thread_id_of_set me st this

theorem registered_tid {T : Type} (me : Nat) (st : State T)
    (h : TidOK me st.next_thread_id st.thread_id) :
    TidOK me (registered me st).next_thread_id (registered me st).thread_id := by
  unfold registered get_thread_id
  rcases h with ⟨h1, h2, h3⟩ | ⟨h1, h2⟩
  · right
    simp [h1, h2, h3]
  · have : st.thread_id me ≠ -1 := by omega
    right
    simp [this, h1, h2]

theorem registered_fields {T : Type} (me : Nat) (st : State T) :
    (registered me st).head = st.head ∧ (registered me st).hazards = st.hazards ∧
    (registered me st).retired_list = st.retired_list ∧
    (registered me st).retired_count = st.retired_count ∧
    (registered me st).heap = st.heap := by
  unfold registered get_thread_id
  split <;> simp

theorem registered_thread_id {T : Type} (me : Nat) (st : State T)
    (h : TidOK me st.next_thread_id st.thread_id) :
    (registered me st).thread_id me = (get_thread_id me st).1 := by
  unfold registered get_thread_id
  rcases h with ⟨h1, h2, h3⟩ | ⟨h1, h2⟩
  · simp [h1]
  · have : st.thread_id me ≠ -1 := by omega
    simp [this]

theorem slot_eq (tid : Int) (h0 : 0 ≤ tid) (h1 : tid < (MAX_THREADS : Int)) :
    slot tid 0 = some (tid * (MAX_HAZARDS : Int) + 0).toNat := by
  unfold slot
  simp only [MAX_THREADS, MAX_HAZARDS] at *
  have : 0 ≤ tid * ((2 : Nat) : Int) + 0 ∧ tid * ((2 : Nat) : Int) + 0 < ((128 * 2 : Nat) : Int) := by
    constructor <;> push_cast <;> omega
  simp only [this, and_self, if_true]

theorem set_hazard_pointer_eq {T : Type} (me : Nat) (p : Ptr) (st : State T)
    (h : TidOK me st.next_thread_id st.thread_id) :
    set_hazard_pointer me 0 p st =
      some { registered me st with
             hazards := Function.update (registered me st).hazards (my_slot me st) p } := by
  have hr := get_thread_id_range me st h
  unfold set_hazard_pointer
  simp only [slot_eq _ hr.1 hr.2]
  rfl

theorem clear_hazard_pointer_eq {T : Type} (me : Nat) (st : State T)
    (h : TidOK me st.next_thread_id st.thread_id) :
    clear_hazard_pointer me 0 st =
      some { registered me st with
             hazards := Function.update (registered me st).hazards (my_slot me st) none } := by
  have hr := get_thread_id_range me st h
  unfold clear_hazard_pointer
  simp only [slot_eq _ hr.1 hr.2]
  rfl

theorem registered_registered {T : Type} (me : Nat) (st : State T)
    (h : TidOK me st.next_thread_id st.thread_id) (hz : Nat → Ptr) (hd : Ptr) :
    registered me { registered me st with hazards := hz, head := hd } =
      { registered me st with hazards := hz, head := hd } ∧
    my_slot me { registered me st with hazards := hz, head := hd } = my_slot me st := by
  have h1 := get_thread_id_again me st h
  have h2 : get_thread_id me { registered me st with hazards := hz, head := hd } =
      ((get_thread_id me st).1, { registered me st with hazards := hz, head := hd }) := by
    have hne : (registered me st).thread_id me ≠ -1 := by
      rw [registered_thread_id me st h]
      have := get_thread_id_range me st h
      omega
    rw [get_thread_id_of_set _ _ (by simpa using hne)]
    simp [registered_thread_id me st h]
  constructor
  · show (get_thread_id me _).2 = _
    rw [h2]
  · show ((get_thread_id me _).1 * _ + 0).toNat = _
    rw [h2]
    rfl

theorem get_thread_id_stable {T : Type} (me : Nat) (st s : State T)
    (h : TidOK me st.next_thread_id st.thread_id)
    (hs : s.thread_id = (registered me st).thread_id) :
    get_thread_id me s = ((get_thread_id me st).1, s) := by
  have hne : s.thread_id me ≠ -1 := by
    rw [hs, registered_thread_id me st h]
    have := get_thread_id_range me st h
    omega
  rw [get_thread_id_of_set _ _ hne, hs, registered_thread_id me st h]

theorem set_hazard_pointer_stable {T : Type} (me : Nat) (p : Ptr) (st s : State T)
    (h : TidOK me st.next_thread_id st.thread_id)
    (hs : s.thread_id = (registered me st).thread_id) :
    set_hazard_pointer me 0 p s =
      some { s with hazards := Function.update s.hazards (my_slot me st) p } := by
  have hr := get_thread_id_range me st h
  unfold set_hazard_pointer
  simp only [get_thread_id_stable me st s h hs, slot_eq _ hr.1 hr.2]
  rfl

theorem clear_hazard_pointer_stable {T : Type} (me : Nat) (st s : State T)
    (h : TidOK me st.next_thread_id st.thread_id)
    (hs : s.thread_id = (registered me st).thread_id) :
    clear_hazard_pointer me 0 s =
      some { s with hazards := Function.update s.hazards (my_slot me st) none } := by
  have hr := get_thread_id_range me st h
  unfold clear_hazard_pointer
  simp only [get_thread_id_stable me st s h hs, slot_eq _ hr.1 hr.2]
  rfl

theorem pop_loop_empty {T : Type} (me : Nat) (o : List Bool) (fuel : Nat) (result : T)
    (st : State T) (h : TidOK me st.next_thread_id st.thread_id) (hh : st.head = none) :
    pop_loop me (fuel + 1) o none result st =
      some ({ registered me st with
              hazards := Function.update (registered me st).hazards (my_slot me st) none },
            result, false) := by
  have hh1 : (registered me st).head = none := by rw [(registered_fields me st).1, hh]
  unfold pop_loop pop_body
  rw [set_hazard_pointer_eq me none st h]
  simp only [hh1, ne_eq, not_true_eq_false, if_false, if_true]
  rw [clear_hazard_pointer_stable me st _ h]
  · simp
  · rfl

theorem pop_loop_nonempty {T : Type} (me : Nat) (a : Nat) (n : Node T) :
    ∀ (o : List Bool) (fuel : Nat) (result : T) (s : State T), o.length < fuel →
      TidOK me s.next_thread_id s.thread_id → s.head = some a → s.heap.read a = some n →
      pop_loop me fuel o (some a) result s =
        (retire_node (some a)
          { registered me s with
            head := n.next,
            hazards := Function.update (registered me s).hazards (my_slot me s) none }).map
          (fun s4 => (s4, n.data, true)) := by
  intro o
  induction o with
  | nil =>
    intro fuel result s hf ht hh hr
    cases fuel with
    | zero => simp at hf
    | succ fuel =>
      have hf1 := registered_fields me s
      unfold pop_loop pop_body
      rw [set_hazard_pointer_eq me (some a) s ht]
      simp only [hf1.1, hh, ne_eq, not_true_eq_false, if_false, Mem.deref, hf1.2.2.2.2, hr,
        flag_nil, cas_weak_same, if_true, reduceCtorEq]
      rw [clear_hazard_pointer_stable me s _ ht]
      · simp only [Function.update_idem]
        cases retire_node (some a) _ <;> rfl
      · rfl
  | cons b o ih =>
    intro fuel result s hf ht hh hr
    cases fuel with
    | zero => simp at hf
    | succ fuel =>
      have hf1 := registered_fields me s
      cases b with
      | false =>
        unfold pop_loop pop_body
        rw [set_hazard_pointer_eq me (some a) s ht]
        simp only [hf1.1, hh, ne_eq, not_true_eq_false, if_false, Mem.deref, hf1.2.2.2.2, hr,
          flag_cons, cas_weak_same, if_true, reduceCtorEq]
        rw [clear_hazard_pointer_stable me s _ ht]
        · simp only [Function.update_idem]
          cases retire_node (some a) _ <;> rfl
        · rfl
      | true =>
        have hrr := registered_registered me s ht
          (Function.update (registered me s).hazards (my_slot me s) (some a)) (some a)
        have ih1 := ih fuel result
          { registered me s with
            hazards := Function.update (registered me s).hazards (my_slot me s) (some a),
            head := some a }
          (by simpa using hf) (registered_tid me s ht) rfl (by simpa [hf1.2.2.2.2] using hr)
        rw [hrr.1, hrr.2] at ih1
        simp only [Function.update_idem] at ih1
        unfold pop_loop pop_body
        rw [set_hazard_pointer_eq me (some a) s ht]
        simp only [hf1.1, hh, ne_eq, not_true_eq_false, if_false, Mem.deref, hf1.2.2.2.2, hr,
          flag_cons, cas_weak_spurious, if_true, reduceCtorEq, List.tail_cons]
        simp only [hf1.2.2.2.2] at ih1
        exact ih1

theorem pop_empty {T : Type} (me : Nat) (o : List Bool) (fuel : Nat) (result : T)
    (st : State T) (h : TidOK me st.next_thread_id st.thread_id) (hh : st.head = none)
    (hf : 0 < fuel) :
    pop me o fuel result st =
      some ({ registered me st with
              hazards := Function.update (registered me st).hazards (my_slot me st) none },
            result, false) := by
  obtain ⟨k, rfl⟩ : ∃ k, fuel = k + 1 := ⟨fuel - 1, by omega⟩
  unfold pop
  rw [hh]
  exact pop_loop_empty me o k result st h hh

theorem pop_nonempty {T : Type} (me : Nat) (a : Nat) (n : Node T) (o : List Bool) (fuel : Nat)
    (result : T) (st : State T) (hf : o.length < fuel)
    (h : TidOK me st.next_thread_id st.thread_id) (hh : st.head = some a)
    (hr : st.heap.read a = some n) :
    pop me o fuel result st =
      (retire_node (some a)
        { registered me st with
          head := n.next,
          hazards := Function.update (registered me st).hazards (my_slot me st) none }).map
        (fun s4 => (s4, n.data, true)) := by
  unfold pop
  rw [hh]
  exact pop_loop_nonempty me a n o fuel result st hf h hh hr

theorem push_loop_eq {T : Type} (new_node : Nat) (v : T) :
    ∀ (o : List Bool) (fuel : Nat) (st : State T) (x : Ptr), o.length < fuel →
      st.heap.read new_node = some { data := v, next := x } →
      push_loop new_node fuel o st.head st =
        some { st with head := some new_node,
                       heap := st.heap.write new_node { data := v, next := st.head } }
  | [], fuel, st, x, hf, hr => by
    cases fuel with
    | zero => simp at hf
    | succ fuel => simp [push_loop, hr, flag_nil, cas_weak_same]
  | b :: o, fuel, st, x, hf, hr => by
    cases fuel with
    | zero => simp at hf
    | succ fuel =>
      cases b with
      | false => simp [push_loop, hr, flag_cons, cas_weak_same]
      | true =>
        have ih := push_loop_eq new_node v o fuel
          { st with heap := st.heap.write new_node { data := v, next := st.head } } st.head
          (by simpa using hf) (by simp [Mem.read_write_same])
        simp only [push_loop, hr, flag_cons, cas_weak_spurious, List.tail_cons]
        simp only [Mem.write_write] at ih
        simpa using ih

theorem push_eq {T : Type} (A : Allocator (Node T)) (o : List Bool) (fuel : Nat) (v : T)
    (st : State T) (hf : o.length < fuel) :
    push A o fuel v st =
      some { st with head := some (A.pick st.heap),
                     heap := st.heap.write (A.pick st.heap) { data := v, next := st.head } } := by
  unfold push
  have h := push_loop_eq (A.pick st.heap) v o fuel
    { st with heap := st.heap.write (A.pick st.heap) { data := v, next := none } } none hf
    (by simp [Mem.read_write_same])
  simp only [Mem.write_write] at h
  exact h

end LockFreeStack

/-! ## The scan over the retire list -/

theorem Mem.delete_some {α : Type} (m : Mem α) (a : Nat) (h : m.read a ≠ none) :
    m.delete (some a) = some (m.free a) := by
  unfold Mem.delete
  cases hr : m.read a with
  | none => exact absurd hr h
  | some x => simp [hr]

theorem Mem.delete_eq_some {α : Type} (m m1 : Mem α) (p : Ptr) (h : m.delete p = some m1) :
    (p = none ∧ m1 = m) ∨ (∃ a, p = some a ∧ m.read a ≠ none ∧ m1 = m.free a) := by
  unfold Mem.delete at h
  cases p with
  | none => left; simpa using h.symm
  | some a =>
    right
    cases hr : m.read a with
    | none => simp [hr] at h
    | some x =>
      simp only [hr] at h
      exact ⟨a, rfl, by simp [hr], by simpa using h.symm⟩

theorem nodup_reduceOption {α : Type} (l : List (Option α)) (h : l.Nodup) :
    l.reduceOption.Nodup := by
  unfold List.reduceOption
  apply List.Nodup.filterMap _ h
  intro x y b hx hy
  simp only [id, Option.mem_def] at hx hy
  rw [hx, hy]

theorem Deletable.of_check {α : Type} (heap : Mem α) (ps : List Ptr)
    (h1 : ps.reduceOption.all (fun a => (heap.read a).isSome) = true)
    (h2 : ps.reduceOption.Nodup) : Deletable heap ps := by
  refine ⟨fun a ha => ?_, h2⟩
  rw [List.all_eq_true] at h1
  have := h1 a (List.reduceOption_mem_iff.mpr ha)
  intro e
  simp [e] at this

theorem Deletable.tail {α : Type} {heap : Mem α} {p : Ptr} {ps : List Ptr}
    (h : Deletable heap (p :: ps)) : Deletable heap ps := by
  refine ⟨fun a ha => h.1 a (List.mem_cons_of_mem _ ha), ?_⟩
  have h2 := h.2
  cases p with
  | none => simpa [List.reduceOption_cons_of_none] using h2
  | some a =>
    rw [List.reduceOption_cons_of_some] at h2
    exact (List.nodup_cons.mp h2).2

theorem Deletable.free {α : Type} {heap : Mem α} {a : Nat} {ps : List Ptr}
    (h : Deletable heap (some a :: ps)) : Deletable (heap.free a) ps := by
  have h2 := h.2
  rw [List.reduceOption_cons_of_some] at h2
  have hna : some a ∉ ps := by
    intro hm
    exact (List.nodup_cons.mp h2).1 (List.reduceOption_mem_iff.mpr hm)
  refine ⟨fun b hb => ?_, (List.nodup_cons.mp h2).2⟩
  have hne : b ≠ a := by
    rintro rfl
    exact hna hb
  rw [Mem.read_free_ne _ _ _ hne]
  exact h.1 b (List.mem_cons_of_mem _ hb)

namespace LockFreeStack

theorem is_hazardous_iff {T : Type} (st : State T) (p : Ptr) :
    is_hazardous st p = true ↔ ∃ i, i < MAX_THREADS * MAX_HAZARDS ∧ st.hazards i = p := by
  simp [is_hazardous, List.any_eq_true, List.mem_range]

theorem scan_loop_sound {T : Type} (st : State T) :
    ∀ (l : List Ptr) (heap : Mem (Node T)) (still : List Ptr) (r : Mem (Node T) × List Ptr),
      scan_loop st l heap still = some r →
      r.2 = still ++ l.filter (is_hazardous st) ∧
      ∀ b, r.1.read b =
        if some b ∈ l ∧ is_hazardous st (some b) = false then none else heap.read b
  | [], heap, still, r, h => by
    simp only [scan_loop, Option.some.injEq] at h
    subst h
    simp
  | p :: l, heap, still, r, h => by
    unfold scan_loop at h
    by_cases hz : is_hazardous st p = false
    · simp only [hz, if_true] at h
      cases hd : heap.delete p with
      | none => simp [hd] at h
      | some heap1 =>
        simp only [hd] at h
        obtain ⟨h1, h2⟩ := scan_loop_sound st l heap1 still r h
        refine ⟨by simpa [List.filter_cons, hz] using h1, fun b => ?_⟩
        rw [h2 b]
        rcases Mem.delete_eq_some heap heap1 p hd with ⟨rfl, rfl⟩ | ⟨a, rfl, _, rfl⟩
        · simp
        · by_cases hb : b = a
          · subst hb
            simp [hz, Mem.read_free_same]
          · have hb1 : ¬ a = b := fun e => hb e.symm
            simp [hb, hb1, Mem.read_free_ne _ _ _ hb]
    · simp only [hz, if_false] at h
      obtain ⟨h1, h2⟩ := scan_loop_sound st l heap (still ++ [p]) r h
      have hz1 : is_hazardous st p = true := by simpa using hz
      refine ⟨by simpa [List.filter_cons, hz1] using h1, fun b => ?_⟩
      rw [h2 b]
      by_cases hb : p = some b
      · subst hb
        simp [hz1]
      · have hb1 : ¬ some b = p := fun e => hb e.symm
        simp [hb1]

theorem scan_loop_defined {T : Type} (st : State T) :
    ∀ (l : List Ptr) (heap : Mem (Node T)) (still : List Ptr),
      Deletable heap (l.filter (fun p => !is_hazardous st p)) →
      ∃ r, scan_loop st l heap still = some r
  | [], heap, still, _ => ⟨_, rfl⟩
  | p :: l, heap, still, h => by
    unfold scan_loop
    by_cases hz : is_hazardous st p = false
    · simp only [hz, if_true]
      have h1 : Deletable heap (p :: l.filter (fun p => !is_hazardous st p)) := by
        simpa [List.filter_cons, hz] using h
      cases p with
      | none => exact scan_loop_defined st l heap still h1.tail
      | some a =>
        rw [Mem.delete_some _ _ (h1.1 a (by simp))]
        exact scan_loop_defined st l _ still h1.free
    · simp only [hz, if_false]
      have hz1 : is_hazardous st p = true := by simpa using hz
      have h1 : Deletable heap (l.filter (fun p => !is_hazardous st p)) := by
        simpa [List.filter_cons, hz1] using h
      exact scan_loop_defined st l heap _ h1

end LockFreeStack

theorem wrap32_of_small (x : Int) (h0 : 0 ≤ x) (h1 : x < 2 ^ 31) : wrap32 x = x := by
  unfold wrap32
  norm_num at h1 ⊢
  omega

/-! ## `LockFreeStack`: the invariant of single-threaded runs -/

namespace LockFreeStack

theorem is_hazardous_of_clear {T : Type} (st : State T) (h : ∀ i, st.hazards i = none) (a : Nat) :
    is_hazardous st (some a) = false := by
  cases hz : is_hazardous st (some a) with
  | false => rfl
  | true =>
    obtain ⟨i, _, hi⟩ := (is_hazardous_iff st (some a)).mp hz
    rw [h i] at hi
    cases hi

theorem Inv.of_new {T : Type} (me : Nat) (heap : Mem (Node T)) (next_thread_id : Int)
    (thread_id : Nat → Int) (h : TidOK me next_thread_id thread_id) :
    Inv me (new heap next_thread_id thread_id) [] :=
  { chain := rfl
    nodup := List.nodup_nil
    retired_live := fun p hp => by simp [new] at hp
    retired_nodup := List.nodup_nil
    retired_disj := fun a ha => by simp [new] at ha
    count := rfl
    count_le := Nat.zero_le _
    hazards := fun _ => rfl
    tid := h }

theorem Inv.after_push {T : Type} {me : Nat} {st : State T} {cells : List (Nat × T)}
    (hi : Inv me st cells) (A : Allocator (Node T)) (o : List Bool) (fuel : Nat) (v : T)
    (hf : o.length < fuel) :
    ∃ st1, push A o fuel v st = some st1 ∧ Inv me st1 ((A.pick st.heap, v) :: cells) := by
  refine ⟨_, push_eq A o fuel v st hf, ?_⟩
  have hfresh := A.fresh st.heap
  have hlive := Chain.live hi.chain
  have hnew : A.pick st.heap ∉ cells.map Prod.fst := fun hm => hlive _ hm hfresh
  have hframe : ∀ b, st.heap.read b ≠ none →
      (st.heap.write (A.pick st.heap) { data := v, next := st.head }).read b = st.heap.read b := by
    intro b hb
    apply Mem.read_write_ne
    rintro rfl
    exact hb hfresh
  exact
    { chain := by
        refine ⟨rfl, ?_⟩
        simp only [Mem.read_write_same]
        exact ⟨trivial, Chain.frame hi.chain (fun b hb => hframe b (hlive b hb))⟩
      nodup := by
        simp only [List.map_cons, List.nodup_cons]
        exact ⟨hnew, hi.nodup⟩
      retired_live := fun p hp => by
        obtain ⟨a, rfl, ha⟩ := hi.retired_live p hp
        exact ⟨a, rfl, by rw [hframe a ha]; exact ha⟩
      retired_nodup := hi.retired_nodup
      retired_disj := fun a ha => by
        simp only [List.map_cons, List.mem_cons, not_or]
        refine ⟨?_, hi.retired_disj a ha⟩
        rintro rfl
        obtain ⟨b, hb, hl⟩ := hi.retired_live _ ha
        cases hb
        exact hl hfresh
      count := hi.count
      count_le := hi.count_le
      hazards := hi.hazards
      tid := hi.tid }

theorem Inv.after_pop_empty {T : Type} {me : Nat} {st : State T} (hi : Inv me st [])
    (o : List Bool) (fuel : Nat) (result : T) (hf : 0 < fuel) :
    ∃ st1, pop me o fuel result st = some (st1, result, false) ∧ Inv me st1 [] := by
  have hh : st.head = none := hi.chain
  refine ⟨_, LockFreeStack.pop_empty me o fuel result st hi.tid hh hf, ?_⟩
  obtain ⟨f1, f2, f3, f4, f5⟩ := registered_fields me st
  exact
    { chain := by
        show Chain _ (registered me st).head []
        rw [f1]
        exact hh
      nodup := List.nodup_nil
      retired_live := fun p hp => by
        have hp1 : p ∈ st.retired_list := by simpa [f3] using hp
        obtain ⟨a, rfl, ha⟩ := hi.retired_live p hp1
        exact ⟨a, rfl, by simpa [f5] using ha⟩
      retired_nodup := by simpa [f3] using hi.retired_nodup
      retired_disj := fun a _ => by simp
      count := by simpa [f3, f4] using hi.count
      count_le := by simpa [f3] using hi.count_le
      hazards := fun i => by
        show Function.update (registered me st).hazards (my_slot me st) none i = none
        rw [f2]
        by_cases h : i = my_slot me st
        · subst h
          simp
        · rw [Function.update_noteq h]
          exact hi.hazards i
      tid := registered_tid me st hi.tid }

end LockFreeStack

namespace LockFreeStack

theorem Inv.after_retire {T : Type} {me : Nat} {s : State T} {cells : List (Nat × T)}
    (hi : Inv me s cells) (a : Nat) (ha : s.heap.read a ≠ none)
    (hac : a ∉ cells.map Prod.fst) (har : some a ∉ s.retired_list) :
    ∃ s1, retire_node (some a) s = some s1 ∧ Inv me s1 cells := by
  have hcnt : wrap32 (s.retired_count + 1) = (s.retired_list.length : Int) + 1 := by
    rw [hi.count]
    apply wrap32_of_small
    · omega
    · have := hi.count_le
      simp only [MAX_THREADS] at this
      norm_num
      omega
  have hlive : ∀ p ∈ s.retired_list ++ [some a], ∃ b, p = some b ∧ s.heap.read b ≠ none := by
    intro p hp
    rcases List.mem_append.mp hp with hp | hp
    · exact hi.retired_live p hp
    · exact ⟨a, by simpa using hp, ha⟩
  have hnd : (s.retired_list ++ [some a]).Nodup := by
    rw [List.nodup_append]
    refine ⟨hi.retired_nodup, List.nodup_singleton _, ?_⟩
    intro x hx hx1
    have : x = some a := by simpa using hx1
    subst this
    exact har hx
  unfold retire_node
  simp only [hcnt]
  by_cases hbig : (s.retired_list.length : Int) + 1 > ((MAX_THREADS * 2 : Nat) : Int)
  · simp only [hbig, if_true]
    let s1 : State T :=
      { s with retired_list := s.retired_list ++ [some a],
               retired_count := (s.retired_list.length : Int) + 1 }
    have hz : ∀ p ∈ s.retired_list ++ [some a], is_hazardous s1 p = false := by
      intro p hp
      obtain ⟨b, rfl, _⟩ := hlive p hp
      exact is_hazardous_of_clear s1 hi.hazards b
    have hfil : (s.retired_list ++ [some a]).filter (fun p => !is_hazardous s1 p) =
        s.retired_list ++ [some a] := by
      rw [List.filter_eq_self]
      intro p hp
      simp [hz p hp]
    have hdel : Deletable s.heap
        ((s.retired_list ++ [some a]).filter (fun p => !is_hazardous s1 p)) := by
      rw [hfil]
      refine ⟨fun b hb => ?_, ?_⟩
      · obtain ⟨c, hc, hl⟩ := hlive _ hb
        cases hc
        exact hl
      · exact nodup_reduceOption _ hnd
    obtain ⟨r, hr⟩ := scan_loop_defined s1 (s.retired_list ++ [some a]) s.heap [] hdel
    obtain ⟨hr1, hr2⟩ := scan_loop_sound s1 _ _ _ r hr
    have hr3 : r.2 = [] := by
      rw [hr1]
      simp only [List.nil_append, List.filter_eq_nil_iff]
      intro p hp
      simp [hz p hp]
    have hread : ∀ b, b ∈ cells.map Prod.fst → r.1.read b = s.heap.read b := by
      intro b hb
      rw [hr2 b]
      have : some b ∉ s.retired_list ++ [some a] := by
        intro hm
        rcases List.mem_append.mp hm with hm | hm
        · exact hi.retired_disj b hm hb
        · have : b = a := by simpa using hm
          subst this
          exact hac hb
      simp [this]
    refine ⟨{ s1 with heap := r.1, retired_list := r.2,
                      retired_count := wrap32 (r.2.length : Int) }, ?_, ?_⟩
    · show scan_and_reclaim s1 = _
      unfold scan_and_reclaim
      rw [hr]
    · exact
        { chain := Chain.frame hi.chain hread
          nodup := hi.nodup
          retired_live := fun p hp => by simp [hr3] at hp
          retired_nodup := by simp [hr3]
          retired_disj := fun b hb => by simp [hr3] at hb
          count := by simp [hr3, wrap32]
          count_le := by simp [hr3]
          hazards := hi.hazards
          tid := hi.tid }
  · simp only [hbig, if_false]
    refine ⟨_, rfl, ?_⟩
    exact
      { chain := hi.chain
        nodup := hi.nodup
        retired_live := hlive
        retired_nodup := hnd
        retired_disj := fun b hb => by
          rcases List.mem_append.mp hb with hb | hb
          · exact hi.retired_disj b hb
          · have : b = a := by simpa using hb
            subst this
            exact hac
        count := by simp
        count_le := by
          simp only [List.length_append, List.length_singleton]
          have : ((MAX_THREADS * 2 : Nat) : Int) = ((MAX_THREADS * 2 : Nat) : Int) := rfl
          omega
        hazards := hi.hazards
        tid := hi.tid }

end LockFreeStack

namespace LockFreeStack

theorem Inv.after_pop_cons {T : Type} {me : Nat} {st : State T} {a : Nat} {v : T}
    {cells : List (Nat × T)} (hi : Inv me st ((a, v) :: cells))
    (o : List Bool) (fuel : Nat) (result : T) (hf : o.length < fuel) :
    ∃ st1, pop me o fuel result st = some (st1, v, true) ∧ Inv me st1 cells := by
  obtain ⟨hh, hc⟩ := hi.chain
  simp only at hh hc
  cases hr : st.heap.read a with
  | none => simp [hr] at hc
  | some n =>
    simp only [hr] at hc
    obtain ⟨f1, f2, f3, f4, f5⟩ := registered_fields me st
    have hnd := hi.nodup
    simp only [List.map_cons, List.nodup_cons] at hnd
    have hi3 : Inv me
        { registered me st with
          head := n.next,
          hazards := Function.update (registered me st).hazards (my_slot me st) none } cells :=
      { chain := by
          show Chain (registered me st).heap n.next cells
          rw [f5]
          exact hc.2
        nodup := hnd.2
        retired_live := fun p hp => by
          have hp1 : p ∈ st.retired_list := by simpa [f3] using hp
          obtain ⟨b, rfl, hb⟩ := hi.retired_live p hp1
          exact ⟨b, rfl, by simpa [f5] using hb⟩
        retired_nodup := by simpa [f3] using hi.retired_nodup
        retired_disj := fun b hb hm => by
          have hb1 : some b ∈ st.retired_list := by simpa [f3] using hb
          exact hi.retired_disj b hb1 (by simp [hm])
        count := by simpa [f3, f4] using hi.count
        count_le := by simpa [f3] using hi.count_le
        hazards := fun i => by
          show Function.update (registered me st).hazards (my_slot me st) none i = none
          rw [f2]
          by_cases h : i = my_slot me st
          · subst h
            simp
          · rw [Function.update_noteq h]
            exact hi.hazards i
        tid := registered_tid me st hi.tid }
    obtain ⟨s1, hs1, hinv⟩ := hi3.after_retire a (by simp [f5, hr]) hnd.1 (by
      intro hm
      have hm1 : some a ∈ st.retired_list := by simpa [f3] using hm
      exact hi.retired_disj a hm1 (by simp))
    refine ⟨s1, ?_, hinv⟩
    rw [pop_nonempty me a n o fuel result st hf hi.tid hh hr, hs1]
    simp [hc.1]

theorem run_model {T : Type} (A : Allocator (Node T)) (me : Nat) :
    ∀ (cs : List (Op T × List Bool)) (result : T) (st : State T) (cells : List (Nat × T)),
      Inv me st cells →
      ∃ st1 cells1, Inv me st1 cells1 ∧
        cells1.map Prod.snd = (model (cs.map Prod.fst) (cells.map Prod.snd) result).1 ∧
        run A me cs result st =
          some (st1, (model (cs.map Prod.fst) (cells.map Prod.snd) result).2.1,
                (model (cs.map Prod.fst) (cells.map Prod.snd) result).2.2)
  | [], result, st, cells, hi => ⟨st, cells, hi, rfl, rfl⟩
  | (Op.push v, o) :: cs, result, st, cells, hi => by
    obtain ⟨st1, h1, hi1⟩ := hi.after_push A o (o.length + 1) v (Nat.lt_succ_self _)
    obtain ⟨st2, cells2, hi2, hm, hrun⟩ := run_model A me cs result st1 _ hi1
    exact ⟨st2, cells2, hi2, by simpa [model] using hm, by simpa [run, model, h1] using hrun⟩
  | (Op.pop, o) :: cs, result, st, [], hi => by
    obtain ⟨st1, h1, hi1⟩ := hi.after_pop_empty o (o.length + 1) result (Nat.succ_pos _)
    obtain ⟨st2, cells2, hi2, hm, hrun⟩ := run_model A me cs result st1 _ hi1
    refine ⟨st2, cells2, hi2, by simpa [model] using hm, ?_⟩
    simp only [List.map_cons, List.map_nil, run, model, h1, hrun]
  | (Op.pop, o) :: cs, result, st, (a, v) :: cells, hi => by
    obtain ⟨st1, h1, hi1⟩ := hi.after_pop_cons o (o.length + 1) result (Nat.lt_succ_self _)
    obtain ⟨st2, cells2, hi2, hm, hrun⟩ := run_model A me cs v st1 _ hi1
    refine ⟨st2, cells2, hi2, by simpa [model] using hm, ?_⟩
    simp only [List.map_cons, run, model, h1, hrun]

end LockFreeStack

/-! ## Chains: the middle of a chain -/

theorem Chain.split {T : Type} {heap : Mem (Node T)} :
    ∀ {front : List (Nat × T)} {t : Nat × T} {back : List (Nat × T)} {p : Ptr},
      Chain heap p (front ++ t :: back) →
      ∃ n, heap.read t.1 = some n ∧ n.data = t.2 ∧ Chain heap n.next back
  | [], t, back, p, h => by
    obtain ⟨_, hc⟩ := h
    cases hr : heap.read t.1 with
    | none => simp [hr] at hc
    | some n =>
      simp only [hr] at hc
      exact ⟨n, rfl, hc.1, hc.2⟩
  | c :: front, t, back, p, h => by
    obtain ⟨_, hc⟩ := h
    cases hr : heap.read c.1 with
    | none => simp [hr] at hc
    | some n =>
      simp only [hr] at hc
      exact Chain.split hc.2

/-- Overwriting the `next` field of the node `t` of a chain redirects the chain behind `t`. -/
theorem Chain.splice {T : Type} {heap : Mem (Node T)} (q : Ptr) (back1 : List (Nat × T)) :
    ∀ {front : List (Nat × T)} {t : Nat × T} {back : List (Nat × T)} {p : Ptr},
      Chain heap p (front ++ t :: back) →
      t.1 ∉ front.map Prod.fst → t.1 ∉ back1.map Prod.fst →
      Chain heap q back1 →
      Chain (heap.write t.1 { data := t.2, next := q }) p (front ++ t :: back1)
  | [], t, back, p, h, _, hb, hq => by
    obtain ⟨hp, _⟩ := h
    refine ⟨hp, ?_⟩
    simp only [Mem.read_write_same]
    refine ⟨trivial, Chain.frame hq (fun a ha => Mem.read_write_ne _ _ _ _ ?_)⟩
    rintro rfl
    exact hb ha
  | c :: front, t, back, p, h, hf, hb, hq => by
    obtain ⟨hp, hc⟩ := h
    refine ⟨hp, ?_⟩
    have hne : c.1 ≠ t.1 := by
      intro e
      apply hf
      simp [e]
    show match (heap.write t.1 { data := t.2, next := q }).read c.1 with
      | none => False
      | some n => n.data = c.2 ∧ Chain _ n.next (front ++ t :: back1)
    rw [Mem.read_write_ne _ _ _ _ hne]
    cases hr : heap.read c.1 with
    | none => simp [hr] at hc
    | some n =>
      simp only [hr] at hc ⊢
      exact ⟨hc.1, Chain.splice q back1 hc.2 (fun hm => hf (by simp [hm])) hb hq⟩

/-! ## `MichaelScottQueue`: what each loop iteration computes -/

namespace MichaelScottQueue

theorem enqueue_body_link {T : Type} (new_node : Nat) (o : List Bool) (st : QueueState T)
    (t : Nat) (n : Node T) (ht : st.tail = some t) (hr : st.heap.read t = some n)
    (hn : n.next = none) :
    enqueue_body new_node o st =
      if flag o = true then some (st, o.tail, Iter.again ())
      else some ({ st with heap := st.heap.write t { n with next := some new_node },
                           tail := if flag o.tail = true then some t else some new_node },
                 o.tail.tail, Iter.ret ()) := by
  unfold enqueue_body
  simp only [ht, hr, hn, if_true]
  cases flag o <;> cases flag o.tail <;> simp [cas_weak]

theorem enqueue_body_help {T : Type} (new_node : Nat) (o : List Bool) (st : QueueState T)
    (t z : Nat) (n : Node T) (ht : st.tail = some t) (hr : st.heap.read t = some n)
    (hn : n.next = some z) :
    enqueue_body new_node o st =
      some ({ st with tail := if flag o = true then some t else some z }, o.tail,
            Iter.again ()) := by
  unfold enqueue_body
  simp only [ht, hr, hn, if_true]
  cases flag o <;> simp [cas_weak]

theorem dequeue_body_empty {T : Type} (o : List Bool) (result : T) (st : QueueState T)
    (f : Nat) (n : Node T) (hh : st.head = some f) (ht : st.tail = some f)
    (hr : st.heap.read f = some n) (hn : n.next = none) :
    dequeue_body o result st = some (st, o, Iter.ret (result, false)) := by
  unfold dequeue_body
  simp [hh, ht, hr, hn]

theorem dequeue_body_help {T : Type} (o : List Bool) (result : T) (st : QueueState T)
    (f z : Nat) (n : Node T) (hh : st.head = some f) (ht : st.tail = some f)
    (hr : st.heap.read f = some n) (hn : n.next = some z) :
    dequeue_body o result st =
      some ({ st with tail := if flag o = true then some f else some z }, o.tail,
            Iter.again result) := by
  unfold dequeue_body
  simp only [hh, ht, hr, hn, if_true]
  cases flag o <;> simp [cas_weak]

theorem dequeue_body_take {T : Type} (o : List Bool) (result : T) (st : QueueState T)
    (f t z : Nat) (n nz : Node T) (hh : st.head = some f) (ht : st.tail = some t)
    (hft : f ≠ t) (hr : st.heap.read f = some n) (hn : n.next = some z)
    (hz : st.heap.read z = some nz) :
    dequeue_body o result st =
      if flag o = true then some (st, o.tail, Iter.again nz.data)
      else some ({ st with head := some z, heap := st.heap.free f }, o.tail,
                 Iter.ret (nz.data, true)) := by
  unfold dequeue_body
  have hne : ¬ (some f : Ptr) = some t := by simpa using hft
  simp only [hh, ht, hr, hn, if_true, hne, if_false, Mem.deref, hz]
  cases flag o <;> simp [cas_weak, Mem.delete, hr]

end MichaelScottQueue

namespace MichaelScottQueue

theorem QueueInv_set_tail {T : Type} {st : QueueState T} {d : Nat × T} {cells : List (Nat × T)}
    (hi : QueueInv st d cells) (p : Ptr)
    (ht : (∃ front t, d :: cells = front ++ [t] ∧ p = some t.1) ∨
      (∃ front t z, d :: cells = front ++ [t, z] ∧ p = some t.1)) :
    QueueInv { st with tail := p } d cells :=
  { chain := hi.chain, nodup := hi.nodup, tail := ht }

theorem enqueue_loop_spec {T : Type} (new_node : Nat) (v : T) (d : Nat × T)
    (cells : List (Nat × T)) :
    ∀ (fuel : Nat) (o : List Bool) (st : QueueState T), QueueInv st d cells →
      st.heap.read new_node = some { data := v, next := none } →
      new_node ∉ (d :: cells).map Prod.fst →
      (((∃ front t, d :: cells = front ++ [t] ∧ st.tail = some t.1) ∧ o.length + 1 ≤ fuel) ∨
       ((∃ front t z, d :: cells = front ++ [t, z] ∧ st.tail = some t.1) ∧
          o.length + 2 ≤ fuel)) →
      ∃ st1, enqueue_loop new_node fuel o st = some st1 ∧
        QueueInv st1 d (cells ++ [(new_node, v)]) ∧ st1.head = st.head := by
  intro fuel
  induction fuel with
  | zero =>
    intro o st _ _ _ h
    rcases h with ⟨_, h⟩ | ⟨_, h⟩ <;> omega
  | succ fuel ih =>
    intro o st hi hnew hfresh h
    have hlen : o.tail.length = o.length - 1 := List.length_tail o
    rcases h with ⟨⟨front, t, hsplit, htail⟩, hfuel⟩ | ⟨⟨front, t, z, hsplit, htail⟩, hfuel⟩
    · -- `tail` is the last node
      have hch := hi.chain
      rw [hsplit] at hch
      obtain ⟨n, hr, hdata, hnext⟩ := Chain.split hch
      have hnone : n.next = none := hnext
      unfold enqueue_loop
      rw [enqueue_body_link new_node o st t.1 n htail hr hnone]
      cases hfl : flag o with
      | true =>
        simp only [if_true]
        exact ih o.tail st hi hnew hfresh
          (Or.inl ⟨⟨front, t, hsplit, htail⟩, by
            have : o ≠ [] := by
              rintro rfl
              simp [flag] at hfl
            have := List.length_pos.mpr this
            omega⟩)
      | false =>
        simp only [Bool.false_eq_true, if_false]
        refine ⟨_, rfl, ?_, rfl⟩
        have hnd := hi.nodup
        rw [hsplit] at hnd hfresh
        have htf : t.1 ∉ front.map Prod.fst := by
          intro hm
          have := List.nodup_append.mp (by simpa using hnd)
          exact this.2.2 hm (by simp)
        have hne : t.1 ≠ new_node := by
          rintro rfl
          exact hfresh (by simp)
        have hnode : ({ n with next := some new_node } : Node T) =
            { data := t.2, next := some new_node } := by
          rw [← hdata]
        have hsplit1 : d :: (cells ++ [(new_node, v)]) = front ++ t :: [(new_node, v)] := by
          rw [← List.cons_append, hsplit]
          simp
        exact
          { chain := by
              rw [hsplit1]
              show Chain (st.heap.write t.1 _) st.head _
              rw [hnode]
              refine Chain.splice (some new_node) [(new_node, v)] hch htf (by simpa using hne) ?_
              refine ⟨rfl, ?_⟩
              simp only [hnew]
              exact ⟨trivial, rfl⟩
            nodup := by
              rw [← List.cons_append, List.map_append, List.nodup_append]
              refine ⟨hi.nodup, by simp, ?_⟩
              intro a ha ha1
              have : a = new_node := by simpa using ha1
              subst this
              rw [hsplit] at ha
              exact hfresh ha
            tail := by
              rw [hsplit1]
              cases flag o.tail with
              | true => exact Or.inr ⟨front, t, (new_node, v), rfl, rfl⟩
              | false => exact Or.inl ⟨front ++ [t], (new_node, v), by simp, rfl⟩ }
    · -- `tail` is one node behind
      have hch := hi.chain
      rw [hsplit] at hch
      obtain ⟨n, hr, _, hnext⟩ := Chain.split hch
      have hsome : n.next = some z.1 := hnext.1
      unfold enqueue_loop
      rw [enqueue_body_help new_node o st t.1 z.1 n htail hr hsome]
      cases hfl : flag o with
      | true =>
        simp only [if_true]
        have hne : o ≠ [] := by
          rintro rfl
          simp [flag] at hfl
        have hpos := List.length_pos.mpr hne
        obtain ⟨st1, h1, h2, h3⟩ := ih o.tail { st with tail := some t.1 }
          (QueueInv_set_tail hi _ (Or.inr ⟨front, t, z, hsplit, rfl⟩)) hnew hfresh
          (Or.inr ⟨⟨front, t, z, hsplit, rfl⟩, by omega⟩)
        exact ⟨st1, h1, h2, h3⟩
      | false =>
        simp only [Bool.false_eq_true, if_false]
        have hs2 : d :: cells = (front ++ [t]) ++ [z] := by simp [hsplit]
        obtain ⟨st1, h1, h2, h3⟩ := ih o.tail { st with tail := some z.1 }
          (QueueInv_set_tail hi _ (Or.inl ⟨front ++ [t], z, hs2, rfl⟩)) hnew hfresh
          (Or.inl ⟨⟨front ++ [t], z, hs2, rfl⟩, by omega⟩)
        exact ⟨st1, h1, h2, h3⟩

end MichaelScottQueue

namespace MichaelScottQueue

theorem enqueue_spec {T : Type} (A : Allocator (Node T)) (o : List Bool) (fuel : Nat) (v : T)
    (st : QueueState T) (d : Nat × T) (cells : List (Nat × T)) (hi : QueueInv st d cells)
    (hf : o.length + 2 ≤ fuel) :
    ∃ st1, enqueue A o fuel v st = some st1 ∧
      QueueInv st1 d (cells ++ [(A.pick st.heap, v)]) ∧ st1.head = st.head := by
  have hfresh := A.fresh st.heap
  have hlive := Chain.live hi.chain
  have hnew : A.pick st.heap ∉ (d :: cells).map Prod.fst := fun hm => hlive _ hm hfresh
  have hi0 : QueueInv
      { st with heap := st.heap.write (A.pick st.heap) { data := v, next := none } } d cells :=
    { chain := Chain.frame hi.chain (fun b hb => by
        apply Mem.read_write_ne
        rintro rfl
        exact hnew hb)
      nodup := hi.nodup
      tail := hi.tail }
  unfold enqueue
  apply enqueue_loop_spec (A.pick st.heap) v d cells fuel o _ hi0
    (by simp [Mem.read_write_same]) hnew
  rcases hi.tail with h | h
  · exact Or.inl ⟨h, by omega⟩
  · exact Or.inr ⟨h, hf⟩

theorem QueueInv_tail_cases {T : Type} {st : QueueState T} {d c : Nat × T}
    {rest : List (Nat × T)} (hi : QueueInv st d (c :: rest)) :
    (st.tail = some d.1 ∧ rest = []) ∨
    (st.tail ≠ some d.1 ∧
      ((∃ front t, c :: rest = front ++ [t] ∧ st.tail = some t.1) ∨
       (∃ front t z, c :: rest = front ++ [t, z] ∧ st.tail = some t.1))) := by
  have hnd := hi.nodup
  simp only [List.map_cons, List.nodup_cons] at hnd
  have hmem : ∀ t : Nat × T, t ∈ c :: rest → (some t.1 : Ptr) ≠ some d.1 := by
    intro t ht e
    have e1 : t.1 = d.1 := by simpa using e
    apply hnd.1
    rw [← e1]
    have := List.mem_map_of_mem Prod.fst ht
    simpa using this
  rcases hi.tail with ⟨front, t, heq, ht⟩ | ⟨front, t, z, heq, ht⟩
  · cases front with
    | nil => simp at heq
    | cons f front =>
      simp only [List.cons_append, List.cons.injEq] at heq
      right
      refine ⟨?_, Or.inl ⟨front, t, heq.2, ht⟩⟩
      rw [ht]
      exact hmem t (by rw [heq.2]; simp)
  · cases front with
    | nil =>
      simp only [List.nil_append, List.cons.injEq] at heq
      left
      refine ⟨by rw [ht, heq.1], ?_⟩
      exact heq.2.2
    | cons f front =>
      simp only [List.cons_append, List.cons.injEq] at heq
      right
      refine ⟨?_, Or.inr ⟨front, t, z, heq.2, ht⟩⟩
      rw [ht]
      exact hmem t (by rw [heq.2]; simp)

theorem dequeue_empty_spec {T : Type} (o : List Bool) (fuel : Nat) (result : T)
    (st : QueueState T) (d : Nat × T) (hi : QueueInv st d []) (hf : 0 < fuel) :
    dequeue o fuel result st = some (st, result, false) := by
  obtain ⟨k, rfl⟩ : ∃ k, fuel = k + 1 := ⟨fuel - 1, by omega⟩
  obtain ⟨hh, hc⟩ := hi.chain
  have ht : st.tail = some d.1 := by
    rcases hi.tail with ⟨front, t, heq, ht⟩ | ⟨front, t, z, heq, _⟩
    · cases front with
      | nil =>
        simp only [List.nil_append, List.cons.injEq, and_true] at heq
        rw [ht, heq]
      | cons f front => simp at heq
    · cases front with
      | nil => simp at heq
      | cons f front => simp at heq
  cases hr : st.heap.read d.1 with
  | none => simp [hr] at hc
  | some n =>
    simp only [hr] at hc
    have hn : n.next = none := hc.2
    unfold dequeue dequeue_loop
    rw [dequeue_body_empty o result st d.1 n hh ht hr hn]

end MichaelScottQueue

namespace MichaelScottQueue

theorem dequeue_loop_spec {T : Type} (d c : Nat × T) (rest : List (Nat × T)) :
    ∀ (fuel : Nat) (o : List Bool) (result : T) (st : QueueState T),
      QueueInv st d (c :: rest) →
      ((st.tail ≠ some d.1 ∧ o.length + 1 ≤ fuel) ∨ o.length + 2 ≤ fuel) →
      ∃ st1, dequeue_loop fuel o result st = some (st1, c.2, true) ∧ QueueInv st1 c rest := by
  intro fuel
  induction fuel with
  | zero =>
    intro o result st _ h
    rcases h with ⟨_, h⟩ | h <;> omega
  | succ fuel ih =>
    intro o result st hi hfuel
    have hlen : o.tail.length = o.length - 1 := List.length_tail o
    obtain ⟨hh, hc⟩ := hi.chain
    have hh1 : st.head = some d.1 := hh
    cases hr : st.heap.read d.1 with
    | none => simp [hr] at hc
    | some n =>
      simp only [hr] at hc
      obtain ⟨_, hcn, hc2⟩ := hc
      have hcn1 : n.next = some c.1 := hcn
      cases hrc : st.heap.read c.1 with
      | none => simp [hrc] at hc2
      | some nc =>
        simp only [hrc] at hc2
        have hnd := hi.nodup
        simp only [List.map_cons, List.nodup_cons, List.mem_cons, not_or] at hnd
        have hpos : flag o = true → 0 < o.length := by
          intro hfl
          apply List.length_pos.mpr
          rintro rfl
          simp [flag] at hfl
        rcases QueueInv_tail_cases hi with ⟨ht, hrest⟩ | ⟨ht, hcases⟩
        · -- `tail` equals `head` although an element is linked: help, then go round again
          have hf2 : o.length + 2 ≤ fuel + 1 := by
            rcases hfuel with ⟨h1, _⟩ | h
            · exact absurd ht h1
            · exact h
          unfold dequeue_loop
          rw [dequeue_body_help o result st d.1 c.1 n hh1 ht hr hcn1]
          cases hfl : flag o with
          | true =>
            simp only [if_true]
            have := hpos hfl
            exact ih o.tail result _ (QueueInv_set_tail hi _ (by rw [← ht]; exact hi.tail))
              (Or.inr (by omega))
          | false =>
            simp only [Bool.false_eq_true, if_false]
            subst hrest
            refine ih o.tail result _
              (QueueInv_set_tail hi _ (Or.inl ⟨[d], c, rfl, rfl⟩)) (Or.inl ⟨?_, by omega⟩)
            intro e
            have e1 : c.1 = d.1 := by simpa using e
            exact hnd.1.1 e1.symm
        · -- `tail` is behind `head`: take the element
          obtain ⟨t, htt⟩ : ∃ t, st.tail = some t := by
            rcases hcases with ⟨_, t, _, h⟩ | ⟨_, t, _, _, h⟩ <;> exact ⟨t.1, h⟩
          have hft : d.1 ≠ t := by
            rintro rfl
            exact ht htt
          unfold dequeue_loop
          rw [dequeue_body_take o result st d.1 t c.1 n nc hh1 htt hft hr hcn1 hrc]
          cases hfl : flag o with
          | true =>
            simp only [if_true]
            have := hpos hfl
            refine ih o.tail nc.data st hi (Or.inl ⟨ht, ?_⟩)
            rcases hfuel with ⟨_, h⟩ | h <;> omega
          | false =>
            simp only [Bool.false_eq_true, if_false]
            refine ⟨_, by rw [hc2.1], ?_⟩
            have hframe : ∀ b, b ∈ (c :: rest).map Prod.fst →
                (st.heap.free d.1).read b = st.heap.read b := by
              intro b hb
              apply Mem.read_free_ne
              rintro rfl
              simp only [List.map_cons, List.mem_cons] at hb
              rcases hb with hb | hb
              · exact hnd.1.1 hb
              · exact hnd.1.2 hb
            have hchain : Chain st.heap (some c.1) (c :: rest) := by
              refine ⟨rfl, ?_⟩
              simp only [hrc]
              exact hc2
            exact
              { chain := Chain.frame hchain hframe
                nodup := by
                  simp only [List.map_cons, List.nodup_cons]
                  exact hnd.2
                tail := hcases }

theorem dequeue_spec {T : Type} (o : List Bool) (fuel : Nat) (result : T)
    (st : QueueState T) (d c : Nat × T) (rest : List (Nat × T))
    (hi : QueueInv st d (c :: rest)) (hf : o.length + 2 ≤ fuel) :
    ∃ st1, dequeue o fuel result st = some (st1, c.2, true) ∧ QueueInv st1 c rest :=
  dequeue_loop_spec d c rest fuel o result st hi (Or.inr hf)

theorem QueueInv_new {T : Type} (A : Allocator (Node T)) (junk : T) (heap : Mem (Node T)) :
    QueueInv (new A junk heap) (A.pick heap, junk) [] :=
  { chain := by
      refine ⟨rfl, ?_⟩
      simp only [new, Mem.read_write_same]
      exact ⟨trivial, rfl⟩
    nodup := by simp
    tail := Or.inl ⟨[], (A.pick heap, junk), rfl, rfl⟩ }

theorem queue_run_model {T : Type} (A : Allocator (Node T)) :
    ∀ (cs : List (QueueOp T × List Bool)) (result : T) (st : QueueState T) (d : Nat × T)
      (cells : List (Nat × T)), QueueInv st d cells →
      ∃ st1 d1 cells1, QueueInv st1 d1 cells1 ∧
        cells1.map Prod.snd = (queue_model (cs.map Prod.fst) (cells.map Prod.snd) result).1 ∧
        run A cs result st =
          some (st1, (queue_model (cs.map Prod.fst) (cells.map Prod.snd) result).2.1,
                (queue_model (cs.map Prod.fst) (cells.map Prod.snd) result).2.2)
  | [], result, st, d, cells, hi => ⟨st, d, cells, hi, rfl, rfl⟩
  | (QueueOp.enqueue v, o) :: cs, result, st, d, cells, hi => by
    obtain ⟨st1, h1, hi1, _⟩ := enqueue_spec A o (o.length + 2) v st d cells hi (le_refl _)
    obtain ⟨st2, d2, cells2, hi2, hm, hrun⟩ := queue_run_model A cs result st1 d _ hi1
    refine ⟨st2, d2, cells2, hi2, by simpa [queue_model] using hm, ?_⟩
    simpa [run, queue_model, h1] using hrun
  | (QueueOp.dequeue, o) :: cs, result, st, d, [], hi => by
    have h1 := dequeue_empty_spec o (o.length + 2) result st d hi (by omega)
    obtain ⟨st2, d2, cells2, hi2, hm, hrun⟩ := queue_run_model A cs result st d _ hi
    refine ⟨st2, d2, cells2, hi2, by simpa [queue_model] using hm, ?_⟩
    simp only [List.map_cons, List.map_nil, run, queue_model, h1, hrun]
  | (QueueOp.dequeue, o) :: cs, result, st, d, c :: cells, hi => by
    obtain ⟨st1, h1, hi1⟩ := dequeue_spec o (o.length + 2) result st d c cells hi (le_refl _)
    obtain ⟨st2, d2, cells2, hi2, hm, hrun⟩ := queue_run_model A cs c.2 st1 c _ hi1
    refine ⟨st2, d2, cells2, hi2, by simpa [queue_model] using hm, ?_⟩
    simp only [List.map_cons, run, queue_model, h1, hrun]

end MichaelScottQueue

/-! ## `LockFreeQueue` computes what `MichaelScottQueue` computes -/

namespace LockFreeQueue

theorem enqueue_body_same {T : Type} (new_node : Nat) (o : List Bool) (st : QueueState T) :
    enqueue_body new_node o st = MichaelScottQueue.enqueue_body new_node o st := rfl

theorem dequeue_body_same {T : Type} (o : List Bool) (result : T) (st : QueueState T) :
    dequeue_body o result st = MichaelScottQueue.dequeue_body o result st := rfl

theorem enqueue_loop_same {T : Type} (new_node : Nat) :
    ∀ (fuel : Nat) (o : List Bool) (st : QueueState T),
      enqueue_loop new_node fuel o st = MichaelScottQueue.enqueue_loop new_node fuel o st
  | 0, _, _ => rfl
  | fuel + 1, o, st => by
    unfold enqueue_loop MichaelScottQueue.enqueue_loop
    rw [enqueue_body_same]
    cases MichaelScottQueue.enqueue_body new_node o st with
    | none => rfl
    | some r =>
      obtain ⟨st1, o1, it⟩ := r
      cases it with
      | again s => exact enqueue_loop_same new_node fuel o1 st1
      | ret r => rfl

theorem dequeue_loop_same {T : Type} :
    ∀ (fuel : Nat) (o : List Bool) (result : T) (st : QueueState T),
      dequeue_loop fuel o result st = MichaelScottQueue.dequeue_loop fuel o result st
  | 0, _, _, _ => rfl
  | fuel + 1, o, result, st => by
    unfold dequeue_loop MichaelScottQueue.dequeue_loop
    rw [dequeue_body_same]
    cases MichaelScottQueue.dequeue_body o result st with
    | none => rfl
    | some r =>
      obtain ⟨st1, o1, it⟩ := r
      cases it with
      | again s => exact dequeue_loop_same fuel o1 s st1
      | ret r => rfl

theorem enqueue_same {T : Type} (A : Allocator (Node T)) (o : List Bool) (fuel : Nat) (v : T)
    (st : QueueState T) : enqueue A o fuel v st = MichaelScottQueue.enqueue A o fuel v st :=
  enqueue_loop_same _ fuel o _

theorem dequeue_same {T : Type} (o : List Bool) (fuel : Nat) (result : T) (st : QueueState T) :
    dequeue o fuel result st = MichaelScottQueue.dequeue o fuel result st :=
  dequeue_loop_same fuel o result st

theorem new_same {T : Type} (A : Allocator (Node T)) (zero : T) (heap : Mem (Node T)) :
    new A zero heap = MichaelScottQueue.new A zero heap := rfl

theorem run_same {T : Type} (A : Allocator (Node T)) :
    ∀ (cs : List (QueueOp T × List Bool)) (result : T) (st : QueueState T),
      run A cs result st = MichaelScottQueue.run A cs result st
  | [], _, _ => rfl
  | (QueueOp.enqueue v, o) :: cs, result, st => by
    unfold run MichaelScottQueue.run
    rw [enqueue_same]
    cases MichaelScottQueue.enqueue A o (o.length + 2) v st with
    | none => rfl
    | some st1 => exact run_same A cs result st1
  | (QueueOp.dequeue, o) :: cs, result, st => by
    unfold run MichaelScottQueue.run
    rw [dequeue_same]
    cases MichaelScottQueue.dequeue o (o.length + 2) result st with
    | none => rfl
    | some r =>
      obtain ⟨st1, result1, b⟩ := r
      simp only [run_same A cs result1 st1]

end LockFreeQueue

/-! ## The list models -/

namespace LockFreeStack

theorem model_append {T : Type} :
    ∀ (cs cs2 : List (Op T)) (l : List T) (r : T),
      model (cs ++ cs2) l r =
        ((model cs2 (model cs l r).1 (model cs l r).2.1).1,
         (model cs2 (model cs l r).1 (model cs l r).2.1).2.1,
         (model cs l r).2.2 ++ (model cs2 (model cs l r).1 (model cs l r).2.1).2.2)
  | [], cs2, l, r => by simp [model]
  | Op.push v :: cs, cs2, l, r => by
    simp only [List.cons_append, model]
    exact model_append cs cs2 (v :: l) r
  | Op.pop :: cs, cs2, [], r => by
    have ih := model_append cs cs2 [] r
    simp only [List.cons_append, model, List.append_eq]
    rw [ih]
  | Op.pop :: cs, cs2, v :: l, r => by
    have ih := model_append cs cs2 l v
    simp only [List.cons_append, model, List.append_eq]
    rw [ih]

theorem model_pushes {T : Type} :
    ∀ (vs : List T) (l : List T) (r : T),
      model (vs.map Op.push) l r = (vs.reverse ++ l, r, [])
  | [], l, r => by simp [model]
  | v :: vs, l, r => by
    simp only [List.map_cons, model]
    rw [model_pushes vs (v :: l) r]
    simp

theorem model_pops {T : Type} :
    ∀ (l : List T) (r : T),
      model (List.replicate l.length Op.pop) l r =
        ([], l.getLastD r, l.map (fun v => (true, v)))
  | [], r => by simp [model]
  | v :: l, r => by
    simp only [List.length_cons, List.replicate_succ, model]
    rw [model_pops l v, List.getLastD_cons]
    rfl

end LockFreeStack

theorem queue_model_append {T : Type} :
    ∀ (cs cs2 : List (QueueOp T)) (l : List T) (r : T),
      queue_model (cs ++ cs2) l r =
        ((queue_model cs2 (queue_model cs l r).1 (queue_model cs l r).2.1).1,
         (queue_model cs2 (queue_model cs l r).1 (queue_model cs l r).2.1).2.1,
         (queue_model cs l r).2.2 ++
           (queue_model cs2 (queue_model cs l r).1 (queue_model cs l r).2.1).2.2)
  | [], cs2, l, r => by simp [queue_model]
  | QueueOp.enqueue v :: cs, cs2, l, r => by
    simp only [List.cons_append, queue_model]
    exact queue_model_append cs cs2 (l ++ [v]) r
  | QueueOp.dequeue :: cs, cs2, [], r => by
    have ih := queue_model_append cs cs2 [] r
    simp only [List.cons_append, queue_model, List.append_eq]
    rw [ih]
  | QueueOp.dequeue :: cs, cs2, v :: l, r => by
    have ih := queue_model_append cs cs2 l v
    simp only [List.cons_append, queue_model, List.append_eq]
    rw [ih]

theorem queue_model_enqueues {T : Type} :
    ∀ (vs : List T) (l : List T) (r : T),
      queue_model (vs.map QueueOp.enqueue) l r = (l ++ vs, r, [])
  | [], l, r => by simp [queue_model]
  | v :: vs, l, r => by
    simp only [List.map_cons, queue_model]
    rw [queue_model_enqueues vs (l ++ [v]) r]
    simp

theorem queue_model_dequeues {T : Type} :
    ∀ (l : List T) (r : T),
      queue_model (List.replicate l.length QueueOp.dequeue) l r =
        ([], l.getLastD r, l.map (fun v => (true, v)))
  | [], r => by simp [queue_model]
  | v :: l, r => by
    simp only [List.length_cons, List.replicate_succ, queue_model]
    rw [queue_model_dequeues l v, List.getLastD_cons]
    rfl

/-- Elements still in the queue plus successful dequeues equal initial elements plus enqueues. -/
theorem queue_model_count {T : Type} :
    ∀ (cs : List (QueueOp T)) (l : List T) (r : T),
      (queue_model cs l r).1.length +
          ((queue_model cs l r).2.2.filter (fun x => x.1)).length =
        l.length + (cs.filter QueueOp.isEnqueue).length
  | [], l, r => by simp [queue_model]
  | QueueOp.enqueue v :: cs, l, r => by
    simp only [queue_model, List.filter_cons, QueueOp.isEnqueue]
    rw [queue_model_count cs (l ++ [v]) r]
    simp
    omega
  | QueueOp.dequeue :: cs, [], r => by
    simp only [queue_model, List.filter_cons, QueueOp.isEnqueue]
    have := queue_model_count cs [] r
    simpa using this
  | QueueOp.dequeue :: cs, v :: l, r => by
    simp only [queue_model, List.filter_cons, QueueOp.isEnqueue]
    have := queue_model_count cs l v
    simp only [if_true, List.length_cons] at this ⊢
    simp at this ⊢
    omega

/-! ## `HazardPointerStack`: the scan -/

namespace HazardPointerStack

theorem is_hazardous_iff_slot (hp : Nat → Ptr) (p : Ptr) :
    HazardPointer.is_hazardous hp p = true ↔ ∃ i, i < HazardPointer.MAX_THREADS ∧ hp i = p := by
  simp [HazardPointer.is_hazardous, List.any_eq_true, List.mem_range]

theorem scan_delete_sound (st : State) :
    ∀ (l : List Ptr) (heap : Mem (Node Int)) (still : List Ptr)
      (r : Mem (Node Int) × List Ptr),
      scan_loop st l heap still = some r →
      r.2 = still ++ l.filter (HazardPointer.is_hazardous st.hp) ∧
      ∀ b, r.1.read b =
        if some b ∈ l ∧ HazardPointer.is_hazardous st.hp (some b) = false then none
        else heap.read b
  | [], heap, still, r, h => by
    simp only [scan_loop, Option.some.injEq] at h
    subst h
    simp
  | p :: l, heap, still, r, h => by
    unfold scan_loop at h
    by_cases hz : HazardPointer.is_hazardous st.hp p = false
    · simp only [hz, if_true] at h
      cases hd : heap.delete p with
      | none => simp [hd] at h
      | some heap1 =>
        simp only [hd] at h
        obtain ⟨h1, h2⟩ := scan_delete_sound st l heap1 still r h
        refine ⟨by simpa [List.filter_cons, hz] using h1, fun b => ?_⟩
        rw [h2 b]
        rcases Mem.delete_eq_some heap heap1 p hd with ⟨rfl, rfl⟩ | ⟨a, rfl, _, rfl⟩
        · simp
        · by_cases hb : b = a
          · subst hb
            simp [hz, Mem.read_free_same]
          · have hb1 : ¬ a = b := fun e => hb e.symm
            simp [hb, hb1, Mem.read_free_ne _ _ _ hb]
    · simp only [hz, if_false] at h
      obtain ⟨h1, h2⟩ := scan_delete_sound st l heap (still ++ [p]) r h
      have hz1 : HazardPointer.is_hazardous st.hp p = true := by simpa using hz
      refine ⟨by simpa [List.filter_cons, hz1] using h1, fun b => ?_⟩
      rw [h2 b]
      by_cases hb : p = some b
      · subst hb
        simp [hz1]
      · have hb1 : ¬ some b = p := fun e => hb e.symm
        simp [hb1]

theorem scan_delete_defined (st : State) :
    ∀ (l : List Ptr) (heap : Mem (Node Int)) (still : List Ptr),
      Deletable heap (l.filter (fun p => !HazardPointer.is_hazardous st.hp p)) →
      ∃ r, scan_loop st l heap still = some r
  | [], heap, still, _ => ⟨_, rfl⟩
  | p :: l, heap, still, h => by
    unfold scan_loop
    by_cases hz : HazardPointer.is_hazardous st.hp p = false
    · simp only [hz, if_true]
      have h1 : Deletable heap
          (p :: l.filter (fun p => !HazardPointer.is_hazardous st.hp p)) := by
        simpa [List.filter_cons, hz] using h
      cases p with
      | none => exact scan_delete_defined st l heap still h1.tail
      | some a =>
        rw [Mem.delete_some _ _ (h1.1 a (by simp))]
        exact scan_delete_defined st l _ still h1.free
    · simp only [hz, if_false]
      have hz1 : HazardPointer.is_hazardous st.hp p = true := by simpa using hz
      have h1 : Deletable heap (l.filter (fun p => !HazardPointer.is_hazardous st.hp p)) := by
        simpa [List.filter_cons, hz1] using h
      exact scan_delete_defined st l heap _ h1

end HazardPointerStack

/-! ## `LockFreeStack`: hazard slots in general -/

namespace LockFreeStack

theorem slot_of_index (tid index : Int) (h0 : 0 ≤ tid) (h1 : tid < (MAX_THREADS : Int))
    (hi0 : 0 ≤ index) (hi1 : index < (MAX_HAZARDS : Int)) :
    slot tid index = some (tid * (MAX_HAZARDS : Int) + index).toNat ∧
      (tid * (MAX_HAZARDS : Int) + index).toNat < MAX_THREADS * MAX_HAZARDS := by
  unfold slot
  simp only [MAX_THREADS, MAX_HAZARDS] at *
  have hb : 0 ≤ tid * ((2 : Nat) : Int) + index ∧
      tid * ((2 : Nat) : Int) + index < ((128 * 2 : Nat) : Int) := by
    constructor <;> push_cast <;> omega
  simp only [hb, and_self, if_true, true_and]
  have := hb.2
  omega

theorem is_hazardous_iff_thread {T : Type} (st : State T) (p : Ptr) :
    is_hazardous st p = true ↔
      ∃ t k, t < MAX_THREADS ∧ k < MAX_HAZARDS ∧ st.hazards (t * MAX_HAZARDS + k) = p := by
  rw [is_hazardous_iff]
  constructor
  · rintro ⟨i, hi, hp⟩
    refine ⟨i / MAX_HAZARDS, i % MAX_HAZARDS, ?_, ?_, ?_⟩
    · simp only [MAX_THREADS, MAX_HAZARDS] at *
      omega
    · simp only [MAX_HAZARDS]
      omega
    · rw [Nat.div_add_mod']
      exact hp
  · rintro ⟨t, k, ht, hk, hp⟩
    refine ⟨t * MAX_HAZARDS + k, ?_, hp⟩
    simp only [MAX_THREADS, MAX_HAZARDS] at *
    omega

end LockFreeStack

/-! ## Reachability and the effect of `retire_node` -/

theorem nth_next_none {T : Type} (heap : Mem (Node T)) : ∀ k, nth_next heap k none = none
  | 0 => rfl
  | _ + 1 => rfl

/-- In a free store that differs from `heap` only by freed cells, every node reachable from the
start of a chain of `heap` is a node of that chain. -/
theorem nth_next_mem_chain {T : Type} {heap heap1 : Mem (Node T)}
    (hsub : ∀ b, heap1.read b = heap.read b ∨ heap1.read b = none) :
    ∀ {cells : List (Nat × T)} {p : Ptr}, Chain heap p cells →
      ∀ k b, nth_next heap1 k p = some b → b ∈ cells.map Prod.fst
  | [], p, h, k, b, hk => by
    have hp : p = none := h
    subst hp
    rw [nth_next_none] at hk
    cases hk
  | c :: rest, p, h, k, b, hk => by
    obtain ⟨hp, hc⟩ := h
    subst hp
    cases k with
    | zero =>
      have : c.1 = b := by simpa [nth_next] using hk
      simp [this]
    | succ k =>
      simp only [nth_next, Mem.deref] at hk
      cases hr : heap.read c.1 with
      | none => simp [hr] at hc
      | some n =>
        simp only [hr] at hc
        rcases hsub c.1 with h1 | h1
        · rw [h1, hr] at hk
          have := nth_next_mem_chain hsub hc.2 k b hk
          simp [this]
        · rw [h1] at hk
          cases hk

theorem Deletable.sublist {α : Type} {heap : Mem α} {ps qs : List Ptr}
    (h : Deletable heap ps) (hs : qs.Sublist ps) : Deletable heap qs := by
  refine ⟨fun a ha => h.1 a (hs.subset ha), ?_⟩
  exact List.Nodup.sublist (List.Sublist.filterMap id hs) h.2

namespace LockFreeStack

theorem retire_node_effect {T : Type} (a : Nat) (s : State T)
    (hdel : Deletable s.heap (s.retired_list ++ [some a])) :
    ∃ s1, retire_node (some a) s = some s1 ∧ s1.head = s.head ∧ s1.hazards = s.hazards ∧
      s1.thread_id = s.thread_id ∧ s1.next_thread_id = s.next_thread_id ∧
      (some a ∈ s1.retired_list ∨ s1.heap.read a = none) ∧
      ∀ b, s1.heap.read b = s.heap.read b ∨ s1.heap.read b = none := by
  unfold retire_node
  dsimp only
  split
  · let s0 : State T :=
      { s with retired_list := s.retired_list ++ [some a],
               retired_count := wrap32 (s.retired_count + 1) }
    have hd : Deletable s0.heap (s0.retired_list.filter (fun p => !is_hazardous s0 p)) :=
      hdel.sublist (List.filter_sublist _)
    obtain ⟨r, hr⟩ := scan_loop_defined s0 s0.retired_list s0.heap [] hd
    obtain ⟨h1, h2⟩ := scan_loop_sound s0 _ _ _ r hr
    refine ⟨{ s0 with heap := r.1, retired_list := r.2,
                      retired_count := wrap32 (r.2.length : Int) }, ?_, rfl, rfl, rfl, rfl,
      ?_, ?_⟩
    · show scan_and_reclaim s0 = _
      unfold scan_and_reclaim
      rw [hr]
    · show some a ∈ r.2 ∨ r.1.read a = none
      rw [h1, h2 a]
      cases hz : is_hazardous s0 (some a) with
      | true =>
        left
        simp [List.mem_filter, s0, hz]
      | false =>
        right
        simp [s0]
    · intro b
      show r.1.read b = s.heap.read b ∨ r.1.read b = none
      rw [h2 b]
      split
      · exact Or.inr rfl
      · exact Or.inl rfl
  · exact ⟨_, rfl, rfl, rfl, rfl, rfl, Or.inl (by simp), fun b => Or.inl rfl⟩

end LockFreeStack

/-! ## `SafeStack`: what each operation computes -/

namespace SafeStack

theorem push_loop_value (w : Nat) (new_node : Nat) (v : Int) :
    ∀ (o : List Bool) (fuel : Nat) (st : TaggedState) (x : Ptr), o.length < fuel →
      st.heap.read new_node = some { data := v, next := x } →
      push_loop w new_node fuel o st.head st =
        some { head := { ptr := some new_node, tag := (st.head.tag + 1) % 2 ^ w },
               heap := st.heap.write new_node { data := v, next := st.head.ptr } }
  | [], fuel, st, x, hf, hr => by
    cases fuel with
    | zero => simp at hf
    | succ fuel => simp [push_loop, compare_exchange, hr, flag_nil, cas_weak_same]
  | b :: o, fuel, st, x, hf, hr => by
    cases fuel with
    | zero => simp at hf
    | succ fuel =>
      cases b with
      | false => simp [push_loop, compare_exchange, hr, flag_cons, cas_weak_same]
      | true =>
        have ih := push_loop_value w new_node v o fuel
          { st with heap := st.heap.write new_node { data := v, next := st.head.ptr } }
          st.head.ptr (by simpa using hf) (by simp [Mem.read_write_same])
        simp only [push_loop, compare_exchange, hr, flag_cons, cas_weak_spurious,
          List.tail_cons]
        simp only [Mem.write_write] at ih
        simpa using ih

theorem push_value (A : Allocator (Node Int)) (w : Nat) (o : List Bool) (fuel : Nat) (v : Int)
    (st : TaggedState) (hf : o.length < fuel) :
    push A w o fuel v st =
      some { head := { ptr := some (A.pick st.heap), tag := (st.head.tag + 1) % 2 ^ w },
             heap := st.heap.write (A.pick st.heap) { data := v, next := st.head.ptr } } := by
  unfold push
  have h := push_loop_value w (A.pick st.heap) v o fuel
    { st with heap := st.heap.write (A.pick st.heap) { data := v, next := none } } none hf
    (by simp [Mem.read_write_same])
  simp only [Mem.write_write] at h
  exact h

theorem pop_null (w : Nat) (o : List Bool) (fuel : Nat) (result : Int) (st : TaggedState)
    (hh : st.head.ptr = none) (hf : 0 < fuel) :
    pop w o fuel result st = some (st, result, false) := by
  obtain ⟨k, rfl⟩ : ∃ k, fuel = k + 1 := ⟨fuel - 1, by omega⟩
  simp [pop, pop_loop, hh]

theorem pop_loop_value (w : Nat) (a : Nat) (n : Node Int) :
    ∀ (o : List Bool) (fuel : Nat) (result : Int) (st : TaggedState), o.length < fuel →
      st.head.ptr = some a → st.heap.read a = some n →
      pop_loop w fuel o st.head result st =
        some ({ head := { ptr := n.next, tag := (st.head.tag + 1) % 2 ^ w },
                heap := st.heap.free a }, n.data, true)
  | [], fuel, result, st, hf, hh, hr => by
    cases fuel with
    | zero => simp at hf
    | succ fuel =>
      simp [pop_loop, compare_exchange, hh, Mem.deref, hr, flag_nil, cas_weak_same,
        Mem.delete]
  | b :: o, fuel, result, st, hf, hh, hr => by
    cases fuel with
    | zero => simp at hf
    | succ fuel =>
      cases b with
      | false =>
        simp [pop_loop, compare_exchange, hh, Mem.deref, hr, flag_cons, cas_weak_same,
          Mem.delete]
      | true =>
        have ih := pop_loop_value w a n o fuel result st (by simpa using hf) hh hr
        simp only [pop_loop, compare_exchange, hh, Mem.deref, hr, flag_cons, cas_weak_spurious,
          List.tail_cons, reduceCtorEq, if_false, Bool.false_eq_true]
        exact ih

theorem pop_value (w : Nat) (a : Nat) (n : Node Int) (o : List Bool) (fuel : Nat)
    (result : Int) (st : TaggedState) (hf : o.length < fuel) (hh : st.head.ptr = some a)
    (hr : st.heap.read a = some n) :
    pop w o fuel result st =
      some ({ head := { ptr := n.next, tag := (st.head.tag + 1) % 2 ^ w },
              heap := st.heap.free a }, n.data, true) :=
  pop_loop_value w a n o fuel result st hf hh hr

end SafeStack

/-! ## `SafeStack` and `TaggedStack`: single-threaded runs -/

theorem two_pow_pos (w : Nat) : 0 < 2 ^ w := Nat.pow_pos (by decide)

theorem TaggedInv.of_tagged_new (w : Nat) (heap : Mem (Node Int)) :
    TaggedInv w (SafeStack.new heap) [] :=
  { chain := rfl, nodup := List.nodup_nil, tag := two_pow_pos w }

theorem TaggedInv.after_tagged_push {w : Nat} {st : TaggedState} {cells : List (Nat × Int)}
    (hi : TaggedInv w st cells) (A : Allocator (Node Int)) (v : Int) :
    TaggedInv w
      { head := { ptr := some (A.pick st.heap), tag := (st.head.tag + 1) % 2 ^ w },
        heap := st.heap.write (A.pick st.heap) { data := v, next := st.head.ptr } }
      ((A.pick st.heap, v) :: cells) := by
  have hfresh := A.fresh st.heap
  have hlive := Chain.live hi.chain
  have hnew : A.pick st.heap ∉ cells.map Prod.fst := fun hm => hlive _ hm hfresh
  exact
    { chain := by
        refine ⟨rfl, ?_⟩
        simp only [Mem.read_write_same]
        refine ⟨trivial, Chain.frame hi.chain (fun b hb => ?_)⟩
        apply Mem.read_write_ne
        rintro rfl
        exact hnew hb
      nodup := by
        simp only [List.map_cons, List.nodup_cons]
        exact ⟨hnew, hi.nodup⟩
      tag := Nat.mod_lt _ (two_pow_pos w) }

theorem TaggedInv.after_tagged_pop {w : Nat} {st : TaggedState} {a : Nat} {v : Int}
    {cells : List (Nat × Int)} (hi : TaggedInv w st ((a, v) :: cells)) :
    ∃ n, st.head.ptr = some a ∧ st.heap.read a = some n ∧ n.data = v ∧
      TaggedInv w
        { head := { ptr := n.next, tag := (st.head.tag + 1) % 2 ^ w },
          heap := st.heap.free a } cells := by
  obtain ⟨hh, hc⟩ := hi.chain
  cases hr : st.heap.read a with
  | none => simp [hr] at hc
  | some n =>
    simp only [hr] at hc
    have hnd := hi.nodup
    simp only [List.map_cons, List.nodup_cons] at hnd
    refine ⟨n, hh, rfl, hc.1, ?_⟩
    exact
      { chain := Chain.frame hc.2 (fun b hb => by
          apply Mem.read_free_ne
          rintro rfl
          exact hnd.1 hb)
        nodup := hnd.2
        tag := Nat.mod_lt _ (two_pow_pos w) }

namespace SafeStack

theorem tagged_run_model (A : Allocator (Node Int)) (w : Nat) :
    ∀ (cs : List (LockFreeStack.Op Int × List Bool)) (result : Int) (st : TaggedState)
      (cells : List (Nat × Int)), TaggedInv w st cells →
      ∃ st1 cells1, TaggedInv w st1 cells1 ∧
        cells1.map Prod.snd =
          (LockFreeStack.model (cs.map Prod.fst) (cells.map Prod.snd) result).1 ∧
        run A w cs result st =
          some (st1, (LockFreeStack.model (cs.map Prod.fst) (cells.map Prod.snd) result).2.1,
                (LockFreeStack.model (cs.map Prod.fst) (cells.map Prod.snd) result).2.2) ∧
        st1.head.tag =
          (st.head.tag + ((cs.map Prod.fst).filter LockFreeStack.Op.isPush).length +
            ((LockFreeStack.model (cs.map Prod.fst) (cells.map Prod.snd) result).2.2.filter
              (fun x => x.1)).length) % 2 ^ w
  | [], result, st, cells, hi =>
    ⟨st, cells, hi, rfl, rfl, by simp [LockFreeStack.model, Nat.mod_eq_of_lt hi.tag]⟩
  | (LockFreeStack.Op.push v, o) :: cs, result, st, cells, hi => by
    have h1 := push_value A w o (o.length + 1) v st (Nat.lt_succ_self _)
    obtain ⟨st2, cells2, hi2, hm, hrun, htag⟩ :=
      tagged_run_model A w cs result _ _ (hi.after_tagged_push A v)
    refine ⟨st2, cells2, hi2, by simpa [LockFreeStack.model] using hm, ?_, ?_⟩
    · simpa [run, LockFreeStack.model, h1] using hrun
    · rw [htag]
      simp only [List.map_cons, LockFreeStack.model, List.filter_cons,
        LockFreeStack.Op.isPush, if_true, List.length_cons]
      rw [Nat.add_assoc, Nat.add_assoc, Nat.mod_add_mod]
      congr 1
      omega
  | (LockFreeStack.Op.pop, o) :: cs, result, st, [], hi => by
    have hh : st.head.ptr = none := hi.chain
    have h1 := pop_null w o (o.length + 1) result st hh (Nat.succ_pos _)
    obtain ⟨st2, cells2, hi2, hm, hrun, htag⟩ := tagged_run_model A w cs result st [] hi
    refine ⟨st2, cells2, hi2, by simpa [LockFreeStack.model] using hm, ?_, ?_⟩
    · simp only [List.map_cons, List.map_nil, run, LockFreeStack.model, h1, hrun]
    · rw [htag]
      simp [LockFreeStack.model, List.filter_cons, LockFreeStack.Op.isPush]
  | (LockFreeStack.Op.pop, o) :: cs, result, st, (a, v) :: cells, hi => by
    obtain ⟨n, hh, hr, hd, hi1⟩ := hi.after_tagged_pop
    have h1 := pop_value w a n o (o.length + 1) result st (Nat.lt_succ_self _) hh hr
    obtain ⟨st2, cells2, hi2, hm, hrun, htag⟩ := tagged_run_model A w cs v _ cells hi1
    refine ⟨st2, cells2, hi2, by simpa [LockFreeStack.model] using hm, ?_, ?_⟩
    · simp only [List.map_cons, run, LockFreeStack.model, h1, hd, hrun]
    · rw [htag]
      simp only [List.map_cons, LockFreeStack.model, List.filter_cons,
        LockFreeStack.Op.isPush, if_true, List.length_cons, Bool.false_eq_true, if_false]
      rw [Nat.add_assoc, Nat.add_assoc, Nat.mod_add_mod]
      congr 1
      omega

end SafeStack

namespace TaggedStack

theorem compare_exchange_eq_cas (atomic_tp expected desired : TaggedPointer) :
    compare_exchange atomic_tp expected desired =
      SafeStack.compare_exchange false atomic_tp expected desired := by
  unfold compare_exchange SafeStack.compare_exchange cas_weak
  by_cases h : atomic_tp = expected
  · subst h
    simp
  · have h1 : ¬ (atomic_tp.ptr = expected.ptr ∧ atomic_tp.tag = expected.tag) := by
      rintro ⟨h2, h3⟩
      apply h
      cases atomic_tp
      cases expected
      simp only at h2 h3
      rw [h2, h3]
    simp [h, h1]

theorem push_loop_eq_safe (w : Nat) (new_node : Nat) :
    ∀ (fuel : Nat) (old_head : TaggedPointer) (st : TaggedState),
      push_loop w new_node fuel old_head st = SafeStack.push_loop w new_node fuel [] old_head st
  | 0, _, _ => rfl
  | fuel + 1, old_head, st => by
    unfold push_loop SafeStack.push_loop
    cases st.heap.read new_node with
    | none => rfl
    | some n =>
      simp only [compare_exchange_eq_cas, flag_nil, List.tail_nil]
      split
      · rfl
      · exact push_loop_eq_safe w new_node fuel _ _

theorem pop_loop_eq_safe (w : Nat) :
    ∀ (fuel : Nat) (old_head : TaggedPointer) (result : Int) (st : TaggedState),
      pop_loop w fuel old_head result st = SafeStack.pop_loop w fuel [] old_head result st
  | 0, _, _, _ => rfl
  | fuel + 1, old_head, result, st => by
    unfold pop_loop SafeStack.pop_loop
    split
    · rfl
    · cases st.heap.deref old_head.ptr with
      | none => rfl
      | some n =>
        simp only [compare_exchange_eq_cas, flag_nil, List.tail_nil]
        split
        · rfl
        · exact pop_loop_eq_safe w fuel _ _ _

theorem run_eq_safe (A : Allocator (Node Int)) (w : Nat) :
    ∀ (cs : List (LockFreeStack.Op Int)) (result : Int) (st : TaggedState),
      run A w cs result st = SafeStack.run A w (cs.map (fun c => (c, []))) result st
  | [], _, _ => rfl
  | LockFreeStack.Op.push v :: cs, result, st => by
    simp only [List.map_cons, run, SafeStack.run, push, SafeStack.push, push_loop_eq_safe,
      List.length_nil, Nat.zero_add]
    cases SafeStack.push_loop w (A.pick st.heap) 1 []
      { st with heap := st.heap.write (A.pick st.heap) { data := v, next := none } }.head
      { st with heap := st.heap.write (A.pick st.heap) { data := v, next := none } } with
    | none => rfl
    | some st1 => exact run_eq_safe A w cs result st1
  | LockFreeStack.Op.pop :: cs, result, st => by
    simp only [List.map_cons, run, SafeStack.run, pop, SafeStack.pop, pop_loop_eq_safe,
      List.length_nil, Nat.zero_add]
    cases SafeStack.pop_loop w 1 [] st.head result st with
    | none => rfl
    | some r =>
      obtain ⟨st1, result1, b⟩ := r
      simp only [run_eq_safe A w cs result1 st1]

end TaggedStack

/-! ## `HazardPointerStack`: single-threaded runs -/

namespace HazardPointerStack

theorem hp_push_loop_value (new_node : Nat) (v : Int) :
    ∀ (o : List Bool) (fuel : Nat) (st : State) (x : Ptr), o.length < fuel →
      st.heap.read new_node = some { data := v, next := x } →
      push_loop new_node fuel o st.head st =
        some { st with head := some new_node,
                       heap := st.heap.write new_node { data := v, next := st.head } }
  | [], fuel, st, x, hf, hr => by
    cases fuel with
    | zero => simp at hf
    | succ fuel => simp [push_loop, hr, flag_nil, cas_weak_same]
  | b :: o, fuel, st, x, hf, hr => by
    cases fuel with
    | zero => simp at hf
    | succ fuel =>
      cases b with
      | false => simp [push_loop, hr, flag_cons, cas_weak_same]
      | true =>
        have ih := hp_push_loop_value new_node v o fuel
          { st with heap := st.heap.write new_node { data := v, next := st.head } } st.head
          (by simpa using hf) (by simp [Mem.read_write_same])
        simp only [push_loop, hr, flag_cons, cas_weak_spurious, List.tail_cons]
        simp only [Mem.write_write] at ih
        simpa using ih

theorem hp_push_value (A : Allocator (Node Int)) (o : List Bool) (fuel : Nat) (v : Int)
    (st : State) (hf : o.length < fuel) :
    push A o fuel v st =
      some { st with head := some (A.pick st.heap),
                     heap := st.heap.write (A.pick st.heap) { data := v, next := st.head } } := by
  unfold push
  have h := hp_push_loop_value (A.pick st.heap) v o fuel
    { st with heap := st.heap.write (A.pick st.heap) { data := v, next := none } } none hf
    (by simp [Mem.read_write_same])
  simp only [Mem.write_write] at h
  exact h

theorem hp_pop_null (thread_id : Int) (o : List Bool) (fuel : Nat) (result : Int) (st : State)
    (hh : st.head = none) (hf : 0 < fuel) :
    pop thread_id o fuel result st = some (st, result, false) := by
  obtain ⟨k, rfl⟩ : ∃ k, fuel = k + 1 := ⟨fuel - 1, by omega⟩
  simp [pop, pop_loop, pop_body, hh]

theorem hp_pop_loop_value (thread_id : Int) (h0 : 0 ≤ thread_id)
    (h1 : thread_id < (HazardPointer.MAX_THREADS : Int)) (a : Nat) (n : Node Int) :
    ∀ (o : List Bool) (fuel : Nat) (result : Int) (st : State), o.length < fuel →
      st.head = some a → st.heap.read a = some n →
      pop_loop thread_id fuel o result st =
        (scan_and_delete
          { st with head := n.next,
                    hp := Function.update st.hp thread_id.toNat none,
                    retired_nodes := st.retired_nodes ++ [some a] }).map
          (fun s4 => (s4, n.data, true))
  | [], fuel, result, st, hf, hh, hr => by
    cases fuel with
    | zero => simp at hf
    | succ fuel =>
      unfold pop_loop pop_body
      simp only [hh, reduceCtorEq, if_false, HazardPointer.set_hazard, h0, h1, and_self,
        if_true, ne_eq, not_true_eq_false, Mem.deref, hr, flag_nil, cas_weak_same,
        HazardPointer.clear_hazard, Function.update_idem]
      cases scan_and_delete _ <;> rfl
  | b :: o, fuel, result, st, hf, hh, hr => by
    cases fuel with
    | zero => simp at hf
    | succ fuel =>
      cases b with
      | false =>
        unfold pop_loop pop_body
        simp only [hh, reduceCtorEq, if_false, HazardPointer.set_hazard, h0, h1, and_self,
          if_true, ne_eq, not_true_eq_false, Mem.deref, hr, flag_cons, cas_weak_same,
          HazardPointer.clear_hazard, Function.update_idem]
        cases scan_and_delete _ <;> rfl
      | true =>
        have ih := hp_pop_loop_value thread_id h0 h1 a n o fuel result
          { st with hp := Function.update st.hp thread_id.toNat (some a) }
          (by simpa using hf) hh hr
        simp only [Function.update_idem] at ih
        unfold pop_loop pop_body
        simp only [hh, reduceCtorEq, if_false, HazardPointer.set_hazard, h0, h1, and_self,
          if_true, ne_eq, not_true_eq_false, Mem.deref, hr, flag_cons, cas_weak_spurious,
          List.tail_cons, Bool.false_eq_true]
        rw [hh] at ih
        exact ih

theorem Inv.of_hp_new (heap : Mem (Node Int)) : Inv (new heap) [] :=
  { chain := rfl, nodup := List.nodup_nil, retired := rfl, hazards := fun _ => rfl }

theorem Inv.after_hp_push {st : State} {cells : List (Nat × Int)} (hi : Inv st cells)
    (A : Allocator (Node Int)) (v : Int) :
    Inv { st with head := some (A.pick st.heap),
                  heap := st.heap.write (A.pick st.heap) { data := v, next := st.head } }
      ((A.pick st.heap, v) :: cells) := by
  have hfresh := A.fresh st.heap
  have hlive := Chain.live hi.chain
  have hnew : A.pick st.heap ∉ cells.map Prod.fst := fun hm => hlive _ hm hfresh
  exact
    { chain := by
        refine ⟨rfl, ?_⟩
        simp only [Mem.read_write_same]
        refine ⟨trivial, Chain.frame hi.chain (fun b hb => ?_)⟩
        apply Mem.read_write_ne
        rintro rfl
        exact hnew hb
      nodup := by
        simp only [List.map_cons, List.nodup_cons]
        exact ⟨hnew, hi.nodup⟩
      retired := hi.retired
      hazards := hi.hazards }

theorem Inv.after_hp_pop {st : State} {a : Nat} {v : Int} {cells : List (Nat × Int)}
    (hi : Inv st ((a, v) :: cells)) (thread_id : Int) (h0 : 0 ≤ thread_id)
    (h1 : thread_id < (HazardPointer.MAX_THREADS : Int)) (o : List Bool) (fuel : Nat)
    (result : Int) (hf : o.length < fuel) :
    ∃ st1, pop thread_id o fuel result st = some (st1, v, true) ∧ Inv st1 cells := by
  obtain ⟨hh, hc⟩ := hi.chain
  have hh1 : st.head = some a := hh
  cases hr : st.heap.read a with
  | none => simp [hr] at hc
  | some n =>
    simp only [hr] at hc
    have hnd := hi.nodup
    simp only [List.map_cons, List.nodup_cons] at hnd
    have hclear : ∀ i, Function.update st.hp thread_id.toNat none i = none := by
      intro i
      by_cases h : i = thread_id.toNat
      · subst h
        simp
      · rw [Function.update_noteq h]
        exact hi.hazards i
    have hz : HazardPointer.is_hazardous (Function.update st.hp thread_id.toNat none)
        (some a) = false := by
      cases hz : HazardPointer.is_hazardous (Function.update st.hp thread_id.toNat none)
          (some a) with
      | false => rfl
      | true =>
        obtain ⟨i, _, hi1⟩ := (is_hazardous_iff_slot _ _).mp hz
        rw [hclear i] at hi1
        cases hi1
    have hscan : scan_and_delete
        { st with head := n.next,
                  hp := Function.update st.hp thread_id.toNat none,
                  retired_nodes := st.retired_nodes ++ [some a] } =
        some { head := n.next, hp := Function.update st.hp thread_id.toNat none,
               retired_nodes := [], heap := st.heap.free a } := by
      simp [scan_and_delete, hi.retired, scan_loop, hz, Mem.delete, hr]
    refine ⟨{ head := n.next, hp := Function.update st.hp thread_id.toNat none,
              retired_nodes := [], heap := st.heap.free a }, ?_, ?_⟩
    · unfold pop
      rw [hp_pop_loop_value thread_id h0 h1 a n o fuel result st hf hh1 hr, hscan, ← hc.1]
      rfl
    · exact
        { chain := Chain.frame hc.2 (fun b hb => by
            apply Mem.read_free_ne
            rintro rfl
            exact hnd.1 hb)
          nodup := hnd.2
          retired := rfl
          hazards := hclear }

theorem hp_run_model (A : Allocator (Node Int)) (thread_id : Int) (h0 : 0 ≤ thread_id)
    (h1 : thread_id < (HazardPointer.MAX_THREADS : Int)) :
    ∀ (cs : List (LockFreeStack.Op Int × List Bool)) (result : Int) (st : State)
      (cells : List (Nat × Int)), Inv st cells →
      ∃ st1 cells1, Inv st1 cells1 ∧
        cells1.map Prod.snd =
          (LockFreeStack.model (cs.map Prod.fst) (cells.map Prod.snd) result).1 ∧
        run A thread_id cs result st =
          some (st1, (LockFreeStack.model (cs.map Prod.fst) (cells.map Prod.snd) result).2.1,
                (LockFreeStack.model (cs.map Prod.fst) (cells.map Prod.snd) result).2.2)
  | [], result, st, cells, hi => ⟨st, cells, hi, rfl, rfl⟩
  | (LockFreeStack.Op.push v, o) :: cs, result, st, cells, hi => by
    have hp := hp_push_value A o (o.length + 1) v st (Nat.lt_succ_self _)
    obtain ⟨st2, cells2, hi2, hm, hrun⟩ :=
      hp_run_model A thread_id h0 h1 cs result _ _ (hi.after_hp_push A v)
    exact ⟨st2, cells2, hi2, by simpa [LockFreeStack.model] using hm,
      by simpa [run, LockFreeStack.model, hp] using hrun⟩
  | (LockFreeStack.Op.pop, o) :: cs, result, st, [], hi => by
    have hh : st.head = none := hi.chain
    have hp := hp_pop_null thread_id o (o.length + 1) result st hh (Nat.succ_pos _)
    obtain ⟨st2, cells2, hi2, hm, hrun⟩ := hp_run_model A thread_id h0 h1 cs result st [] hi
    refine ⟨st2, cells2, hi2, by simpa [LockFreeStack.model] using hm, ?_⟩
    simp only [List.map_cons, List.map_nil, run, LockFreeStack.model, hp, hrun]
  | (LockFreeStack.Op.pop, o) :: cs, result, st, (a, v) :: cells, hi => by
    obtain ⟨st1, hp, hi1⟩ := hi.after_hp_pop thread_id h0 h1 o (o.length + 1) result
      (Nat.lt_succ_self _)
    obtain ⟨st2, cells2, hi2, hm, hrun⟩ := hp_run_model A thread_id h0 h1 cs v st1 cells hi1
    refine ⟨st2, cells2, hi2, by simpa [LockFreeStack.model] using hm, ?_⟩
    simp only [List.map_cons, run, LockFreeStack.model, hp, hrun]

end HazardPointerStack

/-! ## The queues free the old dummy node at once -/

namespace MichaelScottQueue

theorem dequeue_loop_frees {T : Type} (d c : Nat × T) (rest : List (Nat × T)) :
    ∀ (fuel : Nat) (o : List Bool) (result : T) (st : QueueState T),
      QueueInv st d (c :: rest) →
      ((st.tail ≠ some d.1 ∧ o.length + 1 ≤ fuel) ∨ o.length + 2 ≤ fuel) →
      ∃ st1, dequeue_loop fuel o result st = some (st1, c.2, true) ∧
        st1.head = some c.1 ∧ st1.heap = st.heap.free d.1 := by
  intro fuel
  induction fuel with
  | zero =>
    intro o result st _ h
    rcases h with ⟨_, h⟩ | h <;> omega
  | succ fuel ih =>
    intro o result st hi hfuel
    have hlen : o.tail.length = o.length - 1 := List.length_tail o
    obtain ⟨hh, hc⟩ := hi.chain
    have hh1 : st.head = some d.1 := hh
    cases hr : st.heap.read d.1 with
    | none => simp [hr] at hc
    | some n =>
      simp only [hr] at hc
      obtain ⟨_, hcn, hc2⟩ := hc
      have hcn1 : n.next = some c.1 := hcn
      cases hrc : st.heap.read c.1 with
      | none => simp [hrc] at hc2
      | some nc =>
        simp only [hrc] at hc2
        have hnd := hi.nodup
        simp only [List.map_cons, List.nodup_cons, List.mem_cons, not_or] at hnd
        have hpos : flag o = true → 0 < o.length := by
          intro hfl
          apply List.length_pos.mpr
          rintro rfl
          simp [flag] at hfl
        rcases QueueInv_tail_cases hi with ⟨ht, hrest⟩ | ⟨ht, hcases⟩
        · have hf2 : o.length + 2 ≤ fuel + 1 := by
            rcases hfuel with ⟨h1, _⟩ | h
            · exact absurd ht h1
            · exact h
          unfold dequeue_loop
          rw [dequeue_body_help o result st d.1 c.1 n hh1 ht hr hcn1]
          cases hfl : flag o with
          | true =>
            simp only [if_true]
            have := hpos hfl
            exact ih o.tail result _ (QueueInv_set_tail hi _ (by rw [← ht]; exact hi.tail))
              (Or.inr (by omega))
          | false =>
            simp only [Bool.false_eq_true, if_false]
            subst hrest
            refine ih o.tail result _
              (QueueInv_set_tail hi _ (Or.inl ⟨[d], c, rfl, rfl⟩)) (Or.inl ⟨?_, by omega⟩)
            intro e
            have e1 : c.1 = d.1 := by simpa using e
            exact hnd.1.1 e1.symm
        · obtain ⟨t, htt⟩ : ∃ t, st.tail = some t := by
            rcases hcases with ⟨_, t, _, h⟩ | ⟨_, t, _, _, h⟩ <;> exact ⟨t.1, h⟩
          have hft : d.1 ≠ t := by
            rintro rfl
            exact ht htt
          unfold dequeue_loop
          rw [dequeue_body_take o result st d.1 t c.1 n nc hh1 htt hft hr hcn1 hrc]
          cases hfl : flag o with
          | true =>
            simp only [if_true]
            have := hpos hfl
            refine ih o.tail nc.data st hi (Or.inl ⟨ht, ?_⟩)
            rcases hfuel with ⟨_, h⟩ | h <;> omega
          | false =>
            simp only [Bool.false_eq_true, if_false]
            exact ⟨_, by rw [hc2.1], rfl, rfl⟩

end MichaelScottQueue

namespace TaggedStack

theorem push_eq_safe (A : Allocator (Node Int)) (w : Nat) (fuel : Nat) (v : Int)
    (st : TaggedState) : push A w fuel v st = SafeStack.push A w [] fuel v st :=
  push_loop_eq_safe w _ fuel _ _

theorem pop_eq_safe (w : Nat) (fuel : Nat) (result : Int) (st : TaggedState) :
    pop w fuel result st = SafeStack.pop w [] fuel result st :=
  pop_loop_eq_safe w fuel _ result st

end TaggedStack

theorem map_fst_pair_nil {α : Type} (l : List α) :
    (l.map (fun c => (c, ([] : List Bool)))).map Prod.fst = l := by
  simp [List.map_map, Function.comp_def]

/-! ## `dequeue`: when it reports empty, and what it does to `tail` -/

namespace MichaelScottQueue

theorem dequeue_body_ret_false {T : Type} (o o1 : List Bool) (result r : T)
    (st st1 : QueueState T)
    (h : dequeue_body o result st = some (st1, o1, Iter.ret (r, false))) :
    st1 = st ∧ r = result ∧
      ∃ f n, st.head = some f ∧ st.tail = some f ∧ st.heap.read f = some n ∧ n.next = none := by
  unfold dequeue_body at h
  cases hh : st.head with
  | none => simp [hh] at h
  | some f =>
    cases hr : st.heap.read f with
    | none => simp [hh, hr] at h
    | some n =>
      simp only [hh, hr, if_true] at h
      by_cases hft : (some f : Ptr) = st.tail
      · cases hn : n.next with
        | none =>
          simp only [hft, hn, if_true, Option.some.injEq, Prod.mk.injEq, Iter.ret.injEq,
            and_true] at h
          exact ⟨h.1.symm, h.2.2.symm, f, n, rfl, hft.symm, hr, hn⟩
        | some z => simp [hft, hn] at h
      · simp only [hft, if_false] at h
        cases hd : st.heap.deref n.next with
        | none => simp [hd] at h
        | some nn =>
          simp only [hd] at h
          split at h
          · cases hdel : st.heap.delete (some f) with
            | none => simp [hdel] at h
            | some heap1 => simp [hdel] at h
          · simp at h

theorem dequeue_loop_false {T : Type} :
    ∀ (fuel : Nat) (o : List Bool) (result r : T) (st st1 : QueueState T),
      dequeue_loop fuel o result st = some (st1, r, false) →
      ∃ f n, st1.head = some f ∧ st1.tail = some f ∧ st1.heap.read f = some n ∧ n.next = none
  | 0, _, _, _, _, _, h => by simp [dequeue_loop] at h
  | fuel + 1, o, result, r, st, st1, h => by
    unfold dequeue_loop at h
    cases hb : dequeue_body o result st with
    | none => simp [hb] at h
    | some x =>
      obtain ⟨s, o1, it⟩ := x
      cases it with
      | again res =>
        simp only [hb] at h
        exact dequeue_loop_false fuel o1 res r s st1 h
      | ret x =>
        obtain ⟨r1, b⟩ := x
        simp only [hb, Option.some.injEq, Prod.mk.injEq] at h
        obtain ⟨e1, e2, e3⟩ := h
        subst e1 e2 e3
        obtain ⟨e4, _, f, n, h1, h2, h3, h4⟩ := dequeue_body_ret_false o o1 result _ st _ hb
        subst e4
        exact ⟨f, n, h1, h2, h3, h4⟩

theorem dequeue_loop_tail {T : Type} (d c : Nat × T) (rest : List (Nat × T)) :
    ∀ (fuel : Nat) (o : List Bool) (result : T) (st : QueueState T),
      QueueInv st d (c :: rest) →
      ((st.tail ≠ some d.1 ∧ o.length + 1 ≤ fuel) ∨ o.length + 2 ≤ fuel) →
      ∃ st1, dequeue_loop fuel o result st = some (st1, c.2, true) ∧
        st1.tail = if st.tail = some d.1 then some c.1 else st.tail := by
  intro fuel
  induction fuel with
  | zero =>
    intro o result st _ h
    rcases h with ⟨_, h⟩ | h <;> omega
  | succ fuel ih =>
    intro o result st hi hfuel
    have hlen : o.tail.length = o.length - 1 := List.length_tail o
    obtain ⟨hh, hc⟩ := hi.chain
    have hh1 : st.head = some d.1 := hh
    cases hr : st.heap.read d.1 with
    | none => simp [hr] at hc
    | some n =>
      simp only [hr] at hc
      obtain ⟨_, hcn, hc2⟩ := hc
      have hcn1 : n.next = some c.1 := hcn
      cases hrc : st.heap.read c.1 with
      | none => simp [hrc] at hc2
      | some nc =>
        simp only [hrc] at hc2
        have hnd := hi.nodup
        simp only [List.map_cons, List.nodup_cons, List.mem_cons, not_or] at hnd
        have hpos : flag o = true → 0 < o.length := by
          intro hfl
          apply List.length_pos.mpr
          rintro rfl
          simp [flag] at hfl
        have hcd : (some c.1 : Ptr) ≠ some d.1 := by
          intro e
          have e1 : c.1 = d.1 := by simpa using e
          exact hnd.1.1 e1.symm
        rcases QueueInv_tail_cases hi with ⟨ht, hrest⟩ | ⟨ht, hcases⟩
        · have hf2 : o.length + 2 ≤ fuel + 1 := by
            rcases hfuel with ⟨h1, _⟩ | h
            · exact absurd ht h1
            · exact h
          unfold dequeue_loop
          rw [dequeue_body_help o result st d.1 c.1 n hh1 ht hr hcn1]
          cases hfl : flag o with
          | true =>
            simp only [if_true]
            have := hpos hfl
            obtain ⟨st1, h1, h2⟩ := ih o.tail result { st with tail := some d.1 }
              (QueueInv_set_tail hi _ (by rw [← ht]; exact hi.tail)) (Or.inr (by omega))
            exact ⟨st1, h1, by simpa [ht] using h2⟩
          | false =>
            simp only [Bool.false_eq_true, if_false]
            subst hrest
            obtain ⟨st1, h1, h2⟩ := ih o.tail result { st with tail := some c.1 }
              (QueueInv_set_tail hi _ (Or.inl ⟨[d], c, rfl, rfl⟩)) (Or.inl ⟨hcd, by omega⟩)
            refine ⟨st1, h1, ?_⟩
            rw [h2]
            simp [ht, hcd]
        · obtain ⟨t, htt⟩ : ∃ t, st.tail = some t := by
            rcases hcases with ⟨_, t, _, h⟩ | ⟨_, t, _, _, h⟩ <;> exact ⟨t.1, h⟩
          have hft : d.1 ≠ t := by
            rintro rfl
            exact ht htt
          unfold dequeue_loop
          rw [dequeue_body_take o result st d.1 t c.1 n nc hh1 htt hft hr hcn1 hrc]
          cases hfl : flag o with
          | true =>
            simp only [if_true]
            have := hpos hfl
            refine ih o.tail nc.data st hi (Or.inl ⟨ht, ?_⟩)
            rcases hfuel with ⟨_, h⟩ | h <;> omega
          | false =>
            simp only [Bool.false_eq_true, if_false]
            exact ⟨_, by rw [hc2.1], by simp [ht]⟩

end MichaelScottQueue


/-! ## `LockFreeStack::pop`: an iteration that goes round again -/

namespace LockFreeStack

/-- An iteration of `pop` whose CAS fails spuriously: the state afterwards. -/
theorem pop_body_spurious {T : Type} (me : Nat) (a : Nat) (n : Node T) (o : List Bool)
    (result : T) (s : State T) (ht : TidOK me s.next_thread_id s.thread_id)
    (hh : s.head = some a) (hr : s.heap.read a = some n) :
    pop_body me (true :: o) (some a) result s =
      some ({ registered me s with
              hazards := Function.update (registered me s).hazards (my_slot me s) (some a),
              head := some a }, o, Iter.again (some a)) := by
  have hf1 := registered_fields me s
  unfold pop_body
  rw [set_hazard_pointer_eq me (some a) s ht]
  simp only [hf1.1, hh, ne_eq, not_true_eq_false, if_false, Mem.deref, hf1.2.2.2.2, hr,
    flag_cons, cas_weak_spurious, if_true, reduceCtorEq, List.tail_cons, Bool.false_eq_true]

/-- An iteration of `pop` that goes round again leaves the pointer it published in the slot. -/
theorem pop_body_again {T : Type} (me : Nat) (o o1 : List Bool) (old_head h : Ptr)
    (result : T) (s s1 : State T) (ht : TidOK me s.next_thread_id s.thread_id)
    (hb : pop_body me o old_head result s = some (s1, o1, Iter.again h)) :
    s1.hazards (my_slot me s) = old_head ∧ s1.head = h ∧
      s1.thread_id = (registered me s).thread_id := by
  unfold pop_body at hb
  rw [set_hazard_pointer_eq me old_head s ht] at hb
  dsimp only at hb
  split at hb
  · simp only [Option.some.injEq, Prod.mk.injEq, Iter.again.injEq] at hb
    obtain ⟨e1, _, e3⟩ := hb
    subst e1
    exact ⟨by simp, e3, rfl⟩
  · split at hb
    · split at hb
      · cases hb
      · simp at hb
    · split at hb
      · cases hb
      · split at hb
        · split at hb
          · cases hb
          · split at hb
            · cases hb
            · split at hb
              · cases hb
              · simp at hb
        · simp only [Option.some.injEq, Prod.mk.injEq, Iter.again.injEq] at hb
          obtain ⟨e1, _, e3⟩ := hb
          subst e1
          refine ⟨by simp, ?_, rfl⟩
          rw [← e3]
          unfold cas_weak
          by_cases hq : (registered me s).head = old_head ∧ flag o = false
          · exfalso
            apply (by assumption :
              ¬(cas_weak (flag o) (registered me s).head old_head _).1 = true)
            unfold cas_weak
            rw [if_pos hq]
          · rw [if_neg hq]

end LockFreeStack

namespace LockFreeStack

/-- `retire_node` does not write to the hazard slots. -/
theorem retire_node_hazards {T : Type} (p : Ptr) (s s1 : State T)
    (h : retire_node p s = some s1) : s1.hazards = s.hazards := by
  unfold retire_node at h
  dsimp only at h
  split at h
  · unfold scan_and_reclaim at h
    split at h
    · cases h
    · cases h
      rfl
  · cases h
    rfl

end LockFreeStack

/-! ## `LockFreeStack`: thread ids handed out in turn -/

namespace LockFreeStack

theorem pop_each_ids {T : Type} (result : T) :
    ∀ (m k : Nat) (st : State T), Ids k st → k + m ≤ MAX_THREADS →
      ∃ st1, pop_each result (List.range' k m) st = some st1 ∧ Ids (k + m) st1
  | 0, k, st, hi, _ => ⟨st, rfl, hi⟩
  | m + 1, k, st, hi, hk => by
    obtain ⟨hh, hn, hlt, hge⟩ := hi
    have hun : st.thread_id k = -1 := hge k (le_refl k)
    have hk1 : k < 128 := by
      simp only [MAX_THREADS] at hk
      omega
    have ht : TidOK k st.next_thread_id st.thread_id := by
      left
      refine ⟨hun, by rw [hn]; omega, ?_⟩
      rw [hn]
      simp only [MAX_THREADS]
      omega
    have hp := pop_empty k [] 1 result st ht hh (by decide)
    have hreg : registered k st =
        { st with thread_id := Function.update st.thread_id k st.next_thread_id,
                  next_thread_id := st.next_thread_id + 1 } := by
      unfold registered
      rw [get_thread_id_of_unset k st hun]
    have hi1 : Ids (k + 1)
        { registered k st with
          hazards := Function.update (registered k st).hazards (my_slot k st) none } := by
      rw [hreg]
      refine ⟨hh, ?_, ?_, ?_⟩
      · show st.next_thread_id + 1 = ((k + 1 : Nat) : Int)
        rw [hn]
        push_cast
        rfl
      · intro j hj
        show Function.update st.thread_id k st.next_thread_id j = (j : Int)
        by_cases hjk : j = k
        · subst hjk
          simp [hn]
        · rw [Function.update_noteq hjk]
          exact hlt j (by omega)
      · intro j hj
        show Function.update st.thread_id k st.next_thread_id j = -1
        rw [Function.update_noteq (by omega)]
        exact hge j (by omega)
    obtain ⟨st1, h1, h2⟩ := pop_each_ids result m (k + 1) _ hi1 (by omega)
    refine ⟨st1, ?_, by rw [show k + (m + 1) = k + 1 + m by omega]; exact h2⟩
    rw [List.range'_succ]
    unfold pop_each
    rw [hp]
    exact h1

theorem Ids_new {T : Type} (heap : Mem (Node T)) : Ids 0 (new heap 0 (fun _ => -1)) :=
  ⟨rfl, rfl, fun j hj => absurd hj (Nat.not_lt_zero j), fun _ _ => rfl⟩

/-- A thread that is handed an id of `MAX_THREADS` or more has no hazard slot. -/
theorem slot_out_of_bounds (tid index : Int) (h : (MAX_THREADS : Int) ≤ tid) (hi : 0 ≤ index) :
    slot tid index = none := by
  unfold slot
  simp only [MAX_THREADS, MAX_HAZARDS] at *
  have hb : ¬(0 ≤ tid * ((2 : Nat) : Int) + index ∧
      tid * ((2 : Nat) : Int) + index < ((128 * 2 : Nat) : Int)) := by
    push_cast
    omega
  simp only [hb, if_false]

end LockFreeStack

/-! ## `LockFreeStack`: how many nodes are retired, and when they are freed -/

namespace LockFreeStack

/-- What `retire_node` does between two calls of a single-threaded run: below the threshold the
node is appended and nothing is freed, at the threshold every retired node is freed. -/
theorem retire_node_exact {T : Type} {me : Nat} {s : State T} {cells : List (Nat × T)}
    (hi : Inv me s cells) (a : Nat) (s1 : State T) (h : retire_node (some a) s = some s1) :
    (s.retired_list.length < MAX_THREADS * 2 ∧ s1.retired_list = s.retired_list ++ [some a] ∧
      s1.heap = s.heap) ∨
    (s.retired_list.length = MAX_THREADS * 2 ∧ s1.retired_list = [] ∧
      ∀ b, s1.heap.read b =
        if some b ∈ s.retired_list ++ [some a] then none else s.heap.read b) := by
  have hle := hi.count_le
  have hcnt : wrap32 (s.retired_count + 1) = (s.retired_list.length : Int) + 1 := by
    rw [hi.count]
    apply wrap32_of_small
    · omega
    · simp only [MAX_THREADS] at hle
      norm_num
      omega
  unfold retire_node at h
  simp only [hcnt] at h
  simp only [MAX_THREADS] at hle h ⊢
  by_cases hbig : (s.retired_list.length : Int) + 1 > ((128 * 2 : Nat) : Int)
  · simp only [hbig, if_true] at h
    right
    have hlen : s.retired_list.length = 128 * 2 := by
      push_cast at hbig
      omega
    unfold scan_and_reclaim at h
    split at h
    · cases h
    · rename_i r hr
      obtain ⟨hr1, hr2⟩ := scan_loop_sound _ _ _ _ r hr
      have hz : ∀ p ∈ s.retired_list ++ [some a],
          is_hazardous
            { s with retired_list := s.retired_list ++ [some a],
                     retired_count := (s.retired_list.length : Int) + 1 } p = false := by
        intro p hp
        have hb : ∃ b, p = some b := by
          rcases List.mem_append.mp hp with hp | hp
          · obtain ⟨b, hb, _⟩ := hi.retired_live p hp
            exact ⟨b, hb⟩
          · exact ⟨a, by simpa using hp⟩
        obtain ⟨b, rfl⟩ := hb
        exact is_hazardous_of_clear _ hi.hazards b
      cases h
      refine ⟨hlen, ?_, fun b => ?_⟩
      · show r.2 = []
        rw [hr1]
        simp only [List.nil_append, List.filter_eq_nil_iff]
        intro p hp
        simp [hz p hp]
      · show r.1.read b = _
        rw [hr2 b]
        by_cases hm : some b ∈ s.retired_list ++ [some a]
        · simp only [hm, hz _ hm, and_self, if_true]
        · simp only [hm, false_and, if_false]
  · simp only [hbig, if_false] at h
    left
    cases h
    refine ⟨?_, rfl, rfl⟩
    push_cast at hbig
    omega

end LockFreeStack

namespace LockFreeStack

/-- The state of a successful `pop` just before it calls `retire_node`. -/
theorem Inv.before_retire {T : Type} {me : Nat} {st : State T} {a : Nat} {v : T}
    {cells : List (Nat × T)} (hi : Inv me st ((a, v) :: cells)) :
    ∃ n, st.head = some a ∧ st.heap.read a = some n ∧ n.data = v ∧
      Inv me
        { registered me st with
          head := n.next,
          hazards := Function.update (registered me st).hazards (my_slot me st) none } cells := by
  obtain ⟨hh, hc⟩ := hi.chain
  simp only at hh hc
  cases hr : st.heap.read a with
  | none => simp [hr] at hc
  | some n =>
    simp only [hr] at hc
    obtain ⟨f1, f2, f3, f4, f5⟩ := registered_fields me st
    have hnd := hi.nodup
    simp only [List.map_cons, List.nodup_cons] at hnd
    refine ⟨n, hh, rfl, hc.1, ?_⟩
    exact
      { chain := by
          show Chain (registered me st).heap n.next cells
          rw [f5]
          exact hc.2
        nodup := hnd.2
        retired_live := fun p hp => by
          have hp1 : p ∈ st.retired_list := by simpa [f3] using hp
          obtain ⟨b, rfl, hb⟩ := hi.retired_live p hp1
          exact ⟨b, rfl, by simpa [f5] using hb⟩
        retired_nodup := by simpa [f3] using hi.retired_nodup
        retired_disj := fun b hb hm => by
          have hb1 : some b ∈ st.retired_list := by simpa [f3] using hb
          exact hi.retired_disj b hb1 (by simp [hm])
        count := by simpa [f3, f4] using hi.count
        count_le := by simpa [f3] using hi.count_le
        hazards := fun i => by
          show Function.update (registered me st).hazards (my_slot me st) none i = none
          rw [f2]
          by_cases h : i = my_slot me st
          · subst h
            simp
          · rw [Function.update_noteq h]
            exact hi.hazards i
        tid := registered_tid me st hi.tid }

/-- A successful `pop` between two calls of a single-threaded run: below the threshold the old
head is appended to the retire list and nothing is freed; at the threshold the retire list is
emptied and all its nodes and the old head are freed. -/
theorem Inv.after_pop_exact {T : Type} {me : Nat} {st : State T} {a : Nat} {v : T}
    {cells : List (Nat × T)} (hi : Inv me st ((a, v) :: cells))
    (o : List Bool) (fuel : Nat) (result : T) (hf : o.length < fuel) :
    ∃ st1, pop me o fuel result st = some (st1, v, true) ∧ Inv me st1 cells ∧
      ((st.retired_list.length < MAX_THREADS * 2 ∧
          st1.retired_list = st.retired_list ++ [some a] ∧ st1.heap = st.heap) ∨
       (st.retired_list.length = MAX_THREADS * 2 ∧ st1.retired_list = [] ∧
          ∀ b, st1.heap.read b =
            if some b ∈ st.retired_list ++ [some a] then none else st.heap.read b)) := by
  obtain ⟨n, hh, hr, hd, hi3⟩ := hi.before_retire
  obtain ⟨f1, f2, f3, f4, f5⟩ := registered_fields me st
  have hnd := hi.nodup
  simp only [List.map_cons, List.nodup_cons] at hnd
  obtain ⟨s1, hs1, hinv⟩ := hi3.after_retire a (by simp [f5, hr]) hnd.1 (by
    intro hm
    have hm1 : some a ∈ st.retired_list := by simpa [f3] using hm
    exact hi.retired_disj a hm1 (by simp))
  have hex := retire_node_exact hi3 a s1 hs1
  simp only [f3, f5] at hex
  refine ⟨s1, ?_, hinv, hex⟩
  rw [pop_nonempty me a n o fuel result st hf hi.tid hh hr, hs1]
  simp [hd]

end LockFreeStack

namespace LockFreeStack

theorem Owned_new {T : Type} (heap : Mem (Node T)) (next_thread_id : Int)
    (thread_id : Nat → Int) : Owned heap (new heap next_thread_id thread_id) [] :=
  ⟨fun b hb => by simp at hb, fun b hb => by simp [new] at hb, fun _ _ _ => rfl⟩

/-- Single-threaded runs: the invariant, the ownership of the nodes, the length of the retire
list in terms of the number of successful pops, and no node is freed before the 257th. -/
theorem run_owned {T : Type} (A : Allocator (Node T)) (me : Nat) (heap0 : Mem (Node T)) :
    ∀ (cs : List (Op T × List Bool)) (result : T) (st : State T) (cells : List (Nat × T)),
      Inv me st cells → Owned heap0 st cells →
      ∃ st1 cells1 r outs, run A me cs result st = some (st1, r, outs) ∧
        Inv me st1 cells1 ∧ Owned heap0 st1 cells1 ∧
        st1.retired_list.length =
          (st.retired_list.length + outs.countP (fun x => x.1)) % 257 ∧
        (st.retired_list.length + outs.countP (fun x => x.1) < 257 →
          ∀ b, st.heap.read b ≠ none → st1.heap.read b ≠ none)
  | [], result, st, cells, hi, ho => by
    refine ⟨st, cells, result, [], rfl, hi, ho, ?_, fun _ _ hb => hb⟩
    have := hi.count_le
    simp only [MAX_THREADS] at this
    simp only [List.countP_nil, Nat.add_zero]
    omega
  | (Op.push v, o) :: cs, result, st, cells, hi, ho => by
    obtain ⟨st1, h1, hi1⟩ := hi.after_push A o (o.length + 1) v (Nat.lt_succ_self _)
    have he := push_eq A o (o.length + 1) v st (Nat.lt_succ_self _)
    rw [h1] at he
    simp only [Option.some.injEq] at he
    have hfresh := A.fresh st.heap
    have hrl : st1.retired_list = st.retired_list := by rw [he]
    have hheap : ∀ b, b ≠ A.pick st.heap → st1.heap.read b = st.heap.read b := by
      intro b hb
      rw [he]
      exact Mem.read_write_ne _ _ _ _ hb
    have ho1 : Owned heap0 st1 ((A.pick st.heap, v) :: cells) := by
      obtain ⟨o1, o2, o3⟩ := ho
      have hnc : A.pick st.heap ∉ cells.map Prod.fst :=
        fun hm => Chain.live hi.chain _ hm hfresh
      have hnr : some (A.pick st.heap) ∉ st.retired_list := by
        intro hm
        obtain ⟨b, hb, hl⟩ := hi.retired_live _ hm
        cases hb
        exact hl hfresh
      refine ⟨?_, ?_, ?_⟩
      · intro b hb
        simp only [List.map_cons, List.mem_cons] at hb
        rcases hb with rfl | hb
        · rw [← o3 _ hnc hnr]
          exact hfresh
        · exact o1 b hb
      · intro b hb
        rw [hrl] at hb
        exact o2 b hb
      · intro b hb hb1
        simp only [List.map_cons, List.mem_cons, not_or] at hb
        rw [hrl] at hb1
        rw [hheap b hb.1]
        exact o3 b hb.2 hb1
    obtain ⟨st2, cells2, r, outs, hrun, hi2, ho2, hlen, hnf⟩ :=
      run_owned A me heap0 cs result st1 _ hi1 ho1
    refine ⟨st2, cells2, r, outs, by simpa [run, h1] using hrun, hi2, ho2, ?_, ?_⟩
    · rw [hlen, hrl]
    · intro hk b hb
      rw [hrl] at hnf
      apply hnf hk b
      have hne : b ≠ A.pick st.heap := by
        rintro rfl
        exact hb hfresh
      rw [hheap b hne]
      exact hb
  | (Op.pop, o) :: cs, result, st, [], hi, ho => by
    obtain ⟨st1, h1, hi1⟩ := hi.after_pop_empty o (o.length + 1) result (Nat.succ_pos _)
    have he := pop_empty me o (o.length + 1) result st hi.tid hi.chain (Nat.succ_pos _)
    rw [h1] at he
    simp only [Option.some.injEq, Prod.mk.injEq, and_true] at he
    obtain ⟨f1, f2, f3, f4, f5⟩ := registered_fields me st
    have hrl : st1.retired_list = st.retired_list := by rw [he]; exact f3
    have hheap : st1.heap = st.heap := by rw [he]; exact f5
    have ho1 : Owned heap0 st1 [] := by
      obtain ⟨o1, o2, o3⟩ := ho
      refine ⟨o1, ?_, ?_⟩
      · intro b hb
        rw [hrl] at hb
        exact o2 b hb
      · intro b hb hb1
        rw [hrl] at hb1
        rw [hheap]
        exact o3 b hb hb1
    obtain ⟨st2, cells2, r, outs, hrun, hi2, ho2, hlen, hnf⟩ :=
      run_owned A me heap0 cs result st1 _ hi1 ho1
    refine ⟨st2, cells2, r, (false, result) :: outs, ?_, hi2, ho2, ?_, ?_⟩
    · simp only [run, h1, hrun]
    · rw [hlen, hrl]
      simp
    · intro hk b hb
      rw [hrl, hheap] at hnf
      exact hnf (by simpa using hk) b hb
  | (Op.pop, o) :: cs, result, st, (a, v) :: cells, hi, ho => by
    obtain ⟨st1, h1, hi1, hex⟩ :=
      hi.after_pop_exact o (o.length + 1) result (Nat.lt_succ_self _)
    obtain ⟨o1, o2, o3⟩ := ho
    have ho1 : Owned heap0 st1 cells := by
      refine ⟨fun b hb => o1 b (by simp [hb]), ?_, ?_⟩
      · intro b hb
        rcases hex with ⟨_, e1, _⟩ | ⟨_, e1, _⟩
        · rw [e1] at hb
          rcases List.mem_append.mp hb with hb | hb
          · exact o2 b hb
          · have : b = a := by simpa using hb
            subst this
            exact o1 b (by simp)
        · rw [e1] at hb
          cases hb
      · intro b hb hb1
        rcases hex with ⟨_, e1, e2⟩ | ⟨_, e1, e2⟩
        · rw [e1] at hb1
          simp only [List.mem_append, List.mem_singleton, Option.some.injEq, not_or] at hb1
          rw [e2]
          exact o3 b (by simp [hb, hb1.2]) hb1.1
        · rw [e2 b]
          by_cases hm : some b ∈ st.retired_list ++ [some a]
          · rw [if_pos hm]
            rcases List.mem_append.mp hm with hm | hm
            · exact (o2 b hm).symm
            · have : b = a := by simpa using hm
              subst this
              exact (o1 b (by simp)).symm
          · rw [if_neg hm]
            simp only [List.mem_append, List.mem_singleton, Option.some.injEq, not_or] at hm
            exact o3 b (by simp [hb, hm.2]) hm.1
    obtain ⟨st2, cells2, r, outs, hrun, hi2, ho2, hlen, hnf⟩ :=
      run_owned A me heap0 cs v st1 _ hi1 ho1
    refine ⟨st2, cells2, r, (true, v) :: outs, ?_, hi2, ho2, ?_, ?_⟩
    · simp only [run, h1, hrun]
    · rw [hlen]
      simp only [List.countP_cons_of_pos, MAX_THREADS] at hex ⊢
      rcases hex with ⟨e0, e1, _⟩ | ⟨e0, e1, _⟩
      · rw [e1]
        simp only [List.length_append, List.length_singleton]
        omega
      · rw [e1, e0]
        simp only [List.length_nil]
        omega
    · intro hk b hb
      simp only [List.countP_cons_of_pos, MAX_THREADS] at hex hk
      rcases hex with ⟨e0, e1, e2⟩ | ⟨e0, _, _⟩
      · rw [e1, e2] at hnf
        simp only [List.length_append, List.length_singleton] at hnf
        exact hnf (by omega) b hb
      · omega

end LockFreeStack

/-! ## `LockFreeStack`: the destructor -/

namespace LockFreeStack

theorem destroy_chain_spec {T : Type} :
    ∀ (cells : List (Nat × T)) (p : Ptr) (heap : Mem (Node T)) (fuel : Nat),
      Chain heap p cells → (cells.map Prod.fst).Nodup → cells.length ≤ fuel →
      ∃ heap1, destroy_chain fuel p heap = some heap1 ∧
        ∀ b, heap1.read b = if b ∈ cells.map Prod.fst then none else heap.read b
  | [], p, heap, fuel, hc, _, _ => by
    have hp : p = none := hc
    subst hp
    refine ⟨heap, ?_, fun b => by simp⟩
    cases fuel <;> rfl
  | c :: rest, p, heap, fuel, hc, hnd, hf => by
    obtain ⟨hp, hc1⟩ := hc
    subst hp
    cases fuel with
    | zero => simp at hf
    | succ fuel =>
      cases hr : heap.read c.1 with
      | none => simp [hr] at hc1
      | some n =>
        simp only [hr] at hc1
        simp only [List.map_cons, List.nodup_cons] at hnd
        have hframe : Chain (heap.free c.1) n.next rest :=
          Chain.frame hc1.2 (fun b hb => by
            apply Mem.read_free_ne
            rintro rfl
            exact hnd.1 hb)
        obtain ⟨heap1, h1, h2⟩ := destroy_chain_spec rest n.next (heap.free c.1) fuel hframe
          hnd.2 (by simpa using hf)
        refine ⟨heap1, ?_, fun b => ?_⟩
        · unfold destroy_chain
          simp only [Mem.deref, hr, Mem.delete]
          exact h1
        · rw [h2 b]
          by_cases hb : b = c.1
          · subst hb
            simp [Mem.read_free_same]
          · simp only [Mem.read_free_ne _ _ _ hb, List.map_cons, List.mem_cons, hb, false_or]

theorem delete_all_spec {T : Type} :
    ∀ (ps : List Ptr) (heap : Mem (Node T)), Deletable heap ps →
      ∃ heap1, delete_all ps heap = some heap1 ∧
        ∀ b, heap1.read b = if some b ∈ ps then none else heap.read b
  | [], heap, _ => ⟨heap, rfl, fun b => by simp⟩
  | none :: ps, heap, hd => by
    obtain ⟨heap1, h1, h2⟩ := delete_all_spec ps heap hd.tail
    refine ⟨heap1, ?_, fun b => ?_⟩
    · unfold delete_all
      simp only [Mem.delete]
      exact h1
    · rw [h2 b]
      simp
  | some a :: ps, heap, hd => by
    obtain ⟨heap1, h1, h2⟩ := delete_all_spec ps (heap.free a) hd.free
    refine ⟨heap1, ?_, fun b => ?_⟩
    · unfold delete_all
      rw [Mem.delete_some _ _ (hd.1 a (by simp))]
      exact h1
    · rw [h2 b]
      by_cases hb : b = a
      · subst hb
        simp [Mem.read_free_same]
      · have hb1 : ¬ a = b := fun e => hb e.symm
        simp [hb, Mem.read_free_ne _ _ _ hb]

/-- The destructor of a stack between two calls of a single-threaded run: every `delete` is
defined, and exactly the nodes of the chain and the retired nodes are freed. -/
theorem destructor_spec {T : Type} {me : Nat} {st : State T} {cells : List (Nat × T)}
    (hi : Inv me st cells) (fuel : Nat) (hf : cells.length ≤ fuel) :
    ∃ heap1, destructor fuel st = some heap1 ∧
      ∀ b, heap1.read b =
        if b ∈ cells.map Prod.fst ∨ some b ∈ st.retired_list then none else st.heap.read b := by
  obtain ⟨heap1, h1, h2⟩ := destroy_chain_spec cells st.head st.heap fuel hi.chain hi.nodup hf
  have hd : Deletable heap1 st.retired_list := by
    refine ⟨fun b hb => ?_, nodup_reduceOption _ hi.retired_nodup⟩
    rw [h2 b, if_neg (hi.retired_disj b hb)]
    obtain ⟨c, hc, hl⟩ := hi.retired_live _ hb
    cases hc
    exact hl
  obtain ⟨heap2, h3, h4⟩ := delete_all_spec st.retired_list heap1 hd
  refine ⟨heap2, ?_, fun b => ?_⟩
  · unfold destructor
    rw [h1]
    exact h3
  · rw [h4 b, h2 b]
    by_cases hb : b ∈ cells.map Prod.fst <;> by_cases hb1 : some b ∈ st.retired_list <;>
      simp [hb, hb1]

end LockFreeStack

namespace LockFreeStack

theorem retired_nodes_count_eq {T : Type} {me : Nat} {st : State T} {cells : List (Nat × T)}
    (hi : Inv me st cells) : retired_nodes_count st = st.retired_list.length := by
  unfold retired_nodes_count
  rw [hi.count]
  have hle := hi.count_le
  simp only [MAX_THREADS] at hle
  have h : ((st.retired_list.length : Int) % 2 ^ 64) = (st.retired_list.length : Int) := by
    apply Int.emod_eq_of_lt
    · omega
    · norm_num
      omega
  rw [h]
  exact Int.toNat_ofNat _

end LockFreeStack

/-! ## `LockFreeStack`: `retired_count` against the length of `retired_list` -/

namespace LockFreeStack

theorem set_hazard_pointer_retired {T : Type} (me : Nat) (index : Int) (p : Ptr)
    (st st1 : State T) (h : set_hazard_pointer me index p st = some st1) :
    st1.retired_list = st.retired_list ∧ st1.retired_count = st.retired_count := by
  obtain ⟨_, _, f3, f4, _⟩ := registered_fields me st
  unfold set_hazard_pointer at h
  dsimp only at h
  split at h
  · cases h
  · cases h
    exact ⟨f3, f4⟩

theorem clear_hazard_pointer_retired {T : Type} (me : Nat) (index : Int)
    (st st1 : State T) (h : clear_hazard_pointer me index st = some st1) :
    st1.retired_list = st.retired_list ∧ st1.retired_count = st.retired_count := by
  obtain ⟨_, _, f3, f4, _⟩ := registered_fields me st
  unfold clear_hazard_pointer at h
  dsimp only at h
  split at h
  · cases h
  · cases h
    exact ⟨f3, f4⟩

theorem scan_and_reclaim_count {T : Type} (st s1 : State T)
    (hl : st.retired_list.length < 2 ^ 31) (h : scan_and_reclaim st = some s1) :
    s1.retired_count = (s1.retired_list.length : Int) ∧
      s1.retired_list.length ≤ st.retired_list.length := by
  unfold scan_and_reclaim at h
  split at h
  · cases h
  · rename_i r hr
    obtain ⟨hr1, _⟩ := scan_loop_sound _ _ _ _ r hr
    cases h
    have hle : r.2.length ≤ st.retired_list.length := by
      rw [hr1]
      simp only [List.nil_append]
      exact List.length_filter_le _ _
    refine ⟨?_, hle⟩
    show wrap32 (r.2.length : Int) = (r.2.length : Int)
    apply wrap32_of_small
    · omega
    · norm_num at hl ⊢
      omega

theorem retire_node_count {T : Type} (node : Ptr) (st s1 : State T)
    (hc : st.retired_count = (st.retired_list.length : Int))
    (hl : st.retired_list.length + 1 < 2 ^ 31) (h : retire_node node st = some s1) :
    s1.retired_count = (s1.retired_list.length : Int) := by
  have hcnt : wrap32 (st.retired_count + 1) = (st.retired_list.length : Int) + 1 := by
    rw [hc]
    apply wrap32_of_small
    · omega
    · norm_num at hl ⊢
      omega
  unfold retire_node at h
  dsimp only at h
  split at h
  · exact (scan_and_reclaim_count _ s1 (by simpa using hl) h).1
  · cases h
    show wrap32 (st.retired_count + 1) = ((st.retired_list ++ [node]).length : Int)
    rw [hcnt]
    simp

theorem push_loop_retired {T : Type} (new_node : Nat) :
    ∀ (fuel : Nat) (o : List Bool) (old_head : Ptr) (st st1 : State T),
      push_loop new_node fuel o old_head st = some st1 →
      st1.retired_list = st.retired_list ∧ st1.retired_count = st.retired_count
  | 0, _, _, _, _, h => by simp [push_loop] at h
  | fuel + 1, o, old_head, st, st1, h => by
    unfold push_loop at h
    split at h
    · cases h
    · dsimp only at h
      split at h
      · cases h
        exact ⟨rfl, rfl⟩
      · have ih := push_loop_retired new_node fuel _ _ _ st1 h
        exact ih

theorem pop_body_count {T : Type} (me : Nat) (o o1 : List Bool) (old_head : Ptr) (result : T)
    (st s1 : State T) (it : Iter Ptr (T × Bool))
    (hc : st.retired_count = (st.retired_list.length : Int))
    (hl : st.retired_list.length + 1 < 2 ^ 31)
    (hb : pop_body me o old_head result st = some (s1, o1, it)) :
    (∀ h, it = Iter.again h →
      s1.retired_list = st.retired_list ∧ s1.retired_count = st.retired_count) ∧
    (∀ r, it = Iter.ret r → s1.retired_count = (s1.retired_list.length : Int)) := by
  unfold pop_body at hb
  split at hb
  · cases hb
  · rename_i st1 hset
    obtain ⟨e1, e2⟩ := set_hazard_pointer_retired me 0 old_head st st1 hset
    dsimp only at hb
    split at hb
    · cases hb
      exact ⟨fun _ _ => ⟨e1, e2⟩, fun r hr => by cases hr⟩
    · split at hb
      · split at hb
        · cases hb
        · rename_i st2 hclr
          obtain ⟨e3, e4⟩ := clear_hazard_pointer_retired me 0 st1 st2 hclr
          cases hb
          refine ⟨(fun h hh => by cases hh), fun _ _ => ?_⟩
          rw [e3, e4, e1, e2]
          exact hc
      · split at hb
        · cases hb
        · split at hb
          · split at hb
            · cases hb
            · split at hb
              · cases hb
              · rename_i st3 hclr
                obtain ⟨e3, e4⟩ := clear_hazard_pointer_retired me 0 _ st3 hclr
                split at hb
                · cases hb
                · rename_i st4 hret
                  cases hb
                  refine ⟨(fun h hh => by cases hh), fun _ _ => ?_⟩
                  apply retire_node_count old_head st3 _ _ _ hret
                  · rw [e3, e4]
                    show st1.retired_count = (st1.retired_list.length : Int)
                    rw [e1, e2]
                    exact hc
                  · rw [e3]
                    show st1.retired_list.length + 1 < 2 ^ 31
                    rw [e1]
                    exact hl
          · cases hb
            exact ⟨fun _ _ => ⟨e1, e2⟩, fun r hr => by cases hr⟩

theorem pop_loop_count {T : Type} (me : Nat) :
    ∀ (fuel : Nat) (o : List Bool) (old_head : Ptr) (result : T) (st s1 : State T) (x : T)
      (b : Bool), st.retired_count = (st.retired_list.length : Int) →
      st.retired_list.length + 1 < 2 ^ 31 →
      pop_loop me fuel o old_head result st = some (s1, x, b) →
      s1.retired_count = (s1.retired_list.length : Int)
  | 0, _, _, _, _, _, _, _, _, _, h => by simp [pop_loop] at h
  | fuel + 1, o, old_head, result, st, s1, x, b, hc, hl, h => by
    unfold pop_loop at h
    split at h
    · cases h
    · rename_i st1 o1 old_head1 hb
      obtain ⟨e1, e2⟩ := (pop_body_count me o o1 old_head result st st1 _ hc hl hb).1 _ rfl
      exact pop_loop_count me fuel o1 old_head1 result st1 s1 x b (by rw [e1, e2]; exact hc)
        (by rw [e1]; exact hl) h
    · rename_i st1 o1 r hb
      cases h
      exact (pop_body_count me o o1 old_head result st _ _ hc hl hb).2 _ rfl

end LockFreeStack

namespace LockFreeStack

theorem scan_and_reclaim_defined {T : Type} {me : Nat} {st : State T} {cells : List (Nat × T)}
    (hi : Inv me st cells) : ∃ st1, scan_and_reclaim st = some st1 := by
  have hd : Deletable st.heap (st.retired_list.filter (fun p => !is_hazardous st p)) := by
    have hd0 : Deletable st.heap st.retired_list := by
      refine ⟨fun b hb => ?_, nodup_reduceOption _ hi.retired_nodup⟩
      obtain ⟨c, hc, hl⟩ := hi.retired_live _ hb
      cases hc
      exact hl
    exact hd0.sublist (List.filter_sublist _)
  obtain ⟨r, hr⟩ := scan_loop_defined st st.retired_list st.heap [] hd
  unfold scan_and_reclaim
  rw [hr]
  exact ⟨_, rfl⟩

end LockFreeStack

/-! ## Matrix multiplication: loops as folds, and what an entry becomes -/

theorem wrap32_add_left (a b : Int) : wrap32 (wrap32 a + b) = wrap32 (a + b) := by
  unfold wrap32
  omega

theorem wrap32_add_right (a b : Int) : wrap32 (a + wrap32 b) = wrap32 (a + b) := by
  unfold wrap32
  omega

theorem wrap32_idem (a : Int) : wrap32 (wrap32 a) = wrap32 a := by
  unfold wrap32
  omega

theorem foldl_pointwise {α : Type} (body : α → IntMatrix → IntMatrix)
    (h : α → Nat → Nat → Int → Int) (hb : ∀ x C i j, body x C i j = h x i j (C i j)) :
    ∀ (l : List α) (C : IntMatrix) (i j : Nat),
      l.foldl (fun C x => body x C) C i j = l.foldl (fun v x => h x i j v) (C i j)
  | [], _, _, _ => rfl
  | x :: l, C, i, j => by
    simp only [List.foldl_cons]
    rw [foldl_pointwise body h hb l (body x C) i j, hb]

theorem foldl_id {α : Type} (l : List α) (v : Int) : l.foldl (fun v _ => v) v = v := by
  induction l with
  | nil => rfl
  | cons x l ih => exact ih

theorem foldl_hit (F : Int → Int) (t : Nat) :
    ∀ (l : List Nat) (v : Int), l.Nodup →
      l.foldl (fun v y => if y = t then F v else v) v = if t ∈ l then F v else v
  | [], v, _ => by simp
  | y :: l, v, hnd => by
    simp only [List.nodup_cons] at hnd
    simp only [List.foldl_cons]
    rw [foldl_hit F t l _ hnd.2]
    by_cases hy : y = t
    · subst hy
      simp [hnd.1]
    · have hy1 : ¬ t = y := fun e => hy e.symm
      simp [hy, hy1]

theorem for_range_hit (F : Int → Int) (t lo hi : Nat) (v : Int) :
    for_range lo hi (fun y v => if y = t then F v else v) v =
      if lo ≤ t ∧ t < hi then F v else v := by
  unfold for_range
  rw [foldl_hit F t _ v (List.nodup_range' lo (hi - lo))]
  have : t ∈ List.range' lo (hi - lo) ↔ lo ≤ t ∧ t < hi := by
    rw [List.mem_range'_1]
    omega
  simp only [this]

theorem for_range_pointwise (body : Nat → IntMatrix → IntMatrix)
    (h : Nat → Nat → Nat → Int → Int) (hb : ∀ x C i j, body x C i j = h x i j (C i j))
    (lo hi : Nat) (C : IntMatrix) (i j : Nat) :
    for_range lo hi body C i j = for_range lo hi (fun x v => h x i j v) (C i j) := by
  unfold for_range
  exact foldl_pointwise body h hb _ C i j

/-- The `int` accumulation of the products over `lo <= k < lo + len`, up to wrap-around. -/
theorem sum_loop_eq (a : Nat → Int) :
    ∀ (len lo : Nat) (s : Int),
      wrap32 ((List.range' lo len).foldl (fun s k => wrap32 (s + wrap32 (a k))) s) =
        wrap32 (s + ((List.range' lo len).map a).sum)
  | 0, lo, s => by simp
  | len + 1, lo, s => by
    simp only [List.range'_succ, List.foldl_cons, List.map_cons, List.sum_cons]
    rw [sum_loop_eq a len (lo + 1), wrap32_add_left]
    generalize ((List.range' (lo + 1) len).map a).sum = r
    rw [show s + wrap32 (a lo) + r = s + r + wrap32 (a lo) by ring, wrap32_add_right]
    congr 1
    ring

/-- The accumulated `int` value is in range when the start value is. -/
theorem sum_loop_fix (a : Nat → Int) :
    ∀ (len lo : Nat) (s : Int), wrap32 s = s →
      wrap32 ((List.range' lo len).foldl (fun s k => wrap32 (s + wrap32 (a k))) s) =
        (List.range' lo len).foldl (fun s k => wrap32 (s + wrap32 (a k))) s
  | 0, _, s, h => by simpa using h
  | len + 1, lo, s, _ => by
    simp only [List.range'_succ, List.foldl_cons]
    exact sum_loop_fix a len (lo + 1) _ (wrap32_idem _)

theorem dot_split (A B : IntMatrix) (i j lo mid hi : Nat) (h1 : lo ≤ mid) (h2 : mid ≤ hi) :
    dot A B i j lo hi = dot A B i j lo mid + dot A B i j mid hi := by
  unfold dot
  have h : List.range' lo (hi - lo) =
      List.range' lo (mid - lo) ++ List.range' mid (hi - mid) := by
    have := List.range'_append lo (mid - lo) (hi - mid) 1
    rw [show lo + 1 * (mid - lo) = mid by omega,
      show hi - mid + (mid - lo) = hi - lo by omega] at this
    exact this.symm
  rw [h, List.map_append, List.sum_append]

/-- What the loop over `k` inside a block adds to an entry, up to wrap-around. -/
theorem block_sum_eq (A B : IntMatrix) (i j lo hi : Nat) (v : Int) :
    wrap32 (v + for_range lo hi (fun k sum => wrap32 (sum + wrap32 (A i k * B k j))) 0) =
      wrap32 (v + dot A B i j lo hi) := by
  rw [← wrap32_add_right]
  unfold for_range
  rw [sum_loop_eq (fun k => A i k * B k j) (hi - lo) lo 0, wrap32_add_right]
  simp [dot]

/-! ### The naive multiplication -/

theorem naive_entry (A B C : IntMatrix) (n i j : Nat) :
    matrix_mult_naive A B C n i j =
      if i < n ∧ j < n then wrap32 (dot A B i j 0 n) else C i j := by
  unfold matrix_mult_naive
  have hk : ∀ (i1 j1 : Nat) (C1 : IntMatrix) (i2 j2 : Nat),
      for_range 0 n (fun k C =>
        set_entry C i1 j1 (wrap32 (C i1 j1 + wrap32 (A i1 k * B k j1)))) C1 i2 j2 =
      if i2 = i1 ∧ j2 = j1 then
        for_range 0 n (fun k s => wrap32 (s + wrap32 (A i1 k * B k j1))) (C1 i1 j1)
      else C1 i2 j2 := by
    intro i1 j1 C1 i2 j2
    rw [for_range_pointwise _
      (fun k i2 j2 v => if i2 = i1 ∧ j2 = j1 then wrap32 (v + wrap32 (A i1 k * B k j1)) else v)]
    · by_cases h : i2 = i1 ∧ j2 = j1
      · simp only [h, and_self, if_true]
      · simp only [h, if_false]
        unfold for_range
        exact foldl_id _ _
    · intro k C2 i3 j3
      unfold set_entry
      by_cases h : i3 = i1 ∧ j3 = j1
      · simp only [h, and_self, if_true]
      · simp only [h, if_false]
  have hj : ∀ (i1 : Nat) (C1 : IntMatrix) (i2 j2 : Nat),
      for_range 0 n (fun j C =>
        for_range 0 n (fun k C =>
          set_entry C i1 j (wrap32 (C i1 j + wrap32 (A i1 k * B k j)))) (set_entry C i1 j 0))
        C1 i2 j2 =
      if i2 = i1 ∧ j2 < n then wrap32 (dot A B i2 j2 0 n) else C1 i2 j2 := by
    intro i1 C1 i2 j2
    rw [for_range_pointwise _
      (fun j i2 j2 v => if j = j2 then (if i2 = i1 then wrap32 (dot A B i2 j2 0 n) else v)
        else v)]
    · rw [for_range_hit (fun v => if i2 = i1 then wrap32 (dot A B i2 j2 0 n) else v)]
      by_cases h1 : i2 = i1 <;> by_cases h2 : j2 < n <;> simp [h1, h2]
    · intro j1 C2 i3 j3
      rw [hk]
      by_cases h1 : i3 = i1
      · by_cases h2 : j3 = j1
        · subst h1
          subst h2
          simp only [and_self, if_true]
          have hz : set_entry C2 i3 j3 0 i3 j3 = 0 := by simp [set_entry]
          rw [hz]
          unfold for_range
          rw [← sum_loop_fix (fun k => A i3 k * B k j3) (n - 0) 0 0 (by simp [wrap32]),
            sum_loop_eq (fun k => A i3 k * B k j3) (n - 0) 0 0]
          simp [dot]
        · have h3 : ¬ j1 = j3 := fun e => h2 e.symm
          simp [h1, h2, h3, set_entry]
      · by_cases h2 : j1 = j3 <;> simp [h1, h2, set_entry]
  rw [for_range_pointwise _
    (fun i1 i2 j2 v => if i1 = i2 then (if j2 < n then wrap32 (dot A B i2 j2 0 n) else v)
      else v)]
  · rw [for_range_hit (fun v => if j < n then wrap32 (dot A B i j 0 n) else v)]
    by_cases h1 : i < n <;> by_cases h2 : j < n <;> simp [h1, h2]
  · intro i1 C2 i3 j3
    rw [hj]
    by_cases h1 : i1 = i3
    · subst h1
      simp
    · have h3 : ¬ i3 = i1 := fun e => h1 e.symm
      simp [h1, h3]

/-! ### The blocked multiplication -/

/-- One block: it is defined when the three bounds do not overflow, and it adds to every entry
of the block the products over the `k` of the block. -/
theorem block_body_entry (A B C : IntMatrix) (n bs ii jj kk : Nat)
    (hii : ii + bs < 2 ^ 31) (hjj : jj + bs < 2 ^ 31) (hkk : kk + bs < 2 ^ 31) :
    ∃ R, block_body A B n bs ii jj kk C = some R ∧
      ∀ i j, R i j =
        if (ii ≤ i ∧ i < min (ii + bs) n) ∧ (jj ≤ j ∧ j < min (jj + bs) n) then
          wrap32 (C i j + dot A B i j kk (min (kk + bs) n))
        else C i j := by
  have he : block_body A B n bs ii jj kk C =
      some (for_range ii (min (ii + bs) n) (fun i C =>
        for_range jj (min (jj + bs) n) (fun j C =>
          set_entry C i j (wrap32 (C i j +
            for_range kk (min (kk + bs) n)
              (fun k sum => wrap32 (sum + wrap32 (A i k * B k j))) 0))) C) C) := by
    unfold block_body int_add
    simp only [hii, hjj, hkk, if_true]
  refine ⟨_, he, ?_⟩
  · intro i j
    have hj : ∀ (i1 : Nat) (C1 : IntMatrix) (i2 j2 : Nat),
        for_range jj (min (jj + bs) n) (fun j C =>
          set_entry C i1 j (wrap32 (C i1 j +
            for_range kk (min (kk + bs) n)
              (fun k sum => wrap32 (sum + wrap32 (A i1 k * B k j))) 0))) C1 i2 j2 =
        if i2 = i1 ∧ (jj ≤ j2 ∧ j2 < min (jj + bs) n) then
          wrap32 (C1 i2 j2 + dot A B i2 j2 kk (min (kk + bs) n))
        else C1 i2 j2 := by
      intro i1 C1 i2 j2
      rw [for_range_pointwise _
        (fun j i2 j2 v => if j = j2 then
          (if i2 = i1 then wrap32 (v + dot A B i2 j2 kk (min (kk + bs) n)) else v) else v)]
      · rw [for_range_hit
          (fun v => if i2 = i1 then wrap32 (v + dot A B i2 j2 kk (min (kk + bs) n)) else v)]
        by_cases h1 : i2 = i1 <;> by_cases h2 : jj ≤ j2 ∧ j2 < min (jj + bs) n <;>
          simp only [h1, h2, and_self, and_true, true_and, false_and, and_false, if_true, if_false]
      · intro j1 C2 i3 j3
        unfold set_entry
        by_cases h1 : i3 = i1
        · by_cases h2 : j3 = j1
          · subst h1
            subst h2
            simp only [and_self, if_true]
            exact block_sum_eq A B i3 j3 kk (min (kk + bs) n) (C2 i3 j3)
          · have h3 : ¬ j1 = j3 := fun e => h2 e.symm
            simp [h1, h2, h3]
        · by_cases h2 : j1 = j3 <;> simp [h1, h2]
    rw [for_range_pointwise _
      (fun i1 i2 j2 v => if i1 = i2 then
        (if jj ≤ j2 ∧ j2 < min (jj + bs) n then
          wrap32 (v + dot A B i2 j2 kk (min (kk + bs) n)) else v) else v)]
    · rw [for_range_hit
        (fun v => if jj ≤ j ∧ j < min (jj + bs) n then
          wrap32 (v + dot A B i j kk (min (kk + bs) n)) else v)]
      by_cases h1 : ii ≤ i ∧ i < min (ii + bs) n <;>
        by_cases h2 : jj ≤ j ∧ j < min (jj + bs) n <;>
          simp only [h1, h2, and_self, and_true, true_and, false_and, and_false, if_true, if_false]
    · intro i1 C2 i3 j3
      rw [hj]
      by_cases h1 : i1 = i3
      · subst h1
        simp
      · have h3 : ¬ i3 = i1 := fun e => h1 e.symm
        simp [h1, h3]

/-- A block loop whose body acts on every entry separately: it returns, and every entry is the
fold of the action over the values of the counter. -/
theorem for_blocks_entry (n bs : Nat) (hbs : 1 ≤ bs)
    (hov : ∀ y, bs ∣ y → y < n → y + bs < 2 ^ 31)
    (body : Nat → IntMatrix → Option IntMatrix) (h : Nat → Nat → Nat → Int → Int)
    (hbody : ∀ y C, bs ∣ y → y < n →
      ∃ R, body y C = some R ∧ ∀ i j, R i j = h y i j (C i j)) :
    ∀ (fuel x : Nat) (C : IntMatrix), bs ∣ x → n - x ≤ fuel →
      ∃ R, for_blocks n bs body fuel x C = some R ∧
        ∀ i j, R i j = (starts n bs fuel x).foldl (fun v y => h y i j v) (C i j)
  | 0, x, C, _, hf => by
    refine ⟨C, ?_, fun i j => rfl⟩
    unfold for_blocks
    rw [if_neg (by omega)]
  | fuel + 1, x, C, hx, hf => by
    unfold for_blocks starts
    by_cases hxn : x < n
    · obtain ⟨R1, h1, h2⟩ := hbody x C hx hxn
      obtain ⟨R2, h3, h4⟩ := for_blocks_entry n bs hbs hov body h hbody fuel (x + bs) R1
        (Dvd.dvd.add hx (dvd_refl bs)) (by omega)
      refine ⟨R2, ?_, fun i j => ?_⟩
      · simp only [hxn, if_true, h1, int_add, hov x hx hxn]
        exact h3
      · simp only [hxn, if_true, List.foldl_cons]
        rw [h4 i j, h2 i j]
    · exact ⟨C, by simp only [hxn, if_false], fun i j => by simp only [hxn, if_false]; rfl⟩

/-- The blocks of `k` together contribute the whole sum. -/
theorem starts_sum (A B : IntMatrix) (i j n bs : Nat) (hbs : 1 ≤ bs) :
    ∀ (fuel x : Nat) (v : Int), n - x ≤ fuel →
      (starts n bs fuel x).foldl
          (fun v y => wrap32 (v + dot A B i j y (min (y + bs) n))) v =
        if x < n then wrap32 (v + dot A B i j x n) else v
  | 0, x, v, hf => by
    simp only [starts, List.foldl_nil]
    rw [if_neg (by omega)]
  | fuel + 1, x, v, hf => by
    unfold starts
    by_cases hxn : x < n
    · simp only [hxn, if_true, List.foldl_cons]
      rw [starts_sum A B i j n bs hbs fuel (x + bs) _ (by omega)]
      by_cases hm : x + bs < n
      · rw [if_pos hm, show min (x + bs) n = x + bs by omega, wrap32_add_left,
          dot_split A B i j x (x + bs) n (by omega) (by omega), add_assoc]
      · rw [if_neg hm, show min (x + bs) n = n by omega]
    · simp only [hxn, if_false, List.foldl_nil]

/-- Exactly one block contains the index `t`. -/
theorem starts_hit (F : Int → Int) (t n bs : Nat) (hbs : 1 ≤ bs) :
    ∀ (fuel x : Nat) (v : Int), n - x ≤ fuel →
      (starts n bs fuel x).foldl
          (fun v y => if y ≤ t ∧ t < min (y + bs) n then F v else v) v =
        if x ≤ t ∧ t < n then F v else v
  | 0, x, v, hf => by
    simp only [starts, List.foldl_nil]
    rw [if_neg (by omega)]
  | fuel + 1, x, v, hf => by
    unfold starts
    by_cases hxn : x < n
    · simp only [hxn, if_true, List.foldl_cons]
      rw [starts_hit F t n bs hbs fuel (x + bs) _ (by omega)]
      by_cases h1 : x ≤ t ∧ t < min (x + bs) n
      · rw [if_pos h1, if_neg (by omega), if_pos (by omega)]
      · rw [if_neg h1]
        by_cases h2 : x + bs ≤ t ∧ t < n
        · rw [if_pos h2, if_pos (by omega)]
        · rw [if_neg h2, if_neg (by omega)]
    · simp only [hxn, if_false, List.foldl_nil]
      rw [if_neg (by omega)]

/-- The blocked multiplication returns, and adds to every entry of the `n`-by-`n` matrix the sum
of all `n` products, up to wrap-around. -/
theorem blocked_entry (A B C : IntMatrix) (n bs fuel : Nat) (hbs : 1 ≤ bs)
    (hov : ∀ y, bs ∣ y → y < n → y + bs < 2 ^ 31) (hf : n ≤ fuel) :
    ∃ R, matrix_mult_blocked A B C n bs fuel = some R ∧
      ∀ i j, R i j = if i < n ∧ j < n then wrap32 (C i j + dot A B i j 0 n) else C i j := by
  have hkk : ∀ ii jj (C1 : IntMatrix), bs ∣ ii → ii < n → bs ∣ jj → jj < n →
      ∃ R, for_blocks n bs (fun kk C => block_body A B n bs ii jj kk C) fuel 0 C1 = some R ∧
        ∀ i j, R i j =
          if (ii ≤ i ∧ i < min (ii + bs) n) ∧ (jj ≤ j ∧ j < min (jj + bs) n) then
            wrap32 (C1 i j + dot A B i j 0 n)
          else C1 i j := by
    intro ii jj C1 hi1 hi2 hj1 hj2
    obtain ⟨R, h1, h2⟩ := for_blocks_entry n bs hbs hov
      (fun kk C => block_body A B n bs ii jj kk C)
      (fun kk i j v =>
        if (ii ≤ i ∧ i < min (ii + bs) n) ∧ (jj ≤ j ∧ j < min (jj + bs) n) then
          wrap32 (v + dot A B i j kk (min (kk + bs) n))
        else v)
      (fun y C2 hy1 hy2 => block_body_entry A B C2 n bs ii jj y (hov ii hi1 hi2)
        (hov jj hj1 hj2) (hov y hy1 hy2))
      fuel 0 C1 (dvd_zero bs) (by omega)
    refine ⟨R, h1, fun i j => ?_⟩
    rw [h2 i j]
    by_cases hb : (ii ≤ i ∧ i < min (ii + bs) n) ∧ (jj ≤ j ∧ j < min (jj + bs) n)
    · simp only [hb, and_self, if_true]
      rw [starts_sum A B i j n bs hbs fuel 0 _ (by omega), if_pos (by omega)]
    · simp only [hb, if_false]
      exact foldl_id _ _
  have hjj : ∀ ii (C1 : IntMatrix), bs ∣ ii → ii < n →
      ∃ R, for_blocks n bs (fun jj C =>
          for_blocks n bs (fun kk C => block_body A B n bs ii jj kk C) fuel 0 C)
          fuel 0 C1 = some R ∧
        ∀ i j, R i j =
          if (ii ≤ i ∧ i < min (ii + bs) n) ∧ j < n then wrap32 (C1 i j + dot A B i j 0 n)
          else C1 i j := by
    intro ii C1 hi1 hi2
    obtain ⟨R, h1, h2⟩ := for_blocks_entry n bs hbs hov
      (fun jj C => for_blocks n bs (fun kk C => block_body A B n bs ii jj kk C) fuel 0 C)
      (fun jj i j v =>
        if (ii ≤ i ∧ i < min (ii + bs) n) ∧ (jj ≤ j ∧ j < min (jj + bs) n) then
          wrap32 (v + dot A B i j 0 n)
        else v)
      (fun y C2 hy1 hy2 => hkk ii y C2 hi1 hi2 hy1 hy2)
      fuel 0 C1 (dvd_zero bs) (by omega)
    refine ⟨R, h1, fun i j => ?_⟩
    rw [h2 i j]
    by_cases hb : ii ≤ i ∧ i < min (ii + bs) n
    · simp only [hb, and_self, true_and]
      rw [starts_hit (fun v => wrap32 (v + dot A B i j 0 n)) j n bs hbs fuel 0 _ (by omega)]
      simp
    · simp only [hb, false_and, if_false]
      exact foldl_id _ _
  obtain ⟨R, h1, h2⟩ := for_blocks_entry n bs hbs hov
    (fun ii C => for_blocks n bs (fun jj C =>
      for_blocks n bs (fun kk C => block_body A B n bs ii jj kk C) fuel 0 C) fuel 0 C)
    (fun ii i j v =>
      if (ii ≤ i ∧ i < min (ii + bs) n) ∧ j < n then wrap32 (v + dot A B i j 0 n) else v)
    (fun y C2 hy1 hy2 => hjj y C2 hy1 hy2)
    fuel 0 C (dvd_zero bs) (by omega)
  refine ⟨R, h1, fun i j => ?_⟩
  rw [h2 i j]
  by_cases hb : j < n
  · simp only [hb, and_true]
    rw [starts_hit (fun v => wrap32 (v + dot A B i j 0 n)) i n bs hbs fuel 0 _ (by omega)]
    simp
  · simp only [hb, and_false, if_false]
    exact foldl_id _ _

/-- No loop counter overflows when the matrix has at most `2^30` rows. -/
theorem no_index_overflow (n bs : Nat) (hn : n ≤ 2 ^ 30) (hint : bs < 2 ^ 31) :
    ∀ y, bs ∣ y → y < n → y + bs < 2 ^ 31 := by
  intro y hy hyn
  obtain ⟨c, rfl⟩ := hy
  cases c with
  | zero => simpa using hint
  | succ c =>
    have : bs ≤ bs * (c + 1) := Nat.le_mul_of_pos_right bs (Nat.succ_pos c)
    omega

/-- With more than `2^30` rows a loop counter can overflow: when `block_size < n` and
`2 * block_size >= 2^31` (as for `n = 2^31 - 1` and `block_size = 2^30`), the bound
`ii + block_size` of the second block of rows is not an `int`. -/
theorem blocked_index_overflow (A B C : IntMatrix) (n bs fuel : Nat) (h1 : bs < n)
    (h2 : 2 ^ 31 ≤ bs + bs) (h3 : bs < 2 ^ 31) :
    matrix_mult_blocked A B C n bs fuel = none := by
  have h0 : 0 < n := by omega
  unfold matrix_mult_blocked
  cases fuel with
  | zero => simp only [for_blocks, h0, if_true]
  | succ fuel =>
    unfold for_blocks
    simp only [h0, if_true]
    split
    · rfl
    · rename_i s1 _
      have ha : int_add 0 bs = some bs := by
        unfold int_add
        simp only [Nat.zero_add, h3, if_true]
      simp only [ha]
      cases fuel with
      | zero => simp only [for_blocks, h1, if_true]
      | succ fuel =>
        have hb : block_body A B n bs bs 0 0 s1 = none := by
          unfold block_body int_add
          rw [if_neg (by omega)]
        unfold for_blocks
        simp only [h1, if_true]
        unfold for_blocks
        simp only [h0, if_true]
        unfold for_blocks
        simp only [h0, if_true, hb]

/-! ## Runs of calls one after the other -/

namespace LockFreeStack

theorem run_append {T : Type} (A : Allocator (Node T)) (me : Nat) :
    ∀ (cs cs2 : List (Op T × List Bool)) (result : T) (st : State T),
      run A me (cs ++ cs2) result st =
        match run A me cs result st with
        | none => none
        | some (st1, r1, outs1) =>
          match run A me cs2 r1 st1 with
          | none => none
          | some (st2, r2, outs2) => some (st2, r2, outs1 ++ outs2)
  | [], cs2, result, st => by
    simp only [List.nil_append, run]
    cases run A me cs2 result st with
    | none => rfl
    | some x => simp
  | (Op.push v, o) :: cs, cs2, result, st => by
    simp only [List.cons_append, run]
    cases push A o (o.length + 1) v st with
    | none => rfl
    | some st1 => exact run_append A me cs cs2 result st1
  | (Op.pop, o) :: cs, cs2, result, st => by
    simp only [List.cons_append, run]
    cases pop me o (o.length + 1) result st with
    | none => rfl
    | some x =>
      obtain ⟨st1, result1, b⟩ := x
      simp only
      have ih := run_append A me cs cs2 result1 st1
      simp only [List.append_eq] at ih ⊢
      rw [ih]
      cases run A me cs result1 st1 with
      | none => rfl
      | some y =>
        obtain ⟨st2, r2, outs⟩ := y
        simp only
        cases run A me cs2 r2 st2 with
        | none => rfl
        | some z => simp

end LockFreeStack

namespace MichaelScottQueue

theorem queue_run_append {T : Type} (A : Allocator (Node T)) :
    ∀ (cs cs2 : List (QueueOp T × List Bool)) (result : T) (st : QueueState T),
      run A (cs ++ cs2) result st =
        match run A cs result st with
        | none => none
        | some (st1, r1, outs1) =>
          match run A cs2 r1 st1 with
          | none => none
          | some (st2, r2, outs2) => some (st2, r2, outs1 ++ outs2)
  | [], cs2, result, st => by
    simp only [List.nil_append, run]
    cases run A cs2 result st with
    | none => rfl
    | some x => simp
  | (QueueOp.enqueue v, o) :: cs, cs2, result, st => by
    simp only [List.cons_append, run]
    cases enqueue A o (o.length + 2) v st with
    | none => rfl
    | some st1 => exact queue_run_append A cs cs2 result st1
  | (QueueOp.dequeue, o) :: cs, cs2, result, st => by
    simp only [List.cons_append, run]
    cases dequeue o (o.length + 2) result st with
    | none => rfl
    | some x =>
      obtain ⟨st1, result1, b⟩ := x
      simp only
      have ih := queue_run_append A cs cs2 result1 st1
      simp only [List.append_eq] at ih ⊢
      rw [ih]
      cases run A cs result1 st1 with
      | none => rfl
      | some y =>
        obtain ⟨st2, r2, outs⟩ := y
        simp only
        cases run A cs2 r2 st2 with
        | none => rfl
        | some z => simp

/-- Without interference the preempted iteration is the sequential one. -/
theorem dequeue_body_interleaved_alone {T : Type} (o : List Bool) (result : T)
    (st : QueueState T) :
    dequeue_body_interleaved (fun s => some s) (fun s => some s) o result st =
      dequeue_body o result st := by
  unfold dequeue_body_interleaved dequeue_body
  rfl

/-- A dequeuer that has loaded `first`, while another thread completes a `dequeue`, reads the
freed node. -/
theorem dequeue_body_interleaved_freed {T : Type} (d c : Nat × T) (rest : List (Nat × T))
    (fuel : Nat) (o o2 : List Bool) (result result2 : T) (st : QueueState T)
    (env2 : QueueState T → Option (QueueState T))
    (hi : QueueInv st d (c :: rest)) (hf : o.length + 2 ≤ fuel) :
    dequeue_body_interleaved (fun s => (dequeue o fuel result s).map Prod.fst) env2 o2 result2
      st = none := by
  obtain ⟨st1, h1, _, h3⟩ := dequeue_loop_frees d c rest fuel o result st hi (Or.inr hf)
  have hh : st.head = some d.1 := hi.chain.1
  have he : (dequeue o fuel result st).map Prod.fst = some st1 := by
    unfold dequeue
    rw [h1]
    rfl
  unfold dequeue_body_interleaved
  simp only [he, hh, h3, Mem.read_free_same]

end MichaelScottQueue

namespace LockFreeQueue

theorem dequeue_body_interleaved_same {T : Type}
    (env1 env2 : QueueState T → Option (QueueState T)) (o : List Bool) (result : T)
    (st : QueueState T) :
    dequeue_body_interleaved env1 env2 o result st =
      MichaelScottQueue.dequeue_body_interleaved env1 env2 o result st := rfl

end LockFreeQueue

/-! ## The properties of the specification -/

theorem reverse_getLastD {T : Type} (vs : List T) (r : T) :
    vs.reverse.getLastD r = vs.headD r := by
  cases vs with
  | nil => rfl
  | cons v vs => simp [List.getLastD_concat]

/-- Claim C1.  Order property of `LockFreeStack`: a thread that can be given a hazard slot pushes
the values `v1 .. vn` onto a new stack, then calls `pop` `n + 1` times.  Whatever the allocation
policy and whatever spurious CAS failures occur, every call returns, the first `n` calls of `pop`
return `true` and deliver `vn, .., v1` in this order, and the last call returns `false` and
leaves `result` as it was. -/
theorem C1_stack_order {T : Type} (A : Allocator (Node T)) (me : Nat) (heap : Mem (Node T))
    (next_thread_id : Int) (thread_id : Nat → Int)
    (htid : LockFreeStack.TidOK me next_thread_id thread_id)
    (pushes : List (T × List Bool)) (pops : List (List Bool))
    (hn : pops.length = pushes.length) (last : List Bool) (result : T) :
    ∃ st, LockFreeStack.run A me
        (pushes.map (fun x => (LockFreeStack.Op.push x.1, x.2)) ++
          pops.map (fun o => (LockFreeStack.Op.pop, o)) ++ [(LockFreeStack.Op.pop, last)])
        result (LockFreeStack.new heap next_thread_id thread_id) =
      some (st, (pushes.map Prod.fst).headD result,
        (pushes.map Prod.fst).reverse.map (fun v => (true, v)) ++
          [(false, (pushes.map Prod.fst).headD result)]) := by
  obtain ⟨st, cells, _, _, hrun⟩ := LockFreeStack.run_model A me
    (pushes.map (fun x : T × List Bool => (LockFreeStack.Op.push x.1, x.2)) ++
      pops.map (fun o => (LockFreeStack.Op.pop, o)) ++ [(LockFreeStack.Op.pop, last)])
    result _ [] (LockFreeStack.Inv.of_new me heap next_thread_id thread_id htid)
  refine ⟨st, ?_⟩
  rw [hrun]
  have h1 : (pushes.map (fun x : T × List Bool => (LockFreeStack.Op.push x.1, x.2))).map
      Prod.fst = (pushes.map Prod.fst).map LockFreeStack.Op.push := by
    simp [List.map_map, Function.comp_def]
  have h2 : (pops.map (fun o : List Bool => ((LockFreeStack.Op.pop : LockFreeStack.Op T), o))).map
      Prod.fst = List.replicate (pushes.map Prod.fst).reverse.length LockFreeStack.Op.pop := by
    rw [List.eq_replicate_iff]
    simp [hn]
  simp only [List.map_append, h1, h2, List.append_assoc]
  rw [LockFreeStack.model_append, LockFreeStack.model_pushes, LockFreeStack.model_append]
  simp only [List.append_nil, LockFreeStack.model_pops, reverse_getLastD, List.map_nil,
    LockFreeStack.model, List.nil_append, List.map_cons]

/-- Instance of claim C1: push 1, 2, 3 (the second push and the second pop each meet one spurious
CAS failure), then four calls of `pop` deliver 3, 2, 1 and then report an empty stack. -/
theorem C1_stack_order_witness :
    ∃ st, LockFreeStack.run (Allocator.bump (Node Nat)) 0
        ([(1, []), (2, [true]), (3, [])].map (fun x => (LockFreeStack.Op.push x.1, x.2)) ++
          [[], [true], []].map (fun o => (LockFreeStack.Op.pop, o)) ++
          [(LockFreeStack.Op.pop, [])])
        0 (LockFreeStack.new [] 0 (fun _ => -1)) =
      some (st, 1, [(true, 3), (true, 2), (true, 1), (false, 1)]) :=
  C1_stack_order (Allocator.bump (Node Nat)) 0 [] 0 (fun _ => -1) (Or.inl (by decide))
    [(1, []), (2, [true]), (3, [])] [[], [true], []] rfl [] 0

/-- Claim C2.  Order property of the queues: the values `v1 .. vn` are enqueued onto a new
`MichaelScottQueue`, then `dequeue` is called `n + 1` times.  Whatever the allocation policy and
whatever spurious CAS failures occur (also of the CAS that swings `tail`), every call returns,
the first `n` calls of `dequeue` return `true` and deliver `v1, .., vn` in this order, and the
last call returns `false` and leaves `result` as it was.  The same holds for the `LockFreeQueue`
of Phase 3. -/
theorem C2_queue_order {T : Type} (A : Allocator (Node T)) (junk : T) (heap : Mem (Node T))
    (enqueues : List (T × List Bool)) (dequeues : List (List Bool))
    (hn : dequeues.length = enqueues.length) (last : List Bool) (result : T) :
    (∃ st, MichaelScottQueue.run A
        (enqueues.map (fun x => (QueueOp.enqueue x.1, x.2)) ++
          dequeues.map (fun o => (QueueOp.dequeue, o)) ++ [(QueueOp.dequeue, last)])
        result (MichaelScottQueue.new A junk heap) =
      some (st, (enqueues.map Prod.fst).getLastD result,
        (enqueues.map Prod.fst).map (fun v => (true, v)) ++
          [(false, (enqueues.map Prod.fst).getLastD result)])) ∧
    (∃ st, LockFreeQueue.run A
        (enqueues.map (fun x => (QueueOp.enqueue x.1, x.2)) ++
          dequeues.map (fun o => (QueueOp.dequeue, o)) ++ [(QueueOp.dequeue, last)])
        result (LockFreeQueue.new A junk heap) =
      some (st, (enqueues.map Prod.fst).getLastD result,
        (enqueues.map Prod.fst).map (fun v => (true, v)) ++
          [(false, (enqueues.map Prod.fst).getLastD result)])) := by
  have key : ∃ st, MichaelScottQueue.run A
        (enqueues.map (fun x => (QueueOp.enqueue x.1, x.2)) ++
          dequeues.map (fun o => (QueueOp.dequeue, o)) ++ [(QueueOp.dequeue, last)])
        result (MichaelScottQueue.new A junk heap) =
      some (st, (enqueues.map Prod.fst).getLastD result,
        (enqueues.map Prod.fst).map (fun v => (true, v)) ++
          [(false, (enqueues.map Prod.fst).getLastD result)]) := by
    obtain ⟨st, d, cells, _, _, hrun⟩ := MichaelScottQueue.queue_run_model A
      (enqueues.map (fun x : T × List Bool => (QueueOp.enqueue x.1, x.2)) ++
        dequeues.map (fun o => (QueueOp.dequeue, o)) ++ [(QueueOp.dequeue, last)])
      result _ _ [] (MichaelScottQueue.QueueInv_new A junk heap)
    refine ⟨st, ?_⟩
    rw [hrun]
    have h1 : (enqueues.map (fun x : T × List Bool => (QueueOp.enqueue x.1, x.2))).map
        Prod.fst = (enqueues.map Prod.fst).map QueueOp.enqueue := by
      simp [List.map_map, Function.comp_def]
    have h2 : (dequeues.map (fun o : List Bool => ((QueueOp.dequeue : QueueOp T), o))).map
        Prod.fst = List.replicate (enqueues.map Prod.fst).length QueueOp.dequeue := by
      rw [List.eq_replicate_iff]
      simp [hn]
    simp only [List.map_append, h1, h2, List.append_assoc]
    rw [queue_model_append, queue_model_enqueues, queue_model_append]
    simp only [List.nil_append, queue_model_dequeues, List.map_nil, queue_model, List.map_cons]
  refine ⟨key, ?_⟩
  rw [LockFreeQueue.run_same, LockFreeQueue.new_same]
  exact key

/-- Instance of claim C2: enqueue 1, 2, 3 (the tail swing of the first enqueue fails, so the
second enqueue first has to help `tail` along), then four calls of `dequeue` deliver 1, 2, 3 and
then report an empty queue, for both queue classes. -/
theorem C2_queue_order_witness :
    (∃ st, MichaelScottQueue.run (Allocator.reuse (Node Nat))
        ([(1, [false, true]), (2, [true]), (3, [])].map (fun x => (QueueOp.enqueue x.1, x.2)) ++
          [[], [true], []].map (fun o => (QueueOp.dequeue, o)) ++ [(QueueOp.dequeue, [])])
        0 (MichaelScottQueue.new (Allocator.reuse (Node Nat)) 9 []) =
      some (st, 3, [(true, 1), (true, 2), (true, 3), (false, 3)])) ∧
    (∃ st, LockFreeQueue.run (Allocator.reuse (Node Nat))
        ([(1, [false, true]), (2, [true]), (3, [])].map (fun x => (QueueOp.enqueue x.1, x.2)) ++
          [[], [true], []].map (fun o => (QueueOp.dequeue, o)) ++ [(QueueOp.dequeue, [])])
        0 (LockFreeQueue.new (Allocator.reuse (Node Nat)) 9 []) =
      some (st, 3, [(true, 1), (true, 2), (true, 3), (false, 3)])) :=
  C2_queue_order (Allocator.reuse (Node Nat)) 9 []
    [(1, [false, true]), (2, [true]), (3, [])] [[], [true], []] rfl [] 0

/-- Claim C3.  Representation invariant of `LockFreeStack`: after any sequence of `push` and
`pop` calls by one thread on a new stack (any interleaving, any allocation policy, any spurious
CAS failures) every call has returned and
* the payloads along the chain from `head` are the content of the list model, i.e. the values
  pushed and not yet popped, most recently pushed first;
* the calls of `pop` have returned what the list model returns: the first element of the list,
  which is removed, or `false` when the list is empty;
* `empty()` is true exactly when that list is empty. -/
theorem C3_stack_representation {T : Type} (A : Allocator (Node T)) (me : Nat)
    (heap : Mem (Node T)) (next_thread_id : Int) (thread_id : Nat → Int)
    (htid : LockFreeStack.TidOK me next_thread_id thread_id)
    (cs : List (LockFreeStack.Op T × List Bool)) (result : T) :
    ∃ st,
      LockFreeStack.run A me cs result (LockFreeStack.new heap next_thread_id thread_id) =
        some (st, (LockFreeStack.model (cs.map Prod.fst) [] result).2.1,
              (LockFreeStack.model (cs.map Prod.fst) [] result).2.2) ∧
      (∀ fuel, (LockFreeStack.model (cs.map Prod.fst) [] result).1.length ≤ fuel →
        payloads st.heap fuel st.head =
          some (LockFreeStack.model (cs.map Prod.fst) [] result).1) ∧
      (LockFreeStack.empty st = true ↔
        (LockFreeStack.model (cs.map Prod.fst) [] result).1 = []) := by
  obtain ⟨st, cells, hinv, hm, hrun⟩ := LockFreeStack.run_model A me cs result _ []
    (LockFreeStack.Inv.of_new me heap next_thread_id thread_id htid)
  simp only [List.map_nil] at hm hrun
  refine ⟨st, hrun, ?_, ?_⟩
  · intro fuel hfuel
    rw [← hm] at hfuel ⊢
    exact Chain.payloads_eq hinv.chain fuel (by simpa using hfuel)
  · rw [← hm]
    have hc := hinv.chain
    cases cells with
    | nil =>
      have : st.head = none := hc
      simp [LockFreeStack.empty, this]
    | cons c cells =>
      have : st.head = some c.1 := hc.1
      simp [LockFreeStack.empty, this]

/-- Instance of claim C3: push 1, push 2, pop, push 3 with some spurious CAS failures leaves
3 and 1 on the stack. -/
theorem C3_stack_representation_witness :
    ∃ st,
      LockFreeStack.run (Allocator.reuse (Node Nat)) 0
          [(LockFreeStack.Op.push 1, []), (LockFreeStack.Op.push 2, [true, true]),
           (LockFreeStack.Op.pop, [true]), (LockFreeStack.Op.push 3, [])]
          0 (LockFreeStack.new [] 0 (fun _ => -1)) =
        some (st, 2, [(true, 2)]) ∧
      (∀ fuel, 2 ≤ fuel → payloads st.heap fuel st.head = some [3, 1]) ∧
      (LockFreeStack.empty st = true ↔ [3, 1] = []) :=
  C3_stack_representation (Allocator.reuse (Node Nat)) 0 [] 0 (fun _ => -1)
    (Or.inl (by decide)) _ 0

/-- Claim C4.  Dummy-node invariant of `MichaelScottQueue`: in a new queue `head` and `tail`
refer to the same node, whose `next` is null; and after any sequence of `enqueue` and `dequeue`
calls (any allocation policy, any spurious CAS failures) every call has returned, `head` is not
null, `empty()` is defined, and `empty()` returns true exactly when as many `dequeue` calls have
delivered a value as there were `enqueue` calls. -/
theorem C4_queue_dummy_node {T : Type} (A : Allocator (Node T)) (junk : T)
    (heap : Mem (Node T)) :
    ((MichaelScottQueue.new A junk heap).head = (MichaelScottQueue.new A junk heap).tail ∧
      ∃ d n, (MichaelScottQueue.new A junk heap).head = some d ∧
        (MichaelScottQueue.new A junk heap).heap.read d = some n ∧ n.next = none) ∧
    ∀ (cs : List (QueueOp T × List Bool)) (result : T),
      ∃ st r outs,
        MichaelScottQueue.run A cs result (MichaelScottQueue.new A junk heap) =
          some (st, r, outs) ∧
        st.head ≠ none ∧
        (∃ b, MichaelScottQueue.empty st = some b) ∧
        (MichaelScottQueue.empty st = some true ↔
          (outs.filter (fun x => x.1)).length =
            ((cs.map Prod.fst).filter QueueOp.isEnqueue).length) := by
  constructor
  · refine ⟨rfl, A.pick heap, { data := junk, next := none }, rfl, ?_, rfl⟩
    simp [MichaelScottQueue.new, Mem.read_write_same]
  · intro cs result
    obtain ⟨st, d, cells, hinv, hm, hrun⟩ := MichaelScottQueue.queue_run_model A cs result _ _ []
      (MichaelScottQueue.QueueInv_new A junk heap)
    simp only [List.map_nil] at hm hrun
    have hcount := queue_model_count (cs.map Prod.fst) [] result
    rw [← hm] at hcount
    simp only [List.length_map, List.length_nil, Nat.zero_add] at hcount
    obtain ⟨hh, hc⟩ := hinv.chain
    have hh1 : st.head = some d.1 := hh
    refine ⟨st, _, _, hrun, by simp [hh1], ?_⟩
    cases hr : st.heap.read d.1 with
    | none => simp [hr] at hc
    | some n =>
      simp only [hr] at hc
      have hempty : MichaelScottQueue.empty st = some (decide (n.next = none)) := by
        simp [MichaelScottQueue.empty, hh1, Mem.deref, hr]
      refine ⟨⟨_, hempty⟩, ?_⟩
      rw [hempty]
      cases cells with
      | nil =>
        have hn : n.next = none := hc.2
        simp only [List.length_nil, Nat.zero_add] at hcount
        simp [hn, hcount]
      | cons c cells =>
        have hn : n.next = some c.1 := hc.2.1
        simp only [List.length_cons] at hcount
        simp only [hn, reduceCtorEq, decide_False, Option.some.injEq, Bool.false_eq_true,
          false_iff]
        omega

/-- Claim C5.  Tail invariant of `MichaelScottQueue`: after any sequence of `enqueue` and
`dequeue` calls on a new queue, with any spurious CAS failures (in particular of the CAS that
swings `tail` after a successful link), `tail` refers to a node of the chain that starts at
`head`, and that node is the last one (`tail.next` is null) or the one before the last
(`tail.next.next` is null).  The second case does occur: when the swing fails in the first
`enqueue`, `tail` is left one node behind. -/
theorem C5_queue_tail {T : Type} (A : Allocator (Node T)) (junk : T) (heap : Mem (Node T)) :
    (∀ (cs : List (QueueOp T × List Bool)) (result : T),
      ∃ st r outs,
        MichaelScottQueue.run A cs result (MichaelScottQueue.new A junk heap) =
          some (st, r, outs) ∧
        ∃ chain t tn, Chain st.heap st.head chain ∧ st.tail = some t ∧
          t ∈ chain.map Prod.fst ∧ st.heap.read t = some tn ∧
          (tn.next = none ∨
            ∃ z zn, tn.next = some z ∧ st.heap.read z = some zn ∧ zn.next = none)) ∧
    (∀ v : T, ∃ st t tn z,
      MichaelScottQueue.enqueue A [false, true] 1 v (MichaelScottQueue.new A junk heap) =
        some st ∧
      st.tail = some t ∧ st.heap.read t = some tn ∧ tn.next = some z) := by
  constructor
  · intro cs result
    obtain ⟨st, d, cells, hinv, _, hrun⟩ := MichaelScottQueue.queue_run_model A cs result _ _ []
      (MichaelScottQueue.QueueInv_new A junk heap)
    refine ⟨st, _, _, hrun, d :: cells, ?_⟩
    have hch := hinv.chain
    rcases hinv.tail with ⟨front, t, heq, ht⟩ | ⟨front, t, z, heq, ht⟩
    · rw [heq] at hch
      obtain ⟨n, hr, _, hnext⟩ := Chain.split hch
      have hn : n.next = none := hnext
      refine ⟨t.1, n, hinv.chain, ht, ?_, hr, Or.inl hn⟩
      rw [heq]
      simp
    · rw [heq] at hch
      obtain ⟨n, hr, _, hnext⟩ := Chain.split hch
      have hn : n.next = some z.1 := hnext.1
      have hch2 : Chain st.heap st.head ((front ++ [t]) ++ z :: []) := by simpa using hch
      obtain ⟨nz, hrz, _, hnz⟩ := Chain.split hch2
      have hnz1 : nz.next = none := hnz
      refine ⟨t.1, n, hinv.chain, ht, ?_, hr, Or.inr ⟨z.1, nz, hn, hrz, hnz1⟩⟩
      rw [heq]
      simp
  · intro v
    have hne : A.pick heap ≠
        A.pick (heap.write (A.pick heap) { data := junk, next := none }) := by
      intro e
      have := A.fresh (heap.write (A.pick heap) { data := junk, next := none })
      rw [← e, Mem.read_write_same] at this
      cases this
    let st0 := MichaelScottQueue.new A junk heap
    let nn := A.pick st0.heap
    have hr : (st0.heap.write nn { data := v, next := none }).read (A.pick heap) =
        some { data := junk, next := none } := by
      have h1 := Mem.read_write_ne st0.heap nn (A.pick heap) { data := v, next := none } hne
      rw [h1]
      simp [st0, MichaelScottQueue.new, Mem.read_write_same]
    have henq : MichaelScottQueue.enqueue A [false, true] 1 v st0 =
        some { head := st0.head, tail := some (A.pick heap),
               heap := (st0.heap.write nn { data := v, next := none }).write (A.pick heap)
                 { data := junk, next := some nn } } := by
      unfold MichaelScottQueue.enqueue MichaelScottQueue.enqueue_loop
      rw [MichaelScottQueue.enqueue_body_link nn [false, true]
        { st0 with heap := st0.heap.write nn { data := v, next := none } }
        (A.pick heap) { data := junk, next := none } rfl hr rfl]
      rfl
    exact ⟨_, A.pick heap, { data := junk, next := some nn }, nn, henq, rfl,
      Mem.read_write_same _ _ _, rfl⟩

/-- Claim C6.  `pop` on an empty `LockFreeStack` is a normal result: in every state whose `head`
is null, a call by a thread that can be given a hazard slot returns `false` after one loop
iteration, whatever the schedule of spurious CAS failures; `head` is still null, `result`, the
retire list, the retired count and the free store are unchanged, slot 0 of the calling thread
holds null, and every other hazard slot is unchanged. -/
theorem C6_stack_pop_empty {T : Type} (me : Nat) (o : List Bool) (fuel : Nat) (result : T)
    (st : LockFreeStack.State T)
    (htid : LockFreeStack.TidOK me st.next_thread_id st.thread_id)
    (hhead : st.head = none) (hfuel : 0 < fuel) :
    ∃ st1 i,
      LockFreeStack.pop me o fuel result st = some (st1, result, false) ∧
      st1.head = none ∧
      st1.retired_list = st.retired_list ∧
      st1.retired_count = st.retired_count ∧
      st1.heap = st.heap ∧
      LockFreeStack.slot (st1.thread_id me) 0 = some i ∧
      st1.hazards i = none ∧
      ∀ j, j ≠ i → st1.hazards j = st.hazards j := by
  obtain ⟨f1, f2, f3, f4, f5⟩ := LockFreeStack.registered_fields me st
  have hr := LockFreeStack.get_thread_id_range me st htid
  refine ⟨_, LockFreeStack.my_slot me st,
    LockFreeStack.pop_empty me o fuel result st htid hhead hfuel, ?_, f3, f4, f5, ?_, ?_, ?_⟩
  · show (LockFreeStack.registered me st).head = none
    rw [f1, hhead]
  · show LockFreeStack.slot ((LockFreeStack.registered me st).thread_id me) 0 = _
    rw [LockFreeStack.registered_thread_id me st htid, LockFreeStack.slot_eq _ hr.1 hr.2]
    rfl
  · show Function.update _ _ _ _ = _
    simp
  · intro j hj
    show Function.update _ _ _ _ = _
    rw [Function.update_noteq hj, f2]

/-- Instance of claim C6: a stack whose `head` is null, with two retired nodes and a foreign
hazard slot in use; the calling thread has no id yet and is given id 1, that is slot 2. -/
theorem C6_stack_pop_empty_witness :
    ∃ st1 i,
      LockFreeStack.pop 5 [true] 1 (7 : Nat)
        { head := none, hazards := fun j => if j = 0 then some 1 else none,
          retired_list := [some 0, some 1], retired_count := 2, next_thread_id := 1,
          thread_id := fun t => if t = 4 then 0 else -1,
          heap := [some { data := 10, next := none }, some { data := 11, next := none }] } =
        some (st1, 7, false) ∧
      st1.head = none ∧
      st1.retired_list = [some 0, some 1] ∧
      st1.retired_count = 2 ∧
      st1.heap = [some { data := 10, next := none }, some { data := 11, next := none }] ∧
      LockFreeStack.slot (st1.thread_id 5) 0 = some i ∧
      st1.hazards i = none ∧
      ∀ j, j ≠ i → st1.hazards j = (fun j => if j = 0 then some 1 else none) j :=
  C6_stack_pop_empty 5 [true] 1 7 _ (Or.inl (by decide)) rfl (by decide)

/-- Claim C7.  `dequeue` on an empty queue: in every state in which `head` and `tail` refer to
the same live node and the `next` of that node is null, `dequeue` returns `false` after one loop
iteration and leaves the whole state (`head`, `tail`, every node) and `result` unchanged, for
`MichaelScottQueue` and for `LockFreeQueue`; in particular this is what `dequeue` does on a
newly constructed queue. -/
theorem C7_queue_dequeue_empty {T : Type} (o : List Bool) (fuel : Nat) (result : T)
    (st : QueueState T) (f : Nat) (n : Node T)
    (hhead : st.head = some f) (htail : st.tail = some f)
    (hread : st.heap.read f = some n) (hnext : n.next = none) (hfuel : 0 < fuel) :
    MichaelScottQueue.dequeue o fuel result st = some (st, result, false) ∧
    LockFreeQueue.dequeue o fuel result st = some (st, result, false) ∧
    ∀ (A : Allocator (Node T)) (junk : T) (heap : Mem (Node T)),
      MichaelScottQueue.dequeue o fuel result (MichaelScottQueue.new A junk heap) =
        some (MichaelScottQueue.new A junk heap, result, false) ∧
      LockFreeQueue.dequeue o fuel result (LockFreeQueue.new A junk heap) =
        some (LockFreeQueue.new A junk heap, result, false) := by
  obtain ⟨k, rfl⟩ : ∃ k, fuel = k + 1 := ⟨fuel - 1, by omega⟩
  have key : ∀ (s : QueueState T) (g : Nat) (m : Node T), s.head = some g → s.tail = some g →
      s.heap.read g = some m → m.next = none →
      MichaelScottQueue.dequeue o (k + 1) result s = some (s, result, false) := by
    intro s g m h1 h2 h3 h4
    unfold MichaelScottQueue.dequeue MichaelScottQueue.dequeue_loop
    rw [MichaelScottQueue.dequeue_body_empty o result s g m h1 h2 h3 h4]
  have hnew : ∀ (A : Allocator (Node T)) (junk : T) (heap : Mem (Node T)),
      MichaelScottQueue.dequeue o (k + 1) result (MichaelScottQueue.new A junk heap) =
        some (MichaelScottQueue.new A junk heap, result, false) := by
    intro A junk heap
    exact key _ (A.pick heap) { data := junk, next := none } rfl rfl
      (by simp [MichaelScottQueue.new, Mem.read_write_same]) rfl
  refine ⟨key st f n hhead htail hread hnext, ?_, fun A junk heap => ⟨hnew A junk heap, ?_⟩⟩
  · rw [LockFreeQueue.dequeue_same]
    exact key st f n hhead htail hread hnext
  · rw [LockFreeQueue.dequeue_same, LockFreeQueue.new_same]
    exact hnew A junk heap

/-- Instance of claim C7: a queue whose only node is the dummy at address 1. -/
theorem C7_queue_dequeue_empty_witness :
    MichaelScottQueue.dequeue [true] 1 (7 : Nat)
        { head := some 1, tail := some 1, heap := [none, some { data := 3, next := none }] } =
      some ({ head := some 1, tail := some 1,
              heap := [none, some { data := 3, next := none }] }, 7, false) ∧
    LockFreeQueue.dequeue [true] 1 (7 : Nat)
        { head := some 1, tail := some 1, heap := [none, some { data := 3, next := none }] } =
      some ({ head := some 1, tail := some 1,
              heap := [none, some { data := 3, next := none }] }, 7, false) ∧
    ∀ (A : Allocator (Node Nat)) (junk : Nat) (heap : Mem (Node Nat)),
      MichaelScottQueue.dequeue [true] 1 7 (MichaelScottQueue.new A junk heap) =
        some (MichaelScottQueue.new A junk heap, 7, false) ∧
      LockFreeQueue.dequeue [true] 1 7 (LockFreeQueue.new A junk heap) =
        some (LockFreeQueue.new A junk heap, 7, false) :=
  C7_queue_dequeue_empty [true] 1 7 _ 1 { data := 3, next := none } rfl rfl rfl rfl
    (by decide)

/-- Claim C8.  No permanent false-empty.  Take any sequence of earlier calls on a new
`LockFreeStack`; it returns, in a state `st0`, with `result` holding `r0`.
* If the stack is then empty (`empty()` is true), the three further calls `pop`, `push(v)`,
  `pop` return: the first `pop` returns `false` and leaves `r0` in `result`, and the second
  `pop` returns `true` and delivers `v`.
* If the stack is not empty the first `pop` returns `true` (it never reports empty then), and
  the second `pop` again returns `true` and delivers `v`.
Likewise for `dequeue`, `enqueue(v)`, `dequeue` after any sequence of earlier calls on a new
`MichaelScottQueue`, where `empty()` is always defined: on an empty queue the first `dequeue`
returns `false` and the second returns `true` and delivers `v`; on a queue that is not empty
both return `true`.  This holds for every value `v`, every allocation policy and every schedule
of spurious CAS failures. -/
theorem C8_no_permanent_false_empty {T : Type} (A : Allocator (Node T)) (me : Nat)
    (heap : Mem (Node T)) (next_thread_id : Int) (thread_id : Nat → Int)
    (htid : LockFreeStack.TidOK me next_thread_id thread_id) (junk : T)
    (cs : List (LockFreeStack.Op T × List Bool)) (qs : List (QueueOp T × List Bool))
    (o1 o2 o3 : List Bool) (v result : T) :
    (∃ st0 r0 outs0,
      LockFreeStack.run A me cs result (LockFreeStack.new heap next_thread_id thread_id) =
        some (st0, r0, outs0) ∧
      (LockFreeStack.empty st0 = true →
        ∃ st, LockFreeStack.run A me
            (cs ++ [(LockFreeStack.Op.pop, o1), (LockFreeStack.Op.push v, o2),
                    (LockFreeStack.Op.pop, o3)])
            result (LockFreeStack.new heap next_thread_id thread_id) =
          some (st, v, outs0 ++ [(false, r0), (true, v)])) ∧
      (LockFreeStack.empty st0 = false →
        ∃ st w, LockFreeStack.run A me
            (cs ++ [(LockFreeStack.Op.pop, o1), (LockFreeStack.Op.push v, o2),
                    (LockFreeStack.Op.pop, o3)])
            result (LockFreeStack.new heap next_thread_id thread_id) =
          some (st, v, outs0 ++ [(true, w), (true, v)]))) ∧
    (∃ st0 r0 outs0,
      MichaelScottQueue.run A qs result (MichaelScottQueue.new A junk heap) =
        some (st0, r0, outs0) ∧
      (∃ b, MichaelScottQueue.empty st0 = some b) ∧
      (MichaelScottQueue.empty st0 = some true →
        ∃ st, MichaelScottQueue.run A
            (qs ++ [(QueueOp.dequeue, o1), (QueueOp.enqueue v, o2), (QueueOp.dequeue, o3)])
            result (MichaelScottQueue.new A junk heap) =
          some (st, v, outs0 ++ [(false, r0), (true, v)])) ∧
      (MichaelScottQueue.empty st0 = some false →
        ∃ st w x, MichaelScottQueue.run A
            (qs ++ [(QueueOp.dequeue, o1), (QueueOp.enqueue v, o2), (QueueOp.dequeue, o3)])
            result (MichaelScottQueue.new A junk heap) =
          some (st, x, outs0 ++ [(true, w), (true, x)]))) := by
  constructor
  · obtain ⟨st0, cells0, hi0, _, hrun0⟩ := LockFreeStack.run_model A me cs result _ []
      (LockFreeStack.Inv.of_new me heap next_thread_id thread_id htid)
    obtain ⟨st, cells, _, _, hrun⟩ := LockFreeStack.run_model A me
      [(LockFreeStack.Op.pop, o1), (LockFreeStack.Op.push v, o2), (LockFreeStack.Op.pop, o3)]
      (LockFreeStack.model (cs.map Prod.fst) (([] : List (Nat × T)).map Prod.snd) result).2.1
      st0 cells0 hi0
    refine ⟨st0, _, _, hrun0, ?_, ?_⟩
    · intro he
      have hc : cells0 = [] := by
        cases cells0 with
        | nil => rfl
        | cons c cells0 =>
          have hh : st0.head = some c.1 := hi0.chain.1
          simp [LockFreeStack.empty, hh] at he
      subst hc
      refine ⟨st, ?_⟩
      rw [LockFreeStack.run_append, hrun0]
      simp only
      rw [hrun]
      simp [LockFreeStack.model]
    · intro he
      cases cells0 with
      | nil =>
        have hh : st0.head = none := hi0.chain
        simp [LockFreeStack.empty, hh] at he
      | cons c cells0 =>
        refine ⟨st, c.2, ?_⟩
        rw [LockFreeStack.run_append, hrun0]
        simp only
        rw [hrun]
        simp [LockFreeStack.model]
  · obtain ⟨st0, d0, cells0, hi0, _, hrun0⟩ := MichaelScottQueue.queue_run_model A qs result
      _ _ [] (MichaelScottQueue.QueueInv_new A junk heap)
    obtain ⟨st, d, cells, _, _, hrun⟩ := MichaelScottQueue.queue_run_model A
      [(QueueOp.dequeue, o1), (QueueOp.enqueue v, o2), (QueueOp.dequeue, o3)]
      (queue_model (qs.map Prod.fst) (([] : List (Nat × T)).map Prod.snd) result).2.1
      st0 d0 cells0 hi0
    obtain ⟨hh, hc⟩ := hi0.chain
    have hh1 : st0.head = some d0.1 := hh
    cases hr : st0.heap.read d0.1 with
    | none => simp [hr] at hc
    | some n =>
      simp only [hr] at hc
      have hempty : MichaelScottQueue.empty st0 = some (decide (n.next = none)) := by
        simp [MichaelScottQueue.empty, hh1, Mem.deref, hr]
      refine ⟨st0, _, _, hrun0, ⟨_, hempty⟩, ?_, ?_⟩
      · intro he
        have hc0 : cells0 = [] := by
          cases cells0 with
          | nil => rfl
          | cons c cells0 =>
            have hn : n.next = some c.1 := hc.2.1
            rw [hempty] at he
            simp [hn] at he
        subst hc0
        refine ⟨st, ?_⟩
        rw [MichaelScottQueue.queue_run_append, hrun0]
        simp only
        rw [hrun]
        simp [queue_model]
      · intro he
        cases cells0 with
        | nil =>
          have hn : n.next = none := hc.2
          rw [hempty] at he
          simp [hn] at he
        | cons c cells0 =>
          cases cells0 with
          | nil =>
            refine ⟨st, c.2, v, ?_⟩
            rw [MichaelScottQueue.queue_run_append, hrun0]
            simp only
            rw [hrun]
            simp [queue_model]
          | cons c2 cells0 =>
            refine ⟨st, c.2, c2.2, ?_⟩
            rw [MichaelScottQueue.queue_run_append, hrun0]
            simp only
            rw [hrun]
            simp [queue_model]

/-- Instance of claim C8 with no earlier calls: on a new stack and on a new queue the first
removal reports empty and leaves 0 in `result`, and after inserting 4 the second removal
returns `true` and delivers 4. -/
theorem C8_no_permanent_false_empty_witness :
    (∃ st,
      LockFreeStack.run (Allocator.bump (Node Nat)) 0
          ([] ++ [(LockFreeStack.Op.pop, [true]), (LockFreeStack.Op.push 4, [true]),
                  (LockFreeStack.Op.pop, [])])
          0 (LockFreeStack.new [] 0 (fun _ => -1)) =
        some (st, 4, [] ++ [(false, 0), (true, 4)])) ∧
    (∃ st,
      MichaelScottQueue.run (Allocator.bump (Node Nat))
          ([] ++ [(QueueOp.dequeue, [true]), (QueueOp.enqueue 4, [true]),
                  (QueueOp.dequeue, [])])
          0 (MichaelScottQueue.new (Allocator.bump (Node Nat)) 9 []) =
        some (st, 4, [] ++ [(false, 0), (true, 4)])) := by
  obtain ⟨⟨st0, r0, outs0, h0, h1, _⟩, ⟨q0, r1, outs1, g0, _, g1, _⟩⟩ :=
    C8_no_permanent_false_empty (Allocator.bump (Node Nat)) 0 [] 0 (fun _ => -1)
      (Or.inl (by decide)) 9 [] [] [true] [true] [] 4 0
  simp only [LockFreeStack.run, Option.some.injEq, Prod.mk.injEq] at h0
  obtain ⟨rfl, rfl, rfl⟩ := h0
  simp only [MichaelScottQueue.run, Option.some.injEq, Prod.mk.injEq] at g0
  obtain ⟨rfl, rfl, rfl⟩ := g0
  exact ⟨h1 rfl, g1 rfl⟩

/-- Claim C9.  Hazard invariant.  Whenever `scan_and_reclaim` of `LockFreeStack` returns, every
pointer that is published in some hazard slot (of any thread) and is in the retire list is still
in the retire list afterwards, and the node it refers to has not been freed: its cell is
unchanged.  The same holds for `scan_and_delete` of `HazardPointerStack`.  Both scans do return
whenever the retired nodes that are not hazardous are live and pairwise different. -/
theorem C9_hazard_invariant :
    (∀ (T : Type) (st st1 : LockFreeStack.State T),
      LockFreeStack.scan_and_reclaim st = some st1 →
      ∀ (i : Nat) (p : Ptr), i < LockFreeStack.MAX_THREADS * LockFreeStack.MAX_HAZARDS →
        st.hazards i = p → p ∈ st.retired_list →
        p ∈ st1.retired_list ∧ ∀ a, p = some a → st1.heap.read a = st.heap.read a) ∧
    (∀ (st st1 : HazardPointerStack.State),
      HazardPointerStack.scan_and_delete st = some st1 →
      ∀ (i : Nat) (p : Ptr), i < HazardPointer.MAX_THREADS →
        st.hp i = p → p ∈ st.retired_nodes →
        p ∈ st1.retired_nodes ∧ ∀ a, p = some a → st1.heap.read a = st.heap.read a) ∧
    (∀ (T : Type) (st : LockFreeStack.State T),
      Deletable st.heap (st.retired_list.filter (fun p => !LockFreeStack.is_hazardous st p)) →
      ∃ st1, LockFreeStack.scan_and_reclaim st = some st1) ∧
    (∀ (st : HazardPointerStack.State),
      Deletable st.heap
        (st.retired_nodes.filter (fun p => !HazardPointer.is_hazardous st.hp p)) →
      ∃ st1, HazardPointerStack.scan_and_delete st = some st1) := by
  refine ⟨?_, ?_, ?_, ?_⟩
  · intro T st st1 hscan i p hi hp hmem
    have hz : LockFreeStack.is_hazardous st p = true :=
      (LockFreeStack.is_hazardous_iff st p).mpr ⟨i, hi, hp⟩
    unfold LockFreeStack.scan_and_reclaim at hscan
    cases hl : LockFreeStack.scan_loop st st.retired_list st.heap [] with
    | none => simp [hl] at hscan
    | some r =>
      simp only [hl, Option.some.injEq] at hscan
      obtain ⟨h1, h2⟩ := LockFreeStack.scan_loop_sound st _ _ _ r hl
      subst hscan
      refine ⟨?_, ?_⟩
      · show p ∈ r.2
        rw [h1]
        simp [hmem, hz]
      · rintro a rfl
        show r.1.read a = _
        rw [h2 a]
        simp [hz]
  · intro st st1 hscan i p hi hp hmem
    have hz : HazardPointer.is_hazardous st.hp p = true :=
      (HazardPointerStack.is_hazardous_iff_slot st.hp p).mpr ⟨i, hi, hp⟩
    unfold HazardPointerStack.scan_and_delete at hscan
    cases hl : HazardPointerStack.scan_loop st st.retired_nodes st.heap [] with
    | none => simp [hl] at hscan
    | some r =>
      simp only [hl, Option.some.injEq] at hscan
      obtain ⟨h1, h2⟩ := HazardPointerStack.scan_delete_sound st _ _ _ r hl
      subst hscan
      refine ⟨?_, ?_⟩
      · show p ∈ r.2
        rw [h1]
        simp [hmem, hz]
      · rintro a rfl
        show r.1.read a = _
        rw [h2 a]
        simp [hz]
  · intro T st hdel
    obtain ⟨r, hr⟩ := LockFreeStack.scan_loop_defined st st.retired_list st.heap [] hdel
    exact ⟨_, by unfold LockFreeStack.scan_and_reclaim; rw [hr]⟩
  · intro st hdel
    obtain ⟨r, hr⟩ := HazardPointerStack.scan_delete_defined st st.retired_nodes st.heap [] hdel
    exact ⟨_, by unfold HazardPointerStack.scan_and_delete; rw [hr]⟩

/-- Instance of claim C9 on the example states: nodes 0, 1 and 2 are retired, node 1 is
published in hazard slot 3; the scans return and node 1 is still retired and still live. -/
theorem C9_hazard_invariant_witness :
    (∃ st1, LockFreeStack.scan_and_reclaim LockFreeStack.example_state = some st1 ∧
      (some 1 ∈ st1.retired_list ∧
        ∀ a, some 1 = some a →
          st1.heap.read a = LockFreeStack.example_state.heap.read a)) ∧
    (∃ st1, HazardPointerStack.scan_and_delete HazardPointerStack.example_state = some st1 ∧
      (some 1 ∈ st1.retired_nodes ∧
        ∀ a, some 1 = some a →
          st1.heap.read a = HazardPointerStack.example_state.heap.read a)) := by
  constructor
  · obtain ⟨st1, h⟩ := C9_hazard_invariant.2.2.1 Nat LockFreeStack.example_state
      (Deletable.of_check _ _ (by decide) (by decide))
    exact ⟨st1, h, C9_hazard_invariant.1 Nat LockFreeStack.example_state st1 h 3 (some 1)
      (by decide) rfl (by decide)⟩
  · obtain ⟨st1, h⟩ := C9_hazard_invariant.2.2.2 HazardPointerStack.example_state
      (Deletable.of_check _ _ (by decide) (by decide))
    exact ⟨st1, h, C9_hazard_invariant.2.1 HazardPointerStack.example_state st1 h 3 (some 1)
      (by decide) rfl (by decide)⟩

/-- Claim C10.  `scan_and_reclaim` partitions the retire list.  In every state in which the
retired nodes that are not hazardous can be deleted (they are live and pairwise different) and
fewer than `2 ^ 31` retired nodes are hazardous, `scan_and_reclaim` returns and afterwards
* the retire list is the sub-list, in the original order, of the retired pointers for which
  `is_hazardous` is true;
* the nodes that have been freed are exactly the retired nodes for which `is_hazardous` is false,
  and every other cell of the free store is unchanged;
* every retired pointer is in exactly one of the two groups;
* `retired_count` is the length of the new retire list;
* `head`, the hazard slots and the thread ids are unchanged. -/
theorem C10_scan_partition {T : Type} (st : LockFreeStack.State T)
    (hdel : Deletable st.heap
      (st.retired_list.filter (fun p => !LockFreeStack.is_hazardous st p)))
    (hlen : (st.retired_list.filter (LockFreeStack.is_hazardous st)).length < 2 ^ 31) :
    ∃ st1,
      LockFreeStack.scan_and_reclaim st = some st1 ∧
      st1.retired_list = st.retired_list.filter (LockFreeStack.is_hazardous st) ∧
      (∀ a, (st.heap.read a ≠ none ∧ st1.heap.read a = none) ↔
        (some a ∈ st.retired_list ∧ LockFreeStack.is_hazardous st (some a) = false)) ∧
      (∀ a, st1.heap.read a ≠ none → st1.heap.read a = st.heap.read a) ∧
      (∀ p, p ∈ st.retired_list →
        (p ∈ st1.retired_list ∧ LockFreeStack.is_hazardous st p = true) ∨
        (p ∉ st1.retired_list ∧ LockFreeStack.is_hazardous st p = false)) ∧
      st1.retired_count = (st1.retired_list.length : Int) ∧
      st1.head = st.head ∧ st1.hazards = st.hazards ∧
      st1.next_thread_id = st.next_thread_id ∧ st1.thread_id = st.thread_id := by
  obtain ⟨r, hr⟩ := LockFreeStack.scan_loop_defined st st.retired_list st.heap [] hdel
  obtain ⟨h1, h2⟩ := LockFreeStack.scan_loop_sound st _ _ _ r hr
  simp only [List.nil_append] at h1
  refine ⟨{ st with heap := r.1, retired_list := r.2,
                    retired_count := wrap32 (r.2.length : Int) }, ?_, h1, ?_, ?_, ?_, ?_,
    rfl, rfl, rfl, rfl⟩
  · unfold LockFreeStack.scan_and_reclaim
    rw [hr]
  · intro a
    show (st.heap.read a ≠ none ∧ r.1.read a = none) ↔ _
    rw [h2 a]
    constructor
    · rintro ⟨hlive, hnone⟩
      by_contra hc
      rw [if_neg hc] at hnone
      exact hlive hnone
    · intro hc
      refine ⟨hdel.1 a ?_, by rw [if_pos hc]⟩
      simp [List.mem_filter, hc.1, hc.2]
  · intro a
    show r.1.read a ≠ none → r.1.read a = _
    rw [h2 a]
    split
    · intro h
      exact absurd rfl h
    · intro _
      rfl
  · intro p hp
    show (p ∈ r.2 ∧ _) ∨ (p ∉ r.2 ∧ _)
    rw [h1]
    cases hz : LockFreeStack.is_hazardous st p with
    | true => exact Or.inl ⟨by simp [List.mem_filter, hp, hz], rfl⟩
    | false => exact Or.inr ⟨by simp [List.mem_filter, hz], rfl⟩
  · show wrap32 (r.2.length : Int) = (r.2.length : Int)
    apply wrap32_of_small
    · omega
    · rw [h1]
      exact_mod_cast hlen

/-- Instance of claim C10 on the example state: nodes 0, 1 and 2 are retired and node 1 is
published in hazard slot 3; the scan frees nodes 0 and 2 and keeps node 1. -/
theorem C10_scan_partition_witness :
    ∃ st1,
      LockFreeStack.scan_and_reclaim LockFreeStack.example_state = some st1 ∧
      st1.retired_list = [some 1] ∧ st1.retired_count = 1 ∧
      st1.heap.read 0 = none ∧ st1.heap.read 2 = none ∧
      st1.heap.read 1 = some { data := 11, next := none } := by
  obtain ⟨st1, h1, h2, h3, h4, _, h6, _⟩ := C10_scan_partition LockFreeStack.example_state
    (Deletable.of_check _ _ (by decide) (by decide)) (by decide)
  have e : List.filter (LockFreeStack.is_hazardous LockFreeStack.example_state)
      LockFreeStack.example_state.retired_list = [some 1] := by decide
  rw [e] at h2
  refine ⟨st1, h1, h2, by rw [h6, h2]; rfl, ((h3 0).mpr ⟨by decide, by decide⟩).2,
    ((h3 2).mpr ⟨by decide, by decide⟩).2, ?_⟩
  have h7 := (h3 1).not.mpr (by decide)
  have h8 : st1.heap.read 1 ≠ none := by
    intro hn
    exact h7 ⟨by decide, hn⟩
  rw [h4 1 h8]
  rfl

/-- Claim C11.  `is_hazardous(node)` of `LockFreeStack` returns true exactly when one of the
`MAX_THREADS * MAX_HAZARDS` hazard slots, of any thread `t` and any index `k`, holds a pointer
equal to `node`; `is_hazardous` of `HazardPointer` returns true exactly when one of its
`MAX_THREADS` slots does.  Both only load the slots: they are functions of the table that yield a
boolean and no new table. -/
theorem C11_is_hazardous :
    (∀ (T : Type) (st : LockFreeStack.State T) (node : Ptr),
      LockFreeStack.is_hazardous st node = true ↔
        ∃ t k, t < LockFreeStack.MAX_THREADS ∧ k < LockFreeStack.MAX_HAZARDS ∧
          st.hazards (t * LockFreeStack.MAX_HAZARDS + k) = node) ∧
    (∀ (hazard_ptrs : Nat → Ptr) (node : Ptr),
      HazardPointer.is_hazardous hazard_ptrs node = true ↔
        ∃ t, t < HazardPointer.MAX_THREADS ∧ hazard_ptrs t = node) :=
  ⟨fun _ st node => LockFreeStack.is_hazardous_iff_thread st node,
   fun hazard_ptrs node => HazardPointerStack.is_hazardous_iff_slot hazard_ptrs node⟩

/-- Claim C12.  Frame property of publish and clear.  Let thread `me` have, or be given, the
thread id `t` below `MAX_THREADS`, and let `index` be 0 or 1.  Then `set_hazard_pointer(index, p)`
makes slot `t * MAX_HAZARDS + index` hold `p`, so that `is_hazardous(p)` is true afterwards, and
`clear_hazard_pointer(index)` makes that slot hold null.  In both cases every other slot, `head`,
the retire list, the retired count and the free store are unchanged, and the thread keeps the id
`t`. -/
theorem C12_publish_clear_frame {T : Type} (me : Nat) (index : Int) (p : Ptr)
    (st : LockFreeStack.State T)
    (htid : LockFreeStack.TidOK me st.next_thread_id st.thread_id)
    (hi0 : 0 ≤ index) (hi1 : index < (LockFreeStack.MAX_HAZARDS : Int)) :
    ∃ st1 st2 i,
      i = ((LockFreeStack.get_thread_id me st).1 * (LockFreeStack.MAX_HAZARDS : Int)
            + index).toNat ∧
      LockFreeStack.set_hazard_pointer me index p st = some st1 ∧
      st1.hazards i = p ∧ LockFreeStack.is_hazardous st1 p = true ∧
      (∀ j, j ≠ i → st1.hazards j = st.hazards j) ∧
      st1.head = st.head ∧ st1.retired_list = st.retired_list ∧
      st1.retired_count = st.retired_count ∧ st1.heap = st.heap ∧
      st1.thread_id me = (LockFreeStack.get_thread_id me st).1 ∧
      LockFreeStack.clear_hazard_pointer me index st = some st2 ∧
      st2.hazards i = none ∧
      (∀ j, j ≠ i → st2.hazards j = st.hazards j) ∧
      st2.head = st.head ∧ st2.retired_list = st.retired_list ∧
      st2.retired_count = st.retired_count ∧ st2.heap = st.heap ∧
      st2.thread_id me = (LockFreeStack.get_thread_id me st).1 := by
  obtain ⟨f1, f2, f3, f4, f5⟩ := LockFreeStack.registered_fields me st
  have hr := LockFreeStack.get_thread_id_range me st htid
  obtain ⟨hs, hlt⟩ := LockFreeStack.slot_of_index _ index hr.1 hr.2 hi0 hi1
  have ht := LockFreeStack.registered_thread_id me st htid
  refine ⟨{ LockFreeStack.registered me st with
            hazards := Function.update (LockFreeStack.registered me st).hazards
              ((LockFreeStack.get_thread_id me st).1 * (LockFreeStack.MAX_HAZARDS : Int)
                + index).toNat p },
          { LockFreeStack.registered me st with
            hazards := Function.update (LockFreeStack.registered me st).hazards
              ((LockFreeStack.get_thread_id me st).1 * (LockFreeStack.MAX_HAZARDS : Int)
                + index).toNat none },
          _, rfl, ?_, ?_, ?_, ?_, f1, f3, f4, f5, ht, ?_, ?_, ?_, f1, f3, f4, f5, ht⟩
  · unfold LockFreeStack.set_hazard_pointer
    simp only [hs]
    rfl
  · show Function.update _ _ _ _ = _
    simp
  · rw [LockFreeStack.is_hazardous_iff]
    exact ⟨_, hlt, by show Function.update _ _ _ _ = _; simp⟩
  · intro j hj
    show Function.update _ _ _ _ = _
    rw [Function.update_noteq hj, f2]
  · unfold LockFreeStack.clear_hazard_pointer
    simp only [hs]
    rfl
  · show Function.update _ _ _ _ = _
    simp
  · intro j hj
    show Function.update _ _ _ _ = _
    rw [Function.update_noteq hj, f2]

/-- Instance of claim C12 on the example state: thread 7 has no id yet and is given id 2, so its
hazard index 1 is slot 5. -/
theorem C12_publish_clear_frame_witness :
    ∃ st1 st2 i,
      i = ((LockFreeStack.get_thread_id 7 LockFreeStack.example_state).1 *
            (LockFreeStack.MAX_HAZARDS : Int) + 1).toNat ∧
      LockFreeStack.set_hazard_pointer 7 1 (some 2) LockFreeStack.example_state = some st1 ∧
      st1.hazards i = some 2 ∧ LockFreeStack.is_hazardous st1 (some 2) = true ∧
      (∀ j, j ≠ i → st1.hazards j = LockFreeStack.example_state.hazards j) ∧
      st1.head = LockFreeStack.example_state.head ∧
      st1.retired_list = LockFreeStack.example_state.retired_list ∧
      st1.retired_count = LockFreeStack.example_state.retired_count ∧
      st1.heap = LockFreeStack.example_state.heap ∧
      st1.thread_id 7 = (LockFreeStack.get_thread_id 7 LockFreeStack.example_state).1 ∧
      LockFreeStack.clear_hazard_pointer 7 1 LockFreeStack.example_state = some st2 ∧
      st2.hazards i = none ∧
      (∀ j, j ≠ i → st2.hazards j = LockFreeStack.example_state.hazards j) ∧
      st2.head = LockFreeStack.example_state.head ∧
      st2.retired_list = LockFreeStack.example_state.retired_list ∧
      st2.retired_count = LockFreeStack.example_state.retired_count ∧
      st2.heap = LockFreeStack.example_state.heap ∧
      st2.thread_id 7 = (LockFreeStack.get_thread_id 7 LockFreeStack.example_state).1 :=
  C12_publish_clear_frame 7 1 (some 2) LockFreeStack.example_state (Or.inl (by decide))
    (by decide) (by decide)

/-- Claim C13.  Retire threshold.  When incrementing `retired_count` does not overflow the `int`,
`retire_node(node)` appends `node` to the retire list and adds one to `retired_count`; it then
runs `scan_and_reclaim` when the new count is greater than `2 * MAX_THREADS` = 256, and does
nothing more when the new count is at most 256: in that case the free store is unchanged (no
node is freed) and the retire list is one entry longer. -/
theorem C13_retire_threshold {T : Type} (node : Ptr) (st : LockFreeStack.State T)
    (hlo : -(2 ^ 31) ≤ st.retired_count) (hhi : st.retired_count < 2 ^ 31 - 1) :
    (2 * (LockFreeStack.MAX_THREADS : Int) < st.retired_count + 1 →
      LockFreeStack.retire_node node st =
        LockFreeStack.scan_and_reclaim
          { st with retired_list := st.retired_list ++ [node],
                    retired_count := st.retired_count + 1 }) ∧
    (st.retired_count + 1 ≤ 2 * (LockFreeStack.MAX_THREADS : Int) →
      ∃ st1, LockFreeStack.retire_node node st = some st1 ∧
        st1.retired_list = st.retired_list ++ [node] ∧
        st1.retired_list.length = st.retired_list.length + 1 ∧
        st1.retired_count = st.retired_count + 1 ∧
        st1.heap = st.heap ∧ st1.head = st.head ∧ st1.hazards = st.hazards) := by
  have hw : wrap32 (st.retired_count + 1) = st.retired_count + 1 := by
    unfold wrap32
    norm_num at hlo hhi ⊢
    omega
  have hc : ((LockFreeStack.MAX_THREADS * 2 : Nat) : Int) =
      2 * (LockFreeStack.MAX_THREADS : Int) := by
    push_cast
    ring
  constructor
  · intro h
    unfold LockFreeStack.retire_node
    simp only [hw, hc, gt_iff_lt, h, if_true]
  · intro h
    refine ⟨{ st with retired_list := st.retired_list ++ [node],
                      retired_count := st.retired_count + 1 }, ?_, rfl, by simp, rfl, rfl, rfl,
      rfl⟩
    unfold LockFreeStack.retire_node
    have h1 : ¬ 2 * (LockFreeStack.MAX_THREADS : Int) < st.retired_count + 1 := by omega
    simp only [hw, hc, gt_iff_lt, h1, if_false]

/-- Instance of claim C13 on the example state, whose retired count is 3. -/
theorem C13_retire_threshold_witness :
    (2 * (LockFreeStack.MAX_THREADS : Int) < LockFreeStack.example_state.retired_count + 1 →
      LockFreeStack.retire_node (some 5) LockFreeStack.example_state =
        LockFreeStack.scan_and_reclaim
          { LockFreeStack.example_state with
            retired_list := LockFreeStack.example_state.retired_list ++ [some 5],
            retired_count := LockFreeStack.example_state.retired_count + 1 }) ∧
    (LockFreeStack.example_state.retired_count + 1 ≤ 2 * (LockFreeStack.MAX_THREADS : Int) →
      ∃ st1, LockFreeStack.retire_node (some 5) LockFreeStack.example_state = some st1 ∧
        st1.retired_list = LockFreeStack.example_state.retired_list ++ [some 5] ∧
        st1.retired_list.length = LockFreeStack.example_state.retired_list.length + 1 ∧
        st1.retired_count = LockFreeStack.example_state.retired_count + 1 ∧
        st1.heap = LockFreeStack.example_state.heap ∧
        st1.head = LockFreeStack.example_state.head ∧
        st1.hazards = LockFreeStack.example_state.hazards) :=
  C13_retire_threshold (some 5) LockFreeStack.example_state (by decide) (by decide)

/-- Claim C14.  Effects of a successful `pop`.  Take a `LockFreeStack` state whose chain from
`head` is well formed and starts with the node at address `a` with payload `v`, whose retired
nodes are live, pairwise different and different from `a`, and a calling thread that can be given
a hazard slot.  Then `pop`, run on its own, returns `true` and delivers `v`; the final state is
what `retire_node` makes of the state in which `head` is the old head's `next` and slot 0 of the
caller is null; in the final state `head` is the old head's `next`, slot 0 of the caller is null,
the old head node is in the retire list or has been freed, and it is not reachable from `head`
any more. -/
theorem C14_pop_success {T : Type} (me : Nat) (o : List Bool) (fuel : Nat) (result : T)
    (st : LockFreeStack.State T) (a : Nat) (v : T) (cells : List (Nat × T))
    (htid : LockFreeStack.TidOK me st.next_thread_id st.thread_id)
    (hchain : Chain st.heap st.head ((a, v) :: cells))
    (hnodup : (((a, v) :: cells).map Prod.fst).Nodup)
    (hdel : Deletable st.heap (st.retired_list ++ [some a]))
    (hfuel : o.length < fuel) :
    ∃ st1 n i,
      st.heap.read a = some n ∧ n.data = v ∧
      LockFreeStack.pop me o fuel result st = some (st1, v, true) ∧
      LockFreeStack.retire_node (some a)
        { LockFreeStack.registered me st with
          head := n.next,
          hazards := Function.update (LockFreeStack.registered me st).hazards
            (LockFreeStack.my_slot me st) none } = some st1 ∧
      st1.head = n.next ∧
      LockFreeStack.slot (st1.thread_id me) 0 = some i ∧ st1.hazards i = none ∧
      (some a ∈ st1.retired_list ∨ st1.heap.read a = none) ∧
      ∀ k, nth_next st1.heap k st1.head ≠ some a := by
  obtain ⟨hh, hc⟩ := hchain
  have hh1 : st.head = some a := hh
  cases hr : st.heap.read a with
  | none => simp [hr] at hc
  | some n =>
    simp only [hr] at hc
    obtain ⟨f1, f2, f3, f4, f5⟩ := LockFreeStack.registered_fields me st
    have hrange := LockFreeStack.get_thread_id_range me st htid
    have hpop := LockFreeStack.pop_nonempty me a n o fuel result st hfuel htid hh1 hr
    obtain ⟨st1, h1, h2, h3, h4, _, h6, h7⟩ := LockFreeStack.retire_node_effect a
      { LockFreeStack.registered me st with
        head := n.next,
        hazards := Function.update (LockFreeStack.registered me st).hazards
          (LockFreeStack.my_slot me st) none }
      (by simpa [f3, f5] using hdel)
    refine ⟨st1, n, LockFreeStack.my_slot me st, rfl, hc.1, ?_, h1, h2, ?_, ?_, h6, ?_⟩
    · rw [hpop, h1, ← hc.1]
      rfl
    · rw [h4]
      show LockFreeStack.slot ((LockFreeStack.registered me st).thread_id me) 0 = _
      rw [LockFreeStack.registered_thread_id me st htid,
        LockFreeStack.slot_eq _ hrange.1 hrange.2]
      rfl
    · rw [h3]
      show Function.update _ _ _ _ = _
      simp
    · intro k hk
      rw [h2] at hk
      have hsub : ∀ b, st1.heap.read b = st.heap.read b ∨ st1.heap.read b = none := by
        intro b
        have := h7 b
        simpa [f5] using this
      have hm := nth_next_mem_chain hsub hc.2 k a hk
      simp only [List.map_cons, List.nodup_cons] at hnodup
      exact hnodup.1 hm

/-- Instance of claim C14: the stack holds 11 (at address 1) on top of 10 (at address 0), node 2
is retired, and the pop meets one spurious CAS failure. -/
theorem C14_pop_success_witness :
    ∃ (st1 : LockFreeStack.State Nat) (n : Node Nat) (i : Nat),
      n.data = 11 ∧ st1.head = n.next ∧
      LockFreeStack.pop 0 [true] 2 0
        { head := some 1, hazards := fun _ => none, retired_list := [some 2],
          retired_count := 1, next_thread_id := 0, thread_id := fun _ => -1,
          heap := [some { data := 10, next := none }, some { data := 11, next := some 0 },
                   some { data := 12, next := none }] } = some (st1, 11, true) ∧
      st1.hazards i = none ∧
      (some 1 ∈ st1.retired_list ∨ st1.heap.read 1 = none) ∧
      ∀ k, nth_next st1.heap k st1.head ≠ some 1 := by
  obtain ⟨st1, n, i, _, h2, h3, _, h5, _, h7, h8, h9⟩ := C14_pop_success 0 [true] 2 (0 : Nat)
    { head := some 1, hazards := fun _ => none, retired_list := [some 2],
      retired_count := 1, next_thread_id := 0, thread_id := fun _ => -1,
      heap := [some { data := 10, next := none }, some { data := 11, next := some 0 },
               some { data := 12, next := none }] }
    1 11 [(0, 10)] (Or.inl (by decide)) ⟨rfl, rfl, rfl, rfl, rfl⟩ (by decide)
    (Deletable.of_check _ _ (by decide) (by decide)) (by decide)
  exact ⟨st1, n, i, h2, h5, h3, h7, h8, h9⟩

/-- Claim C15 evaluated on the code.  Neither queue class has hazard slots or a retire list: a
successful `dequeue` executes `delete first` before it returns.  The queue consists of the dummy
node at address 0 and the element 5 at address 1.
* A `dequeue` returns `true` with 5, and when it returns cell 0 is already empty.
* A second dequeuer has loaded `first` (node 0) and `last` and is preempted; the other thread
  completes the `dequeue` above; the second dequeuer then loads `first->next` from the freed
  node: a use after free, undefined (`none`).
* The same happens from every well-formed queue state with at least one element, whatever the
  schedules of spurious CAS failures: the completed `dequeue` has freed the old dummy node, and
  the preempted dequeuer reads it.
* Without interference the preempted iteration is the sequential one.
All of this holds for `MichaelScottQueue` and for `LockFreeQueue`. -/
theorem C15_queue_use_after_free :
    (MichaelScottQueue.dequeue [] 1 (0 : Nat)
        { head := some 0, tail := some 1,
          heap := [some { data := 9, next := some 1 }, some { data := 5, next := none }] } =
      some ({ head := some 1, tail := some 1, heap := [none, some { data := 5, next := none }] },
            5, true) ∧
     LockFreeQueue.dequeue [] 1 (0 : Nat)
        { head := some 0, tail := some 1,
          heap := [some { data := 9, next := some 1 }, some { data := 5, next := none }] } =
      some ({ head := some 1, tail := some 1, heap := [none, some { data := 5, next := none }] },
            5, true) ∧
     Mem.read [none, some ({ data := 5, next := none } : Node Nat)] 0 = none) ∧
    (MichaelScottQueue.dequeue_body_interleaved
        (fun s => (MichaelScottQueue.dequeue [] 1 (0 : Nat) s).map Prod.fst) (fun s => some s)
        [] (0 : Nat)
        { head := some 0, tail := some 1,
          heap := [some { data := 9, next := some 1 }, some { data := 5, next := none }] } =
      none ∧
     LockFreeQueue.dequeue_body_interleaved
        (fun s => (LockFreeQueue.dequeue [] 1 (0 : Nat) s).map Prod.fst) (fun s => some s)
        [] (0 : Nat)
        { head := some 0, tail := some 1,
          heap := [some { data := 9, next := some 1 }, some { data := 5, next := none }] } =
      none) ∧
    (∀ (T : Type) (st : QueueState T) (d c : Nat × T) (rest : List (Nat × T))
        (o o2 : List Bool) (fuel : Nat) (result result2 : T),
      QueueInv st d (c :: rest) → o.length + 2 ≤ fuel →
      (∃ st1, MichaelScottQueue.dequeue o fuel result st = some (st1, c.2, true) ∧
        LockFreeQueue.dequeue o fuel result st = some (st1, c.2, true) ∧
        st.head = some d.1 ∧ st.heap.read d.1 ≠ none ∧ st1.heap.read d.1 = none) ∧
      MichaelScottQueue.dequeue_body_interleaved
          (fun s => (MichaelScottQueue.dequeue o fuel result s).map Prod.fst)
          (fun s => some s) o2 result2 st = none ∧
      LockFreeQueue.dequeue_body_interleaved
          (fun s => (LockFreeQueue.dequeue o fuel result s).map Prod.fst)
          (fun s => some s) o2 result2 st = none) ∧
    (∀ (T : Type) (o : List Bool) (result : T) (st : QueueState T),
      MichaelScottQueue.dequeue_body_interleaved (fun s => some s) (fun s => some s) o result
          st = MichaelScottQueue.dequeue_body o result st ∧
      LockFreeQueue.dequeue_body_interleaved (fun s => some s) (fun s => some s) o result st =
        LockFreeQueue.dequeue_body o result st) := by
  refine ⟨⟨rfl, rfl, rfl⟩, ⟨rfl, rfl⟩, ?_, ?_⟩
  · intro T st d c rest o o2 fuel result result2 hinv hfuel
    obtain ⟨st1, h1, _, h3⟩ :=
      MichaelScottQueue.dequeue_loop_frees d c rest fuel o result st hinv (Or.inr hfuel)
    have hfree := MichaelScottQueue.dequeue_body_interleaved_freed d c rest fuel o o2 result
      result2 st (fun s => some s) hinv hfuel
    refine ⟨⟨st1, h1, ?_, hinv.chain.1, Chain.live hinv.chain d.1 (by simp),
      by rw [h3, Mem.read_free_same]⟩, hfree, ?_⟩
    · rw [LockFreeQueue.dequeue_same]
      exact h1
    · rw [LockFreeQueue.dequeue_body_interleaved_same]
      have he : (fun s => (LockFreeQueue.dequeue o fuel result s).map Prod.fst) =
          (fun s => (MichaelScottQueue.dequeue o fuel result s).map Prod.fst) := by
        funext s
        rw [LockFreeQueue.dequeue_same]
      rw [he]
      exact hfree
  · intro T o result st
    exact ⟨MichaelScottQueue.dequeue_body_interleaved_alone o result st,
      by rw [LockFreeQueue.dequeue_body_interleaved_same, LockFreeQueue.dequeue_body_same]
         exact MichaelScottQueue.dequeue_body_interleaved_alone o result st⟩

/-- Claim C16 evaluated on the code.  A value is delivered twice.  Freed addresses are reused by
the allocator.  A new `MichaelScottQueue` receives `enqueue(5)`: the dummy node is at address
0 and the element 5 at address 1.
* Consumer X starts a `dequeue`: it loads `first` (node 0), `last` and `next` (node 1), passes
  both tests, stores `next->data`, which is 5, in its `result`, and is preempted before its CAS
  on `head`.
* The other threads complete `dequeue` (delivers 5 and frees node 0), `enqueue(7)` (the new node
  is allocated at the freed address 0) and `dequeue` (delivers 7 and frees node 1); `head` is
  then node 0 again.
* X resumes: its CAS compares `head` with `first`, both are address 0, so it succeeds; X sets
  `head` to node 1, deletes node 0 and returns `true` with 5.
So 5 and 7 were inserted and 5, 7 and 5 were delivered; afterwards `head` refers to a freed
node and `empty()` and every further `dequeue` are undefined.  Without interference the
preempted iteration is the sequential one.  `LockFreeQueue` behaves the same. -/
theorem C16_duplicate_delivery :
    MichaelScottQueue.run (Allocator.reuse (Node Nat)) [(QueueOp.enqueue 5, [])] 0
        (MichaelScottQueue.new (Allocator.reuse (Node Nat)) 0 []) =
      some ({ head := some 0, tail := some 1,
              heap := [some { data := 0, next := some 1 }, some { data := 5, next := none }] },
            0, []) ∧
    MichaelScottQueue.run (Allocator.reuse (Node Nat))
        [(QueueOp.dequeue, []), (QueueOp.enqueue 7, []), (QueueOp.dequeue, [])] 0
        { head := some 0, tail := some 1,
          heap := [some { data := 0, next := some 1 }, some { data := 5, next := none }] } =
      some ({ head := some 0, tail := some 0, heap := [some { data := 7, next := none }, none] },
            7, [(true, 5), (true, 7)]) ∧
    MichaelScottQueue.dequeue_body_interleaved (fun s => some s)
        (fun s => (MichaelScottQueue.run (Allocator.reuse (Node Nat))
          [(QueueOp.dequeue, []), (QueueOp.enqueue 7, []), (QueueOp.dequeue, [])] 0 s).map
            Prod.fst)
        [] 0
        { head := some 0, tail := some 1,
          heap := [some { data := 0, next := some 1 }, some { data := 5, next := none }] } =
      some ({ head := some 1, tail := some 0, heap := [none, none] }, [],
            Iter.ret (5, true)) ∧
    LockFreeQueue.dequeue_body_interleaved (fun s => some s)
        (fun s => (LockFreeQueue.run (Allocator.reuse (Node Nat))
          [(QueueOp.dequeue, []), (QueueOp.enqueue 7, []), (QueueOp.dequeue, [])] 0 s).map
            Prod.fst)
        [] 0
        { head := some 0, tail := some 1,
          heap := [some { data := 0, next := some 1 }, some { data := 5, next := none }] } =
      some ({ head := some 1, tail := some 0, heap := [none, none] }, [],
            Iter.ret (5, true)) ∧
    MichaelScottQueue.empty
        ({ head := some 1, tail := some 0, heap := [none, none] } : QueueState Nat) = none ∧
    (∀ (o : List Bool) (fuel : Nat) (result : Nat),
      MichaelScottQueue.dequeue o fuel result
        { head := some 1, tail := some 0, heap := [none, none] } = none) ∧
    (∀ (T : Type) (o : List Bool) (result : T) (st : QueueState T),
      MichaelScottQueue.dequeue_body_interleaved (fun s => some s) (fun s => some s) o result
          st = MichaelScottQueue.dequeue_body o result st) := by
  refine ⟨rfl, rfl, rfl, rfl, rfl, ?_, ?_⟩
  · intro o fuel result
    cases fuel with
    | zero => rfl
    | succ fuel => rfl
  · intro T o result st
    exact MichaelScottQueue.dequeue_body_interleaved_alone o result st

/-- Claim C17.  The version tag of `SafeStack` and `TaggedStack`, for a `uintptr_t` of `w` bits.
* Every `push` that returns installs a head whose tag is the previous tag plus one modulo
  `2 ^ w`; so does every `pop` on a stack whose head node is live, which returns `true`; a `pop`
  on an empty stack returns `false` and leaves the whole state, hence the tag, unchanged.
* After any single-threaded sequence of calls on a new stack (tag 0) every call has returned and
  the tag is the number of mutations (calls of `push` plus calls of `pop` that returned `true`)
  modulo `2 ^ w`.
* Hence two runs end with the same tag exactly when their numbers of mutations are congruent
  modulo `2 ^ w`: a tag comes back only after a multiple of `2 ^ w` further mutations. -/
theorem C17_version_tag (A : Allocator (Node Int)) (w : Nat) (heap : Mem (Node Int)) :
    (∀ (o : List Bool) (fuel : Nat) (v : Int) (st : TaggedState), o.length < fuel →
      (∃ st1, SafeStack.push A w o fuel v st = some st1 ∧
        st1.head.tag = (st.head.tag + 1) % 2 ^ w) ∧
      (∃ st1, TaggedStack.push A w fuel v st = some st1 ∧
        st1.head.tag = (st.head.tag + 1) % 2 ^ w)) ∧
    (∀ (o : List Bool) (fuel : Nat) (result : Int) (st : TaggedState) (a : Nat) (n : Node Int),
      o.length < fuel → st.head.ptr = some a → st.heap.read a = some n →
      (∃ st1, SafeStack.pop w o fuel result st = some (st1, n.data, true) ∧
        st1.head.tag = (st.head.tag + 1) % 2 ^ w) ∧
      (∃ st1, TaggedStack.pop w fuel result st = some (st1, n.data, true) ∧
        st1.head.tag = (st.head.tag + 1) % 2 ^ w)) ∧
    (∀ (o : List Bool) (fuel : Nat) (result : Int) (st : TaggedState),
      0 < fuel → st.head.ptr = none →
      SafeStack.pop w o fuel result st = some (st, result, false) ∧
      TaggedStack.pop w fuel result st = some (st, result, false)) ∧
    (∀ (cs : List (LockFreeStack.Op Int × List Bool)) (result : Int),
      ∃ st r outs, SafeStack.run A w cs result (SafeStack.new heap) = some (st, r, outs) ∧
        st.head.tag = mutations (cs.map Prod.fst) outs % 2 ^ w) ∧
    (∀ (ops : List (LockFreeStack.Op Int)) (result : Int),
      ∃ st r outs, TaggedStack.run A w ops result (TaggedStack.new heap) = some (st, r, outs) ∧
        st.head.tag = mutations ops outs % 2 ^ w) ∧
    (∀ (ops1 ops2 : List (LockFreeStack.Op Int)) (result : Int),
      ∃ st1 r1 outs1 st2 r2 outs2,
        TaggedStack.run A w ops1 result (TaggedStack.new heap) = some (st1, r1, outs1) ∧
        TaggedStack.run A w ops2 result (TaggedStack.new heap) = some (st2, r2, outs2) ∧
        (st1.head.tag = st2.head.tag ↔
          mutations ops1 outs1 % 2 ^ w = mutations ops2 outs2 % 2 ^ w)) := by
  have hsafe : ∀ (cs : List (LockFreeStack.Op Int × List Bool)) (result : Int),
      ∃ st r outs, SafeStack.run A w cs result (SafeStack.new heap) = some (st, r, outs) ∧
        st.head.tag = mutations (cs.map Prod.fst) outs % 2 ^ w := by
    intro cs result
    obtain ⟨st, _, _, _, hrun, htag⟩ :=
      SafeStack.tagged_run_model A w cs result _ [] (TaggedInv.of_tagged_new w heap)
    refine ⟨st, _, _, hrun, ?_⟩
    rw [htag]
    simp [mutations, SafeStack.new]
  have htagged : ∀ (ops : List (LockFreeStack.Op Int)) (result : Int),
      ∃ st r outs, TaggedStack.run A w ops result (TaggedStack.new heap) = some (st, r, outs) ∧
        st.head.tag = mutations ops outs % 2 ^ w := by
    intro ops result
    obtain ⟨st, r, outs, hrun, htag⟩ := hsafe (ops.map (fun c => (c, []))) result
    rw [map_fst_pair_nil] at htag
    exact ⟨st, r, outs, by rw [TaggedStack.run_eq_safe]; exact hrun, htag⟩
  refine ⟨?_, ?_, ?_, hsafe, htagged, ?_⟩
  · intro o fuel v st hf
    have h2 := SafeStack.push_value A w [] fuel v st (Nat.lt_of_le_of_lt (Nat.zero_le _) hf)
    rw [← TaggedStack.push_eq_safe] at h2
    exact ⟨⟨_, SafeStack.push_value A w o fuel v st hf, rfl⟩, ⟨_, h2, rfl⟩⟩
  · intro o fuel result st a n hf hh hr
    have h2 := SafeStack.pop_value w a n [] fuel result st
      (Nat.lt_of_le_of_lt (Nat.zero_le _) hf) hh hr
    rw [← TaggedStack.pop_eq_safe] at h2
    exact ⟨⟨_, SafeStack.pop_value w a n o fuel result st hf hh hr, rfl⟩, ⟨_, h2, rfl⟩⟩
  · intro o fuel result st hf hh
    refine ⟨SafeStack.pop_null w o fuel result st hh hf, ?_⟩
    rw [TaggedStack.pop_eq_safe]
    exact SafeStack.pop_null w [] fuel result st hh hf
  · intro ops1 ops2 result
    obtain ⟨st1, r1, outs1, hrun1, htag1⟩ := htagged ops1 result
    obtain ⟨st2, r2, outs2, hrun2, htag2⟩ := htagged ops2 result
    exact ⟨st1, r1, outs1, st2, r2, outs2, hrun1, hrun2, by rw [htag1, htag2]⟩

/-- Instance of claim C17 with a tag of 2 bits: after push, push, pop, pop, pop (the last on an
empty stack) and push, five mutations have happened and the tag is 1 again, as it was after the
first push. -/
theorem C17_version_tag_witness :
    ∃ st r outs,
      TaggedStack.run (Allocator.reuse (Node Int)) 2
        [LockFreeStack.Op.push 1, LockFreeStack.Op.push 2, LockFreeStack.Op.pop,
         LockFreeStack.Op.pop, LockFreeStack.Op.pop, LockFreeStack.Op.push 3]
        0 (TaggedStack.new []) = some (st, r, outs) ∧
      st.head.tag =
        mutations [LockFreeStack.Op.push 1, LockFreeStack.Op.push 2, LockFreeStack.Op.pop,
          LockFreeStack.Op.pop, LockFreeStack.Op.pop, LockFreeStack.Op.push (3 : Int)] outs
          % 2 ^ 2 :=
  (C17_version_tag (Allocator.reuse (Node Int)) 2 []).2.2.2.2.1 _ 0

/-- Claim C18.  The tagged compare-exchange tells equal pointers with different tags apart.
`TaggedStack::compare_exchange`, run without interference, returns `true` and sets the head to
`desired` if and only if the head has the same `ptr` and the same `tag` as `expected` (and then
leaves `expected` as it is); when the pointers are equal and the tags differ it returns `false`,
leaves the head unchanged and overwrites `expected` with the head.  `SafeStack::compare_exchange`
behaves in the same way, except that being a weak CAS it may also fail when both fields are
equal. -/
theorem C18_tagged_compare_exchange (head expected desired : TaggedPointer) :
    ((TaggedStack.compare_exchange head expected desired).1 = true ∧
        (TaggedStack.compare_exchange head expected desired).2.1 = desired ↔
      head.ptr = expected.ptr ∧ head.tag = expected.tag) ∧
    (head.ptr = expected.ptr ∧ head.tag = expected.tag →
      TaggedStack.compare_exchange head expected desired = (true, desired, expected)) ∧
    (head.ptr = expected.ptr → head.tag ≠ expected.tag →
      TaggedStack.compare_exchange head expected desired = (false, head, head)) ∧
    (∀ spurious : Bool,
      ((SafeStack.compare_exchange spurious head expected desired).1 = true →
        head.ptr = expected.ptr ∧ head.tag = expected.tag ∧
        SafeStack.compare_exchange spurious head expected desired =
          (true, desired, expected)) ∧
      (head.ptr = expected.ptr → head.tag ≠ expected.tag →
        SafeStack.compare_exchange spurious head expected desired = (false, head, head))) ∧
    (head.ptr = expected.ptr ∧ head.tag = expected.tag →
      SafeStack.compare_exchange false head expected desired = (true, desired, expected)) := by
  have hne : head.ptr = expected.ptr → head.tag ≠ expected.tag → head ≠ expected := by
    intro _ h2 e
    exact h2 (by rw [e])
  refine ⟨?_, ?_, ?_, ?_, ?_⟩
  · unfold TaggedStack.compare_exchange
    by_cases h : head.ptr = expected.ptr ∧ head.tag = expected.tag
    · simp [h]
    · simp [h]
  · intro h
    simp [TaggedStack.compare_exchange, h]
  · intro h1 h2
    simp [TaggedStack.compare_exchange, h1, h2]
  · intro spurious
    constructor
    · intro h
      unfold SafeStack.compare_exchange cas_weak at h ⊢
      by_cases hc : head = expected ∧ spurious = false
      · obtain ⟨h1, h2⟩ := hc
        subst h1
        simp [h2]
      · simp [hc] at h
    · intro h1 h2
      simp [SafeStack.compare_exchange, cas_weak, hne h1 h2]
  · rintro ⟨h1, h2⟩
    have : head = expected := by
      cases head
      cases expected
      simp only at h1 h2
      rw [h1, h2]
    subst this
    simp [SafeStack.compare_exchange, cas_weak]

/-- Instance of claim C18, the ABA pattern: the head refers to node 1 again, but with tag 2
instead of the expected tag 0. -/
theorem C18_tagged_compare_exchange_witness :
    TaggedStack.compare_exchange { ptr := some 1, tag := 2 } { ptr := some 1, tag := 0 }
        { ptr := some 5, tag := 1 } =
      (false, { ptr := some 1, tag := 2 }, { ptr := some 1, tag := 2 }) :=
  (C18_tagged_compare_exchange { ptr := some 1, tag := 2 } { ptr := some 1, tag := 0 }
    { ptr := some 5, tag := 1 }).2.2.1 rfl (by decide)

/-- Claim C19.  The tagged-pointer stack is a drop-in replacement.  The same sequence of
`push(int)` and `pop` calls is run by one thread on a new `TaggedStack`, a new
`LockFreeStack<int>`, a new `HazardPointerStack` and a new `SafeStack`, each with its own
schedule of spurious CAS failures.  All four runs return, and every `pop` returns the same flag
and delivers the same value in all of them, namely what the list model returns. -/
theorem C19_drop_in_replacement (A : Allocator (Node Int)) (w : Nat) (me : Nat)
    (heap : Mem (Node Int)) (next_thread_id : Int) (thread_id : Nat → Int)
    (htid : LockFreeStack.TidOK me next_thread_id thread_id)
    (tid : Int) (ht0 : 0 ≤ tid) (ht1 : tid < (HazardPointer.MAX_THREADS : Int))
    (ops : List (LockFreeStack.Op Int)) (s1 s2 s3 : List (List Bool))
    (hs1 : s1.length = ops.length) (hs2 : s2.length = ops.length)
    (hs3 : s3.length = ops.length) (result : Int) :
    ∃ st1 st2 st3 st4,
      TaggedStack.run A w ops result (TaggedStack.new heap) =
        some (st1, (LockFreeStack.model ops [] result).2.1,
              (LockFreeStack.model ops [] result).2.2) ∧
      LockFreeStack.run A me (ops.zip s1) result
          (LockFreeStack.new heap next_thread_id thread_id) =
        some (st2, (LockFreeStack.model ops [] result).2.1,
              (LockFreeStack.model ops [] result).2.2) ∧
      HazardPointerStack.run A tid (ops.zip s2) result (HazardPointerStack.new heap) =
        some (st3, (LockFreeStack.model ops [] result).2.1,
              (LockFreeStack.model ops [] result).2.2) ∧
      SafeStack.run A w (ops.zip s3) result (SafeStack.new heap) =
        some (st4, (LockFreeStack.model ops [] result).2.1,
              (LockFreeStack.model ops [] result).2.2) := by
  have hz : ∀ s : List (List Bool), s.length = ops.length → (ops.zip s).map Prod.fst = ops := by
    intro s hs
    exact List.map_fst_zip _ _ (by omega)
  obtain ⟨a1, _, _, _, r1, _⟩ := SafeStack.tagged_run_model A w
    (ops.map (fun c => (c, []))) result _ [] (TaggedInv.of_tagged_new w heap)
  rw [map_fst_pair_nil] at r1
  obtain ⟨a2, _, _, _, r2⟩ := LockFreeStack.run_model A me (ops.zip s1) result _ []
    (LockFreeStack.Inv.of_new me heap next_thread_id thread_id htid)
  rw [hz s1 hs1] at r2
  obtain ⟨a3, _, _, _, r3⟩ := HazardPointerStack.hp_run_model A tid ht0 ht1 (ops.zip s2) result
    _ [] (HazardPointerStack.Inv.of_hp_new heap)
  rw [hz s2 hs2] at r3
  obtain ⟨a4, _, _, _, r4, _⟩ := SafeStack.tagged_run_model A w (ops.zip s3) result _ []
    (TaggedInv.of_tagged_new w heap)
  rw [hz s3 hs3] at r4
  exact ⟨a1, a2, a3, a4, by rw [TaggedStack.run_eq_safe]; exact r1, r2, r3, r4⟩

/-- Instance of claim C19: push 1, push 2, pop, pop, pop with different schedules of spurious
CAS failures; all four stacks deliver 2, then 1, then report empty. -/
theorem C19_drop_in_replacement_witness :
    ∃ st1 st2 st3 st4,
      TaggedStack.run (Allocator.bump (Node Int)) 64
          [LockFreeStack.Op.push 1, LockFreeStack.Op.push 2, LockFreeStack.Op.pop,
           LockFreeStack.Op.pop, LockFreeStack.Op.pop]
          0 (TaggedStack.new []) =
        some (st1, 1, [(true, 2), (true, 1), (false, 1)]) ∧
      LockFreeStack.run (Allocator.bump (Node Int)) 0
          ([LockFreeStack.Op.push 1, LockFreeStack.Op.push 2, LockFreeStack.Op.pop,
            LockFreeStack.Op.pop, LockFreeStack.Op.pop].zip [[], [true], [], [true, true], []])
          0 (LockFreeStack.new [] 0 (fun _ => -1)) =
        some (st2, 1, [(true, 2), (true, 1), (false, 1)]) ∧
      HazardPointerStack.run (Allocator.bump (Node Int)) 3
          ([LockFreeStack.Op.push 1, LockFreeStack.Op.push 2, LockFreeStack.Op.pop,
            LockFreeStack.Op.pop, LockFreeStack.Op.pop].zip [[true], [], [true], [], []])
          0 (HazardPointerStack.new []) =
        some (st3, 1, [(true, 2), (true, 1), (false, 1)]) ∧
      SafeStack.run (Allocator.bump (Node Int)) 64
          ([LockFreeStack.Op.push 1, LockFreeStack.Op.push 2, LockFreeStack.Op.pop,
            LockFreeStack.Op.pop, LockFreeStack.Op.pop].zip [[], [], [true], [], [true]])
          0 (SafeStack.new []) =
        some (st4, 1, [(true, 2), (true, 1), (false, 1)]) :=
  C19_drop_in_replacement (Allocator.bump (Node Int)) 64 0 [] 0 (fun _ => -1)
    (Or.inl (by decide)) 3 (by decide) (by decide)
    [LockFreeStack.Op.push 1, LockFreeStack.Op.push 2, LockFreeStack.Op.pop,
     LockFreeStack.Op.pop, LockFreeStack.Op.pop]
    [[], [true], [], [true, true], []] [[true], [], [true], [], []]
    [[], [], [true], [], [true]] rfl rfl rfl 0

/-- Claim C20 evaluated on the code.  `TaggedStack::compare_exchange` is a load, a comparison and
a separate store.  The head is `(node 1, tag 0)` and equals `expected`; between the load and the
store another thread installs `(node 3, tag 1)`.  The call still returns `true` and its store
replaces the other thread's head by `desired`: the comparison and the installation are not one
atomic step.  This happens for every update the other thread makes; without interference the
function computes what it computes in the sequential runs. -/
theorem C20_compare_exchange_not_atomic :
    TaggedStack.compare_exchange_interleaved (fun _ => { ptr := some 3, tag := 1 })
        { ptr := some 1, tag := 0 } { ptr := some 1, tag := 0 } { ptr := some 2, tag := 1 } =
      (true, { ptr := some 2, tag := 1 }, { ptr := some 1, tag := 0 }) ∧
    (∀ (env : TaggedPointer → TaggedPointer) (head expected desired : TaggedPointer),
      head.ptr = expected.ptr ∧ head.tag = expected.tag →
      TaggedStack.compare_exchange_interleaved env head expected desired =
        (true, desired, expected)) ∧
    (∀ head expected desired : TaggedPointer,
      TaggedStack.compare_exchange_interleaved id head expected desired =
        TaggedStack.compare_exchange head expected desired) := by
  refine ⟨rfl, ?_, fun _ _ _ => rfl⟩
  intro env head expected desired h
  simp [TaggedStack.compare_exchange_interleaved, h]

/-- Claim C21.  Stack operations never fail and never block.  No CAS fails spuriously (the
schedule is empty).  Then `push` returns from every state after exactly one iteration of its
`do ... while` loop, that is one CAS attempt.  `pop`, called by a thread that can be given a
hazard slot, returns after exactly one iteration of its retry loop from every state in which
`head` is null or refers to a live node and the retired nodes, together with the head node, are
live and pairwise different (every other state makes `pop` dereference or delete a dead node). -/
theorem C21_stack_total {T : Type} (A : Allocator (Node T)) (me : Nat) (v result : T)
    (st : LockFreeStack.State T)
    (htid : LockFreeStack.TidOK me st.next_thread_id st.thread_id)
    (hwf : st.head = none ∨
      ∃ a n, st.head = some a ∧ st.heap.read a = some n ∧
        Deletable st.heap (st.retired_list ++ [some a])) :
    (∃ st1, LockFreeStack.push A [] 1 v st = some st1) ∧
    LockFreeStack.push A [] 0 v st = none ∧
    (∃ st1 x b o1,
      LockFreeStack.pop me [] 1 result st = some (st1, x, b) ∧
      LockFreeStack.pop_body me [] st.head result st = some (st1, o1, Iter.ret (x, b))) ∧
    LockFreeStack.pop me [] 0 result st = none := by
  refine ⟨⟨_, LockFreeStack.push_eq A [] 1 v st (by decide)⟩, rfl, ?_, rfl⟩
  have key : ∃ st1 x b, LockFreeStack.pop me [] 1 result st = some (st1, x, b) := by
    rcases hwf with hh | ⟨a, n, hh, hr, hdel⟩
    · exact ⟨_, _, _, LockFreeStack.pop_empty me [] 1 result st htid hh (by decide)⟩
    · obtain ⟨f1, f2, f3, f4, f5⟩ := LockFreeStack.registered_fields me st
      obtain ⟨s1, h1, _⟩ := LockFreeStack.retire_node_effect a
        { LockFreeStack.registered me st with
          head := n.next,
          hazards := Function.update (LockFreeStack.registered me st).hazards
            (LockFreeStack.my_slot me st) none }
        (by simpa [f3, f5] using hdel)
      refine ⟨s1, n.data, true, ?_⟩
      rw [LockFreeStack.pop_nonempty me a n [] 1 result st (by decide) htid hh hr, h1]
      rfl
  obtain ⟨st1, x, b, hpop⟩ := key
  refine ⟨st1, x, b, ?_⟩
  have h := hpop
  unfold LockFreeStack.pop LockFreeStack.pop_loop at h
  cases hb : LockFreeStack.pop_body me [] st.head result st with
  | none => simp [hb] at h
  | some r =>
    obtain ⟨s, o1, it⟩ := r
    cases it with
    | again p => simp [hb, LockFreeStack.pop_loop] at h
    | ret r =>
      simp only [hb, Option.some.injEq, Prod.mk.injEq] at h
      obtain ⟨e1, e2, e3⟩ := h
      subst e1
      exact ⟨o1, hpop, by rw [← e2, ← e3]⟩

/-- Instance of claim C21 on the example state, whose `head` is null. -/
theorem C21_stack_total_witness :
    (∃ st1, LockFreeStack.push (Allocator.bump (Node Nat)) [] 1 4
      LockFreeStack.example_state = some st1) ∧
    LockFreeStack.push (Allocator.bump (Node Nat)) [] 0 4 LockFreeStack.example_state = none ∧
    (∃ st1 x b o1,
      LockFreeStack.pop 0 [] 1 9 LockFreeStack.example_state = some (st1, x, b) ∧
      LockFreeStack.pop_body 0 [] LockFreeStack.example_state.head 9
        LockFreeStack.example_state = some (st1, o1, Iter.ret (x, b))) ∧
    LockFreeStack.pop 0 [] 0 9 LockFreeStack.example_state = none :=
  C21_stack_total (Allocator.bump (Node Nat)) 0 4 9 LockFreeStack.example_state
    (Or.inl (by decide)) (Or.inl rfl)

/-- Claim C23.  `dequeue` with a lagging tail does not report empty.  In every state in which
`head` and `tail` refer to the same node `f` whose `next` refers to another live node `z`, and
with no spurious CAS failure, the first loop iteration of `dequeue` only advances `tail` to `z`,
and the second one returns `true` with the payload of `z`, moves `head` to `z` and frees `f`.
And whenever `dequeue` returns `false`, from whatever state and with whatever schedule, `head`
and `tail` refer to the same node and the `next` of that node is null. -/
theorem C23_dequeue_lagging_tail {T : Type} (result : T) (st : QueueState T) (f z : Nat)
    (n nz : Node T) (hhead : st.head = some f) (htail : st.tail = some f)
    (hread : st.heap.read f = some n) (hnext : n.next = some z) (hne : f ≠ z)
    (hz : st.heap.read z = some nz) :
    MichaelScottQueue.dequeue_body [] result st =
      some ({ st with tail := some z }, [], Iter.again result) ∧
    MichaelScottQueue.dequeue [] 2 result st =
      some ({ head := some z, tail := some z, heap := st.heap.free f }, nz.data, true) ∧
    (∀ (o : List Bool) (fuel : Nat) (res r : T) (s s1 : QueueState T),
      MichaelScottQueue.dequeue o fuel res s = some (s1, r, false) →
      ∃ g m, s1.head = some g ∧ s1.tail = some g ∧ s1.heap.read g = some m ∧
        m.next = none) := by
  have hb1 := MichaelScottQueue.dequeue_body_help [] result st f z n hhead htail hread hnext
  simp only [flag_nil, Bool.false_eq_true, if_false, List.tail_nil] at hb1
  have hb2 := MichaelScottQueue.dequeue_body_take [] result { st with tail := some z }
    f z z n nz hhead rfl hne hread hnext hz
  simp only [flag_nil, Bool.false_eq_true, if_false, List.tail_nil] at hb2
  refine ⟨hb1, ?_, ?_⟩
  · unfold MichaelScottQueue.dequeue MichaelScottQueue.dequeue_loop
    simp only [hb1]
    unfold MichaelScottQueue.dequeue_loop
    simp only [hb2]
  · intro o fuel res r s s1 h
    exact MichaelScottQueue.dequeue_loop_false fuel o res r s s1 h

/-- Instance of claim C23: the dummy node at address 0, the element 5 at address 1, and `tail`
still at the dummy node. -/
theorem C23_dequeue_lagging_tail_witness :
    MichaelScottQueue.dequeue [] 2 (0 : Nat)
        { head := some 0, tail := some 0,
          heap := [some { data := 9, next := some 1 }, some { data := 5, next := none }] } =
      some ({ head := some 1, tail := some 1,
              heap := Mem.free [some { data := 9, next := some 1 },
                                some { data := 5, next := none }] 0 }, 5, true) :=
  (C23_dequeue_lagging_tail (0 : Nat)
    { head := some 0, tail := some 0,
      heap := [some { data := 9, next := some 1 }, some { data := 5, next := none }] }
    0 1 { data := 9, next := some 1 } { data := 5, next := none } rfl rfl rfl rfl
    (by decide) rfl).2.1

/-- Counterexample to claim C24 as stated: the dummy node is at address 0, the element 5 at
address 1, and `tail` still refers to the dummy node.  Before the call `tail` is node 0, after
`dequeue` has returned `tail` is node 1. -/
theorem C24_dequeue_tail_counterexample :
    (MichaelScottQueue.dequeue [] 2 (0 : Nat)
        { head := some 0, tail := some 0,
          heap := [some { data := 9, next := some 1 },
                   some { data := 5, next := none }] }).map (fun r => (r.1.tail, r.2)) =
      some (some 1, 5, true) ∧
    (some 1 : Ptr) ≠ some 0 :=
  ⟨rfl, by decide⟩

/-- Claim C24, amended.  `dequeue` changes `tail` in one case only.  From every well-formed
queue state `dequeue` returns, and
* when the queue is empty, or when `tail` differs from `head`, `tail` after the call equals
  `tail` before the call;
* when `tail` equals `head` although an element is linked, `dequeue` advances `tail` to the node
  of that element (`head.next`), so `tail` after the call differs from `tail` before the call. -/
theorem C24_dequeue_tail {T : Type} (o : List Bool) (fuel : Nat) (result : T)
    (st : QueueState T) (d : Nat × T) (cells : List (Nat × T))
    (hinv : QueueInv st d cells) (hfuel : o.length + 2 ≤ fuel) :
    ∃ st1 r b,
      MichaelScottQueue.dequeue o fuel result st = some (st1, r, b) ∧
      (cells = [] → st1.tail = st.tail) ∧
      (st.tail ≠ st.head → st1.tail = st.tail) ∧
      (st.tail = st.head → ∀ c rest, cells = c :: rest →
        st1.tail = some c.1 ∧ st1.tail ≠ st.tail) := by
  have hh : st.head = some d.1 := hinv.chain.1
  cases cells with
  | nil =>
    have h := MichaelScottQueue.dequeue_empty_spec o fuel result st d hinv (by omega)
    exact ⟨st, result, false, h, (fun _ => rfl), (fun _ => rfl), (fun _ c rest e => by cases e)⟩
  | cons c rest =>
    obtain ⟨st1, h1, h2⟩ :=
      MichaelScottQueue.dequeue_loop_tail d c rest fuel o result st hinv (Or.inr hfuel)
    have hnd := hinv.nodup
    simp only [List.map_cons, List.nodup_cons, List.mem_cons, not_or] at hnd
    refine ⟨st1, c.2, true, h1, (fun e => by cases e), ?_, ?_⟩
    · intro hne
      rw [hh] at hne
      rw [h2, if_neg hne]
    · intro he c1 rest1 e
      rw [hh] at he
      simp only [List.cons.injEq] at e
      obtain ⟨e1, _⟩ := e
      subst e1
      rw [h2, if_pos he]
      refine ⟨rfl, ?_⟩
      rw [he]
      intro e2
      have e3 : c.1 = d.1 := by simpa using e2
      exact hnd.1.1 e3.symm

/-- Instance of the amended claim C24: with `tail` at the last node (address 1) and `head` at
the dummy node (address 0), `dequeue` leaves `tail` where it is. -/
theorem C24_dequeue_tail_witness :
    ∃ (st1 : QueueState Nat) (r : Nat) (b : Bool),
      MichaelScottQueue.dequeue [true] 3 (0 : Nat)
        { head := some 0, tail := some 1,
          heap := [some { data := 9, next := some 1 }, some { data := 5, next := none }] } =
        some (st1, r, b) ∧ st1.tail = some 1 := by
  obtain ⟨st1, r, b, h1, _, h3, _⟩ := C24_dequeue_tail [true] 3 (0 : Nat)
    { head := some 0, tail := some 1,
      heap := [some { data := 9, next := some 1 }, some { data := 5, next := none }] }
    (0, 9) [(1, 5)]
    { chain := ⟨rfl, rfl, rfl, rfl, rfl⟩
      nodup := by decide
      tail := Or.inl ⟨[(0, 9)], (1, 5), rfl, rfl⟩ }
    (by decide)
  exact ⟨st1, r, b, h1, h3 (by decide)⟩

/-- Counterexample to claim C25 as stated: thread 0 pops from the stack holding one node (address
0) and the CAS of the first loop iteration fails.  The iteration ends with `old_head` set to the
value the CAS returned and the loop goes round again, but hazard slot 0 of the thread still holds
node 0: it has not been set to null. -/
theorem C25_pop_failure_counterexample :
    ∃ st1,
      LockFreeStack.pop_body 0 [true] (some 0) 9 LockFreeStack.one_node_state =
        some (st1, [], Iter.again (some 0)) ∧
      (cas_weak (flag [true]) LockFreeStack.one_node_state.head (some 0) (none : Ptr)).1 =
        false ∧
      LockFreeStack.my_slot 0 LockFreeStack.one_node_state = 0 ∧
      st1.hazards 0 = some 0 ∧ st1.hazards 0 ≠ none :=
  ⟨_, LockFreeStack.pop_body_spurious 0 0 { data := 10, next := none } [] 9
        LockFreeStack.one_node_state (Or.inl (by decide)) rfl rfl,
    rfl, rfl, rfl, by
      show (some 0 : Ptr) ≠ none
      decide⟩

/-- Claim C25, amended.  `pop` does not clear its hazard slot when the CAS on `head` fails.  Let
thread `me` call `pop` on a stack whose head node `a` is live, and let the CAS of the first loop
iteration fail.  Then
* the iteration ends with hazard slot 0 of the thread still holding `a`, with `head`, the free
  store, the retire list and the slots of all other threads unchanged, and the loop goes round
  again with the value the CAS returned;
* the first statement of the next iteration overwrites the slot with that value (whatever it
  is), leaving the other slots alone;
* every iteration of `pop` that goes round again leaves in the slot the pointer it published;
* the slot is null when `pop` has returned. -/
theorem C25_pop_failure_keeps_hazard {T : Type} (me a : Nat) (n : Node T) (o : List Bool)
    (fuel : Nat) (result : T) (st : LockFreeStack.State T)
    (htid : LockFreeStack.TidOK me st.next_thread_id st.thread_id)
    (hhead : st.head = some a) (hread : st.heap.read a = some n) (hfuel : o.length < fuel) :
    ∃ st1,
      LockFreeStack.pop_body me (true :: o) (some a) result st =
        some (st1, o, Iter.again (some a)) ∧
      st1.hazards (LockFreeStack.my_slot me st) = some a ∧
      st1.head = some a ∧ st1.heap = st.heap ∧ st1.retired_list = st.retired_list ∧
      (∀ i, i ≠ LockFreeStack.my_slot me st → st1.hazards i = st.hazards i) ∧
      LockFreeStack.pop me (true :: o) (fuel + 1) result st =
        LockFreeStack.pop_loop me fuel o (some a) result st1 ∧
      (∀ fresh : Ptr, ∃ st2,
        LockFreeStack.set_hazard_pointer me 0 fresh st1 = some st2 ∧
        st2.hazards (LockFreeStack.my_slot me st) = fresh ∧
        ∀ i, i ≠ LockFreeStack.my_slot me st → st2.hazards i = st1.hazards i) ∧
      (∀ (o0 o1 : List Bool) (old_head h : Ptr) (s1 : LockFreeStack.State T),
        LockFreeStack.pop_body me o0 old_head result st = some (s1, o1, Iter.again h) →
        s1.hazards (LockFreeStack.my_slot me st) = old_head ∧ s1.head = h) ∧
      (∀ st3 x b, LockFreeStack.pop me (true :: o) (fuel + 1) result st = some (st3, x, b) →
        st3.hazards (LockFreeStack.my_slot me st) = none) := by
  obtain ⟨f1, f2, f3, f4, f5⟩ := LockFreeStack.registered_fields me st
  have hb := LockFreeStack.pop_body_spurious me a n o result st htid hhead hread
  refine ⟨_, hb, ?_, rfl, f5, f3, ?_, ?_, ?_, ?_, ?_⟩
  · simp
  · intro i hi
    show Function.update (LockFreeStack.registered me st).hazards _ _ i = _
    rw [Function.update_noteq hi, f2]
  · unfold LockFreeStack.pop
    rw [hhead]
    conv_lhs => unfold LockFreeStack.pop_loop
    simp only [hb]
  · intro fresh
    refine ⟨_, LockFreeStack.set_hazard_pointer_stable me fresh st _ htid rfl, ?_, ?_⟩
    · simp
    · intro i hi
      show Function.update _ _ _ i = _
      rw [Function.update_noteq hi]
  · intro o0 o1 old_head h s1 hs
    have := LockFreeStack.pop_body_again me o0 o1 old_head h result st s1 htid hs
    exact ⟨this.1, this.2.1⟩
  · intro st3 x b hp
    rw [LockFreeStack.pop_nonempty me a n (true :: o) (fuel + 1) result st
      (by simpa using hfuel) htid hhead hread] at hp
    cases hr : LockFreeStack.retire_node (some a)
        { LockFreeStack.registered me st with
          head := n.next,
          hazards := Function.update (LockFreeStack.registered me st).hazards
            (LockFreeStack.my_slot me st) none } with
    | none => simp [hr] at hp
    | some s4 =>
      rw [hr] at hp
      simp only [Option.map_some', Option.some.injEq, Prod.mk.injEq] at hp
      obtain ⟨e, _, _⟩ := hp
      subst e
      rw [LockFreeStack.retire_node_hazards _ _ _ hr]
      simp

/-- Instance of the amended claim C25: thread 0 pops from the stack holding one node and the
first CAS fails; the slot holds node 0 at the end of the first iteration and is null when `pop`
has returned the element. -/
theorem C25_pop_failure_keeps_hazard_witness :
    ∃ st1,
      LockFreeStack.pop_body 0 [true] (some 0) 9 LockFreeStack.one_node_state =
        some (st1, [], Iter.again (some 0)) ∧
      st1.hazards (LockFreeStack.my_slot 0 LockFreeStack.one_node_state) = some 0 := by
  obtain ⟨st1, h1, h2, _⟩ := C25_pop_failure_keeps_hazard 0 0 { data := 10, next := none } []
    1 9 LockFreeStack.one_node_state (Or.inl (by decide)) rfl rfl (by decide)
  exact ⟨st1, h1, h2⟩

/-- Claim C26 evaluated on the code.  `thread_id` starts at -1 in every thread and
`next_thread_id` at 0.  The threads 0 to 127 call `pop` on a new stack one after the other.  Each
of them is handed the id equal to its number, keeps it on every later call of `get_thread_id`,
and its two slot indices `2 * id` and `2 * id + 1` lie inside the table of 256 entries and are
its own.  Then thread 128 calls `pop`: `get_thread_id` hands out the id 128 without any check,
the slot index is `128 * 2 + 0 = 256`, which is outside the table, so `set_hazard_pointer`,
`clear_hazard_pointer` and with them `pop` write outside the array (undefined behaviour, `none`
in the embedding). -/
theorem C26_thread_id_out_of_bounds {T : Type} (heap : Mem (Node T)) (result : T) :
    ∃ st,
      LockFreeStack.pop_each result (List.range 128)
        (LockFreeStack.new heap 0 (fun _ => -1)) = some st ∧
      (∀ j, j < 128 →
        LockFreeStack.get_thread_id j st = ((j : Int), st) ∧
        LockFreeStack.slot (j : Int) 0 = some (2 * j) ∧
        LockFreeStack.slot (j : Int) 1 = some (2 * j + 1) ∧
        2 * j + 1 < LockFreeStack.MAX_THREADS * LockFreeStack.MAX_HAZARDS) ∧
      st.thread_id 128 = -1 ∧
      (LockFreeStack.get_thread_id 128 st).1 = 128 ∧
      (128 : Int) * (LockFreeStack.MAX_HAZARDS : Int) + 0 =
        ((LockFreeStack.MAX_THREADS * LockFreeStack.MAX_HAZARDS : Nat) : Int) ∧
      LockFreeStack.slot 128 0 = none ∧
      (∀ p, LockFreeStack.set_hazard_pointer 128 0 p st = none) ∧
      LockFreeStack.clear_hazard_pointer 128 0 st = none ∧
      (∀ o fuel, LockFreeStack.pop 128 o fuel result st = none) := by
  obtain ⟨st, h1, hh, hn, hlt, hge⟩ := LockFreeStack.pop_each_ids result 128 0
    (LockFreeStack.new heap 0 (fun _ => -1)) (LockFreeStack.Ids_new heap) (by decide)
  have hun : st.thread_id 128 = -1 := hge 128 (by decide)
  have hg : LockFreeStack.get_thread_id 128 st = (128,
      { st with thread_id := Function.update st.thread_id 128 st.next_thread_id,
                next_thread_id := st.next_thread_id + 1 }) := by
    rw [LockFreeStack.get_thread_id_of_unset 128 st hun, hn]
    rfl
  have hs : LockFreeStack.slot 128 0 = none :=
    LockFreeStack.slot_out_of_bounds 128 0 (by simp [LockFreeStack.MAX_THREADS]) (le_refl 0)
  have hset : ∀ p, LockFreeStack.set_hazard_pointer 128 0 p st = none := by
    intro p
    unfold LockFreeStack.set_hazard_pointer
    simp only [hg, hs]
  refine ⟨st, ?_, ?_, hun, by rw [hg], by decide, hs, hset, ?_, ?_⟩
  · rw [List.range_eq_range']
    exact h1
  · intro j hj
    have hne : st.thread_id j ≠ -1 := by
      rw [hlt j (by omega)]
      omega
    have h0 := LockFreeStack.slot_of_index (j : Int) 0 (by omega)
      (by simp only [LockFreeStack.MAX_THREADS]; omega) (le_refl 0)
      (by simp [LockFreeStack.MAX_HAZARDS])
    have h1 := LockFreeStack.slot_of_index (j : Int) 1 (by omega)
      (by simp only [LockFreeStack.MAX_THREADS]; omega) (by decide)
      (by simp [LockFreeStack.MAX_HAZARDS])
    refine ⟨?_, ?_, ?_, ?_⟩
    · rw [LockFreeStack.get_thread_id_of_set j st hne, hlt j (by omega)]
    · rw [h0.1]
      simp only [LockFreeStack.MAX_HAZARDS, Option.some.injEq]
      omega
    · rw [h1.1]
      simp only [LockFreeStack.MAX_HAZARDS, Option.some.injEq]
      omega
    · simp only [LockFreeStack.MAX_THREADS, LockFreeStack.MAX_HAZARDS]
      omega
  · unfold LockFreeStack.clear_hazard_pointer
    simp only [hg, hs]
  · intro o fuel
    unfold LockFreeStack.pop
    cases fuel with
    | zero => rfl
    | succ fuel =>
      unfold LockFreeStack.pop_loop LockFreeStack.pop_body
      rw [hset]

/-- Claim C27.  Retired-count bound.  Thread `me` (which can be given a hazard slot) runs any
sequence of `push` and `pop` calls on a new stack, with any schedule of spurious CAS failures.
The run returns, and with `k` the number of pops that returned `true`:
* `retired_nodes_count()` and the length of the retire list equal `k mod 257`, so the count never
  exceeds 256;
* if the stack is not empty, the next `pop` returns `true`, and when `k mod 257` is below 256 it
  frees nothing (the free store is unchanged) and the count goes up by one, whereas when
  `k mod 257` is 256 (the pop is the 257th, 514th, ...) the count drops to 0, the retire list
  is emptied, and the 256 retired nodes and the node just popped, 257 live nodes in all,
  are all freed. -/
theorem C27_retired_count_bound {T : Type} (A : Allocator (Node T)) (me : Nat)
    (heap : Mem (Node T)) (next_thread_id : Int) (thread_id : Nat → Int)
    (htid : LockFreeStack.TidOK me next_thread_id thread_id)
    (cs : List (LockFreeStack.Op T × List Bool)) (result : T) :
    ∃ st1 r outs cells1,
      LockFreeStack.run A me cs result (LockFreeStack.new heap next_thread_id thread_id) =
        some (st1, r, outs) ∧
      Chain st1.heap st1.head cells1 ∧
      LockFreeStack.retired_nodes_count st1 = (outs.countP (fun x => x.1)) % 257 ∧
      st1.retired_list.length = (outs.countP (fun x => x.1)) % 257 ∧
      LockFreeStack.retired_nodes_count st1 ≤ 256 ∧
      (∀ a v rest (o : List Bool) (result1 : T), cells1 = (a, v) :: rest →
        ∃ st2, LockFreeStack.pop me o (o.length + 1) result1 st1 = some (st2, v, true) ∧
          ((outs.countP (fun x => x.1)) % 257 < 256 →
            st2.heap = st1.heap ∧ st2.retired_list = st1.retired_list ++ [some a] ∧
            LockFreeStack.retired_nodes_count st2 = (outs.countP (fun x => x.1)) % 257 + 1) ∧
          ((outs.countP (fun x => x.1)) % 257 = 256 →
            LockFreeStack.retired_nodes_count st2 = 0 ∧ st2.retired_list = [] ∧
            (st1.retired_list ++ [some a]).length = 257 ∧
            ∀ p ∈ st1.retired_list ++ [some a],
              ∃ b, p = some b ∧ st1.heap.read b ≠ none ∧ st2.heap.read b = none)) := by
  obtain ⟨st1, cells1, r, outs, hrun, hi1, _, hlen, _⟩ :=
    LockFreeStack.run_owned A me heap cs result
      (LockFreeStack.new heap next_thread_id thread_id) []
      (LockFreeStack.Inv.of_new me heap next_thread_id thread_id htid)
      (LockFreeStack.Owned_new heap next_thread_id thread_id)
  have hlen1 : st1.retired_list.length = (outs.countP (fun x => x.1)) % 257 := by
    rw [hlen]
    simp [LockFreeStack.new]
  have hcount := LockFreeStack.retired_nodes_count_eq hi1
  refine ⟨st1, r, outs, cells1, hrun, hi1.chain, by rw [hcount, hlen1], hlen1, ?_, ?_⟩
  · rw [hcount, hlen1]
    omega
  · intro a v rest o result1 hc
    subst hc
    obtain ⟨st2, h2, hi2, hex⟩ :=
      hi1.after_pop_exact o (o.length + 1) result1 (Nat.lt_succ_self _)
    have hcount2 := LockFreeStack.retired_nodes_count_eq hi2
    simp only [LockFreeStack.MAX_THREADS] at hex
    refine ⟨st2, h2, ?_, ?_⟩
    · intro hk
      rcases hex with ⟨_, e1, e2⟩ | ⟨e0, _, _⟩
      · refine ⟨e2, e1, ?_⟩
        rw [hcount2, e1, List.length_append, hlen1]
        rfl
      · omega
    · intro hk
      rcases hex with ⟨e0, _, _⟩ | ⟨e0, e1, e2⟩
      · omega
      · refine ⟨by rw [hcount2, e1]; rfl, e1, by simp [e0], ?_⟩
        intro p hp
        have hb : ∃ b, p = some b ∧ st1.heap.read b ≠ none := by
          rcases List.mem_append.mp hp with hp1 | hp1
          · exact hi1.retired_live p hp1
          · exact ⟨a, by simpa using hp1, Chain.live hi1.chain a (by simp)⟩
        obtain ⟨b, rfl, hl⟩ := hb
        exact ⟨b, rfl, hl, by rw [e2 b, if_pos hp]⟩

/-- Instance of claim C27: thread 0 pushes 1 and 2 and pops twice, the second `pop` after one
spurious CAS failure; two pops have succeeded and `retired_nodes_count()` is 2. -/
theorem C27_retired_count_bound_witness :
    ∃ st1 r outs,
      LockFreeStack.run (Allocator.bump (Node Nat)) 0
          [(LockFreeStack.Op.push 1, []), (LockFreeStack.Op.push 2, []),
           (LockFreeStack.Op.pop, []), (LockFreeStack.Op.pop, [true])] 0
          (LockFreeStack.new [] 0 (fun _ => -1)) = some (st1, r, outs) ∧
      outs = [(true, 2), (true, 1)] ∧
      LockFreeStack.retired_nodes_count st1 = (outs.countP (fun x => x.1)) % 257 := by
  obtain ⟨st1, r, outs, _, h1, _, h2, _⟩ := C27_retired_count_bound (Allocator.bump (Node Nat))
    0 [] 0 (fun _ => -1) (Or.inl (by decide))
    [(LockFreeStack.Op.push 1, []), (LockFreeStack.Op.push 2, []),
     (LockFreeStack.Op.pop, []), (LockFreeStack.Op.pop, [true])] 0
  have h3 : (LockFreeStack.run (Allocator.bump (Node Nat)) 0
      [(LockFreeStack.Op.push 1, []), (LockFreeStack.Op.push 2, []),
       (LockFreeStack.Op.pop, []), (LockFreeStack.Op.pop, [true])] 0
      (LockFreeStack.new [] 0 (fun _ => -1))).map (fun x => x.2.2) =
      some [(true, 2), (true, 1)] := rfl
  rw [h1] at h3
  exact ⟨st1, r, outs, h1, by simpa using h3, h2⟩

/-- Claim C28.  Retire-list accounting invariant.  Take a state in which `retired_count` equals
the number of entries of `retired_list` (as in a new stack) and the list has fewer than
`2^31 - 1` entries, so that the `int` counter does not overflow.  Then after every completed
`push`, `pop`, `retire_node` and `scan_and_reclaim`, whatever the calling thread, the schedule
of spurious CAS failures and the content of the hazard slots, `retired_count` again equals the
number of entries of `retired_list`.  And between two calls of a single-threaded run each of
the four operations does complete. -/
theorem C28_retired_accounting {T : Type} (st : LockFreeStack.State T)
    (hcount : st.retired_count = (st.retired_list.length : Int))
    (hlen : st.retired_list.length + 1 < 2 ^ 31) :
    (∀ (A : Allocator (Node T)) (o : List Bool) (fuel : Nat) (v : T) st1,
      LockFreeStack.push A o fuel v st = some st1 →
      st1.retired_count = (st1.retired_list.length : Int)) ∧
    (∀ (me : Nat) (o : List Bool) (fuel : Nat) (result : T) st1 x b,
      LockFreeStack.pop me o fuel result st = some (st1, x, b) →
      st1.retired_count = (st1.retired_list.length : Int)) ∧
    (∀ (node : Ptr) st1, LockFreeStack.retire_node node st = some st1 →
      st1.retired_count = (st1.retired_list.length : Int)) ∧
    (∀ st1, LockFreeStack.scan_and_reclaim st = some st1 →
      st1.retired_count = (st1.retired_list.length : Int)) ∧
    (∀ (me : Nat) (cells : List (Nat × T)), LockFreeStack.Inv me st cells →
      (∀ (A : Allocator (Node T)) (o : List Bool) (v : T),
        ∃ st1, LockFreeStack.push A o (o.length + 1) v st = some st1) ∧
      (∀ (o : List Bool) (result : T),
        ∃ st1 x b, LockFreeStack.pop me o (o.length + 1) result st = some (st1, x, b)) ∧
      (∀ a, st.heap.read a ≠ none → a ∉ cells.map Prod.fst → some a ∉ st.retired_list →
        ∃ st1, LockFreeStack.retire_node (some a) st = some st1) ∧
      (∃ st1, LockFreeStack.scan_and_reclaim st = some st1)) := by
  refine ⟨?_, ?_, ?_, ?_, ?_⟩
  · intro A o fuel v st1 h
    unfold LockFreeStack.push at h
    obtain ⟨e1, e2⟩ := LockFreeStack.push_loop_retired _ _ _ _ _ st1 h
    rw [e1, e2]
    exact hcount
  · intro me o fuel result st1 x b h
    exact LockFreeStack.pop_loop_count me fuel o st.head result st st1 x b hcount hlen h
  · intro node st1 h
    exact LockFreeStack.retire_node_count node st st1 hcount hlen h
  · intro st1 h
    exact (LockFreeStack.scan_and_reclaim_count st st1 (by omega) h).1
  · intro me cells hi
    refine ⟨?_, ?_, ?_, LockFreeStack.scan_and_reclaim_defined hi⟩
    · intro A o v
      exact ⟨_, LockFreeStack.push_eq A o (o.length + 1) v st (Nat.lt_succ_self _)⟩
    · intro o result
      cases cells with
      | nil =>
        obtain ⟨st1, h1, _⟩ := hi.after_pop_empty o (o.length + 1) result (Nat.succ_pos _)
        exact ⟨st1, result, false, h1⟩
      | cons c cells =>
        obtain ⟨st1, h1, _⟩ := hi.after_pop_cons o (o.length + 1) result (Nat.lt_succ_self _)
        exact ⟨st1, c.2, true, h1⟩
    · intro a ha hac har
      obtain ⟨st1, h1, _⟩ := hi.after_retire a ha hac har
      exact ⟨st1, h1⟩

/-- Instance of claim C28: in the state with three retired nodes and `retired_count` 3, a push
leaves the accounting intact. -/
theorem C28_retired_accounting_witness :
    ∃ st1,
      LockFreeStack.push (Allocator.bump (Node Nat)) [] 1 4 LockFreeStack.example_state =
        some st1 ∧
      st1.retired_count = (st1.retired_list.length : Int) :=
  ⟨_, LockFreeStack.push_eq (Allocator.bump (Node Nat)) [] 1 4 LockFreeStack.example_state
        (by decide),
    (C28_retired_accounting LockFreeStack.example_state rfl (by decide)).1
      (Allocator.bump (Node Nat)) [] 1 4 _
      (LockFreeStack.push_eq (Allocator.bump (Node Nat)) [] 1 4 LockFreeStack.example_state
        (by decide))⟩

/-- Claim C29.  Each node is freed exactly once.  Thread `me` (which can be given a hazard slot)
runs any sequence of `push` and `pop` calls on a stack constructed in the free store `heap0`,
with any schedule of spurious CAS failures.  The run returns (so no `delete` inside
`scan_and_reclaim` met a dead node), and in the state it reaches
* the retire list contains no node twice,
* no retired node is reachable from `head`,
* every retired node and every node of the chain is live (not yet freed), and the nodes of the
  chain are pairwise different,
* every address whose content differs from `heap0` is a node of the chain or a retired node;
and the destructor, given at least as many loop iterations as the chain is long, returns: each
of its `delete` statements meets a live node, and afterwards every address holds what it held in
`heap0`, that is every node the stack allocated has been freed. -/
theorem C29_freed_exactly_once {T : Type} (A : Allocator (Node T)) (me : Nat)
    (heap0 : Mem (Node T)) (next_thread_id : Int) (thread_id : Nat → Int)
    (htid : LockFreeStack.TidOK me next_thread_id thread_id)
    (cs : List (LockFreeStack.Op T × List Bool)) (result : T) :
    ∃ st1 r outs cells1,
      LockFreeStack.run A me cs result (LockFreeStack.new heap0 next_thread_id thread_id) =
        some (st1, r, outs) ∧
      Chain st1.heap st1.head cells1 ∧
      st1.retired_list.Nodup ∧
      (∀ a, some a ∈ st1.retired_list → ∀ k, nth_next st1.heap k st1.head ≠ some a) ∧
      (∀ p ∈ st1.retired_list, ∃ a, p = some a ∧ st1.heap.read a ≠ none) ∧
      (cells1.map Prod.fst).Nodup ∧
      (∀ a ∈ cells1.map Prod.fst, st1.heap.read a ≠ none) ∧
      (∀ b, st1.heap.read b ≠ heap0.read b →
        b ∈ cells1.map Prod.fst ∨ some b ∈ st1.retired_list) ∧
      (∀ fuel, cells1.length ≤ fuel →
        ∃ heap1, LockFreeStack.destructor fuel st1 = some heap1 ∧
          ∀ b, heap1.read b = heap0.read b) := by
  obtain ⟨st1, cells1, r, outs, hrun, hi1, ⟨o1, o2, o3⟩, _, _⟩ :=
    LockFreeStack.run_owned A me heap0 cs result
      (LockFreeStack.new heap0 next_thread_id thread_id) []
      (LockFreeStack.Inv.of_new me heap0 next_thread_id thread_id htid)
      (LockFreeStack.Owned_new heap0 next_thread_id thread_id)
  refine ⟨st1, r, outs, cells1, hrun, hi1.chain, hi1.retired_nodup, ?_, hi1.retired_live,
    hi1.nodup, Chain.live hi1.chain, ?_, ?_⟩
  · intro a ha k hk
    exact hi1.retired_disj a ha
      (nth_next_mem_chain (fun _ => Or.inl rfl) hi1.chain k a hk)
  · intro b hb
    by_contra hn
    simp only [not_or] at hn
    exact hb (o3 b hn.1 hn.2)
  · intro fuel hf
    obtain ⟨heap1, h1, h2⟩ := LockFreeStack.destructor_spec hi1 fuel hf
    refine ⟨heap1, h1, fun b => ?_⟩
    rw [h2 b]
    by_cases hb : b ∈ cells1.map Prod.fst
    · simp only [hb, true_or, if_true]
      exact (o1 b hb).symm
    · by_cases hb1 : some b ∈ st1.retired_list
      · simp only [hb1, or_true, if_true]
        exact (o2 b hb1).symm
      · simp only [hb, hb1, or_self, if_false]
        exact o3 b hb hb1

/-- Instance of claim C29: thread 0 pushes 1, 2 and 3 on a new stack in the empty free store and
pops once; the destructor then frees the two nodes of the chain and the retired node, and no
cell is live afterwards. -/
theorem C29_freed_exactly_once_witness :
    ∃ st1 r outs,
      LockFreeStack.run (Allocator.bump (Node Nat)) 0
          [(LockFreeStack.Op.push 1, []), (LockFreeStack.Op.push 2, [true]),
           (LockFreeStack.Op.push 3, []), (LockFreeStack.Op.pop, [])] 0
          (LockFreeStack.new [] 0 (fun _ => -1)) = some (st1, r, outs) ∧
      st1.retired_list = [some 2] ∧ st1.head = some 1 ∧
      ∃ heap1, LockFreeStack.destructor 2 st1 = some heap1 ∧
        ∀ b, heap1.read b = Mem.read ([] : Mem (Node Nat)) b := by
  obtain ⟨st1, r, outs, cells1, h1, h2, _, _, _, _, _, _, h9⟩ :=
    C29_freed_exactly_once (Allocator.bump (Node Nat)) 0 [] 0 (fun _ => -1)
      (Or.inl (by decide))
      [(LockFreeStack.Op.push 1, []), (LockFreeStack.Op.push 2, [true]),
       (LockFreeStack.Op.push 3, []), (LockFreeStack.Op.pop, [])] 0
  have h3 : (LockFreeStack.run (Allocator.bump (Node Nat)) 0
      [(LockFreeStack.Op.push 1, []), (LockFreeStack.Op.push 2, [true]),
       (LockFreeStack.Op.push 3, []), (LockFreeStack.Op.pop, [])] 0
      (LockFreeStack.new [] 0 (fun _ => -1))).map
        (fun x => (x.1.retired_list, x.1.head, x.1.heap)) =
      some ([some 2], some 1,
        [some { data := 1, next := none }, some { data := 2, next := some 0 },
         some { data := 3, next := some 1 }]) := rfl
  rw [h1] at h3
  simp only [Option.map_some', Option.some.injEq, Prod.mk.injEq] at h3
  obtain ⟨e1, e2, e3⟩ := h3
  have hlen : cells1.length ≤ 2 := by
    have hp := Chain.payloads_eq h2 cells1.length (le_refl _)
    rw [e2, e3] at hp
    match cells1, hp with
    | [], _ => simp
    | [_], _ => simp
    | [_, _], _ => simp
    | _ :: _ :: _ :: _, hp => simp [payloads, Mem.read] at hp
  exact ⟨st1, r, outs, h1, e1, e2, h9 2 hlen⟩

/-- Claim C30.  Blocked matrix multiplication equals the naive one.  Let `n` be at most `2^30`
(an `n`-by-`n` matrix with more rows has more than `2^60` entries; up to there no loop counter
overflows) and `block_size` an `int` that is at least 1.  Then `matrix_mult_blocked`, run on a
zero-initialised `C`, returns (each block loop makes at most `n` iterations), and every entry
`(i, j)` with `i, j < n` of its result equals the entry that `matrix_mult_naive` produces,
whatever `C` held before the naive run, and equals the sum over `k < n` of `A[i][k] * B[k][j]`
reduced to 32 bits with wrap-around.  When the naive multiplication also starts from the zero
matrix the two results are the same matrix. -/
theorem C30_blocked_eq_naive (A B C : IntMatrix) (n block_size fuel : Nat)
    (hn : n ≤ 2 ^ 30) (hbs : 1 ≤ block_size) (hint : block_size < 2 ^ 31) (hfuel : n ≤ fuel) :
    ∃ R, matrix_mult_blocked A B (fun _ _ => 0) n block_size fuel = some R ∧
      (∀ i j, i < n → j < n →
        R i j = matrix_mult_naive A B C n i j ∧
        R i j = wrap32 (((List.range n).map (fun k => A i k * B k j)).sum)) ∧
      R = matrix_mult_naive A B (fun _ _ => 0) n := by
  obtain ⟨R, h1, h2⟩ := blocked_entry A B (fun _ _ => 0) n block_size fuel hbs
    (no_index_overflow n block_size hn hint) hfuel
  have hdot : ∀ i j, dot A B i j 0 n = ((List.range n).map (fun k => A i k * B k j)).sum := by
    intro i j
    unfold dot
    rw [List.range_eq_range', Nat.sub_zero]
  refine ⟨R, h1, ?_, ?_⟩
  · intro i j hi hj
    rw [h2 i j, naive_entry, if_pos ⟨hi, hj⟩, if_pos ⟨hi, hj⟩, zero_add, hdot]
    exact ⟨rfl, rfl⟩
  · funext i j
    rw [h2 i j, naive_entry]
    by_cases h : i < n ∧ j < n
    · rw [if_pos h, if_pos h, zero_add]
    · rw [if_neg h, if_neg h]

/-- Instance of claim C30: 3-by-3 matrices with `A[i][k] = i + k` and `B[k][j] = k * j`, blocks
of size 2; the entry in row 1 and column 2 is `1*0 + 2*2 + 3*4 = 16` in both results. -/
theorem C30_blocked_eq_naive_witness :
    ∃ R, matrix_mult_blocked (fun i k => (i : Int) + k) (fun k j => (k : Int) * j)
        (fun _ _ => 0) 3 2 3 = some R ∧
      R 1 2 = matrix_mult_naive (fun i k => (i : Int) + k) (fun k j => (k : Int) * j)
        (fun _ _ => 7) 3 1 2 ∧
      R 1 2 = 16 := by
  obtain ⟨R, h1, h2, _⟩ := C30_blocked_eq_naive (fun i k => (i : Int) + k)
    (fun k j => (k : Int) * j) (fun _ _ => 7) 3 2 3 (by simp) (by decide) (by simp)
    (by decide)
  have h3 := h2 1 2 (by decide) (by decide)
  refine ⟨R, h1, h3.1, ?_⟩
  rw [h3.2]
  decide

end LockFree
